import Mathlib

/-! LimpidiSimboli: the linguistics module.

A shallow embedding of `src/modules/linguistics.js` (tokenizer, sanitizer,
morphological variant generators, depluralizer, tense detector), of the keyword
index loader of `src/modules/api.js`, and of the matching step that the
specification builds on top of them.

Strings.  A JavaScript string is a sequence of UTF-16 code units, and two
models of it are used.

* `Str`: the list of the characters of the string, each character standing for
  one code unit.  All literals of the module lie in the Basic Multilingual
  Plane, where one character is one code unit, so `List.length` is the
  JavaScript `length`, `List.take`/`List.drop` are `slice`, and so on.  The
  tokenizer, the variant generators, the depluralizer, the tense detector and
  the matching step are stated on this model.
* `Units`: the list of the code units themselves, any number below `2 ^ 16`,
  unpaired surrogates included.  This model is exact.  The results on the
  sanitizer and on the keyword loader that depend on what `toLowerCase` does to
  an arbitrary string are stated on it.

Built-ins of the language that the module calls are modelled as follows.

* `toLowerCase` on `Str`: character-wise, over Basic Latin and the Latin-1
  Supplement (the alphabets of the three supported languages); other characters
  are left unchanged.
* `toLowerCase` on `Units` (`toLowerCaseUnits`): the steps of ECMA-262, that is
  `StringToCodePoints`, the lower-case mapping of the Unicode Default Case
  Conversion algorithm with the context rule of the final sigma, and
  `CodePointsToString`.  The case data of the Unicode Character Database are a
  parameter; those of Unicode 14.0 are given and are shown to have the
  properties that the results assume.
* `\s` and `trim`: the ECMAScript `WhiteSpace` and `LineTerminator` code points.
* the `i` flag of a regular expression whose letters are all Basic Latin:
  comparison up to the case of Basic Latin letters.
* a `Set` of strings and its spread `[...out]`: the list of the distinct
  elements in insertion order.
-/

set_option autoImplicit false

namespace LimpidiSimboli

/-- A string: the list of its code units. -/
abbrev Str := List Char

/-! ## Built-ins -/

/-- The straight apostrophe U+0027. -/
def apostrophe : Char := Char.ofNat 39

/-- The right single quotation mark U+2019. -/
def rightQuote : Char := Char.ofNat 0x2019

/-- The left single quotation mark U+2018. -/
def leftQuote : Char := Char.ofNat 0x2018

/-- The no-break space U+00A0. -/
def nbsp : Char := Char.ofNat 0xA0

/-- The characters matched by `\s`, which are also those removed by `trim`. -/
def isWhiteSpace (c : Char) : Bool :=
  let n := c.toNat
  n == 9 || n == 10 || n == 11 || n == 12 || n == 13 || n == 32 || n == 0xA0 ||
  n == 0x1680 || (0x2000 ≤ n && n ≤ 0x200A) || n == 0x2028 || n == 0x2029 ||
  n == 0x202F || n == 0x205F || n == 0x3000 || n == 0xFEFF

/-- Upper-case letters of Basic Latin and Latin-1, paired with their lower case. -/
def lowerTable : List (Char × Char) :=
  "ABCDEFGHIJKLMNOPQRSTUVWXYZÀÁÂÃÄÅÆÇÈÉÊËÌÍÎÏÐÑÒÓÔÕÖØÙÚÛÜÝÞ".toList.zip
    "abcdefghijklmnopqrstuvwxyzàáâãäåæçèéêëìíîïðñòóôõöøùúûüýþ".toList

/-- Lower case of one character. -/
def toLowerChar (c : Char) : Char := (lowerTable.lookup c).getD c

/-- `s.toLowerCase()`. -/
def toLowerCase (s : Str) : Str := s.map toLowerChar

/-- `s.trim()`. -/
def trim (s : Str) : Str := (s.dropWhile isWhiteSpace).rdropWhile isWhiteSpace

/-- `s.endsWith(suf)`. -/
def endsWith (s suf : Str) : Bool := suf.isSuffixOf s

/-- `s.slice(0, -n)` for `n > 0`: the string without its last `n` code units. -/
def sliceEnd (s : Str) (n : Nat) : Str := s.take (s.length - n)

/-- `/(a1|a2|...)$/.test(s)`: some alternative is a suffix of `s`. -/
def testEnd (alts : List Str) (s : Str) : Bool := alts.any (endsWith s)

/-- `s.replace(/(a1|a2|...)$/, rep)`: the leftmost position from which the rest
of the string is one of the alternatives is replaced by `rep`; without such a
position the string is unchanged. -/
def replaceEnd (alts : List Str) (rep : Str) : Str → Str
  | [] => if alts.contains [] then rep else []
  | c :: cs => if alts.contains (c :: cs) then rep else c :: replaceEnd alts rep cs

/-- Worker of `splitWhiteSpace`: `cur` is the segment being read, `inSep` tells
that the previous code unit belonged to a separator. -/
def splitWhiteSpaceGo : Str → Str → Bool → List Str
  | [], cur, _ => [cur]
  | c :: cs, cur, inSep =>
    if isWhiteSpace c then
      if inSep then splitWhiteSpaceGo cs [] true
      else cur :: splitWhiteSpaceGo cs [] true
    else splitWhiteSpaceGo cs (cur ++ [c]) false

/-- `s.split(/\s+/)`: the segments between the maximal runs of white space,
the empty segments before a leading and after a trailing run included. -/
def splitWhiteSpace (s : Str) : List Str := splitWhiteSpaceGo s [] false

/-! ## Tokenizer and sanitizer -/

/-- `tokenize(text)`.  The character class of the apostrophe replacement holds
the straight apostrophe U+0027 twice, as in the source file. -/
def tokenize (text : Str) : List Str :=
  ((splitWhiteSpace (text.map fun c => if c = nbsp then ' ' else c)).map
    fun t => t.map fun c => if c = apostrophe || c = apostrophe then apostrophe else c).filter
    fun t => !t.isEmpty

/-- The elision stems of the sanitizer, in the order of the alternation. -/
def elisionStems : List Str :=
  ["l", "un", "dell", "all", "nell", "sull", "dall", "c", "d", "n", "s", "t", "v", "m",
    "qu"].map String.toList

/-- Equality of strings up to the case of Basic Latin letters. -/
def eqIgnoreCase (a b : Str) : Bool := a.map Char.toLower == b.map Char.toLower

/-- `word.replace(/^(l|un|...|qu)['']/i, '')`: the first stem of the alternation
with which the word starts, in any letter case, and which is followed by a
straight apostrophe, is removed with that apostrophe. -/
def stripElision (word : Str) : Str :=
  match elisionStems.find? fun st =>
      eqIgnoreCase (word.take st.length) st &&
        (word[st.length]? == some apostrophe || word[st.length]? == some apostrophe) with
  | some st => word.drop (st.length + 1)
  | none => word

/-- The class `[.,;:!?"'()\[\]{}<>]`. -/
def isPunctuation (c : Char) : Bool :=
  [Char.ofNat 46, Char.ofNat 44, Char.ofNat 59, Char.ofNat 58, Char.ofNat 33, Char.ofNat 63,
    Char.ofNat 34, Char.ofNat 39, Char.ofNat 40, Char.ofNat 41, Char.ofNat 91, Char.ofNat 93,
    Char.ofNat 123, Char.ofNat 125, Char.ofNat 60, Char.ofNat 62].contains c

/-- `sanitizeWord(word)`. -/
def sanitizeWord (word : Str) : Str :=
  if word.isEmpty then []
  else trim ((toLowerCase (stripElision word)).filter fun c => !isPunctuation c)

/-! ## Constant tables -/

/-- The table `STOP_WORDS`; a language tag without an entry has none. -/
def STOP_WORDS (lang : String) : Option (List Str) :=
  if lang = "it" then
    some (["il", "lo", "la", "i", "gli", "le", "un", "uno", "una", "del", "della", "dei", "degli",
      "delle", "di", "a", "da", "in", "con", "su", "per", "tra", "fra", "al", "allo", "alla",
      "ai", "agli", "alle", "dal", "dallo", "dalla", "dai", "dagli", "dalle", "nel", "nello",
      "nella", "nei", "negli", "nelle", "col", "coi", "sul", "sullo", "sulla", "sui", "sugli",
      "sulle", "e", "ed", "o", "oppure", "ma", "anche", "che", "se", "come", "più", "meno",
      "non", "mi", "ti", "si", "ci", "vi", "gli", "ne", "dei", "ho", "hai", "ha", "abbiamo",
      "avete", "hanno"].map String.toList)
  else if lang = "es" then
    some (["el", "la", "los", "las", "un", "una", "unos", "unas", "de", "a", "en", "con", "por",
      "para", "del", "al", "y", "o", "pero", "como", "más", "menos", "no", "me", "te", "se",
      "nos", "os", "le", "les"].map String.toList)
  else if lang = "en" then
    some (["the", "a", "an", "of", "to", "in", "on", "at", "for", "with", "by", "from", "as",
      "is", "was", "are", "be", "been", "have", "has", "had", "do", "does", "did", "will",
      "would", "can", "could", "may", "might", "must", "shall", "should", "and", "or", "but",
      "not", "no"].map String.toList)
  else none

/-- The Italian entry of `IRREGULAR_PRESENT_TO_INF`: irregular present form and
its infinitive. -/
def IRREGULAR_PRESENT_TO_INF_it : List (Str × Str) :=
  [("ho", "avere"), ("hai", "avere"), ("ha", "avere"), ("abbiamo", "avere"),
    ("avete", "avere"), ("hanno", "avere"), ("sono", "essere"), ("sei", "essere"),
    ("è", "essere"), ("siamo", "essere"), ("siete", "essere")].map
    fun p => (p.1.toList, p.2.toList)

/-- The table `irregularFutureMap` of `generateItalianVariants`: an infinitive
and its six future forms, in the order of the object literal. -/
def irregularFutureMap : List (Str × List Str) :=
  [("fare", ["farò", "farai", "farà", "faremo", "farete", "faranno"]),
    ("essere", ["sarò", "sarai", "sarà", "saremo", "sarete", "saranno"]),
    ("avere", ["avrò", "avrai", "avrà", "avremo", "avrete", "avranno"]),
    ("andare", ["andrò", "andrai", "andrà", "andremo", "andrete", "andranno"]),
    ("potere", ["potrò", "potrai", "potrà", "potremo", "potrete", "potranno"]),
    ("volere", ["vorrò", "vorrai", "vorrà", "vorremo", "vorrete", "vorranno"]),
    ("dovere", ["dovrò", "dovrai", "dovrà", "dovremo", "dovrete", "dovranno"]),
    ("bere", ["berrò", "berrai", "berrà", "berremo", "berrete", "berranno"]),
    ("venire", ["verrò", "verrai", "verrà", "verremo", "verrete", "verranno"]),
    ("tenere", ["terrò", "terrai", "terrà", "terremo", "terrete", "terranno"]),
    ("porre", ["porrò", "porrai", "porrà", "porremo", "porrete", "porranno"]),
    ("trarre", ["trarrò", "trarrai", "trarrà", "trarremo", "trarrete", "trarranno"])].map
    fun p => (p.1.toList, p.2.map String.toList)

/-! ## Variant generators

Each generator of the source creates a `Set`, calls the local function `add`
on a sequence of candidates and returns the elements of the set.  No branch
reads the set, so the embedding separates the two: `...Candidates` lists the
arguments of the successive calls of `add` in program order, and `collect`
replays `add` over them. -/

/-- The local function `add`, `v => { if (v && v.length > 1) out.add(v); }`,
acting on the set `out`. -/
def add (out : List Str) (v : Str) : List Str :=
  if !v.isEmpty && v.length > 1 then (if out.contains v then out else out ++ [v]) else out

/-- Replays `add` on the candidates, from the empty set; the result is
`[...out]`. -/
def collect (candidates : List Str) : List Str := candidates.foldl add []

/-- A suffix table entry `[suf, inf]` of the loops guarded by
`term.endsWith(suf) && term.length > (suf.length + 1)`. -/
def guardedSuffix (term : Str) (p : Str × Str) : List Str :=
  if endsWith term p.1 && term.length > p.1.length + 1 then [sliceEnd term p.1.length ++ p.2]
  else []

/-- The pairs of a suffix table whose suffixes all map to one ending. -/
def withEnding (sufs : List String) (inf : String) : List (Str × Str) :=
  sufs.map fun s => (s.toList, inf.toList)

/-- The arguments of the calls of `add` in `generateItalianVariants(term)`.
The lookup `IRREGULAR_PRESENT_TO_INF.it[lower]` is a lookup in the table: the
inherited properties with a lower-case name (`constructor`, `__proto__`) are not
strings of length above 1, so `add` never keeps them. -/
def italianCandidates (term : Str) : List Str :=
  let lower := toLowerCase term
  let infEnd : List Str := ["are", "ere", "ire"].map String.toList
  let clitics : List Str :=
    ["la", "lo", "li", "le", "mi", "ti", "si", "ci", "vi", "ne", "gli", "le"].map String.toList
  let part : List Str :=
    (["at", "it", "ut"].map String.toList).flatMap fun p =>
      (["o", "a", "i", "e"].map String.toList).map fun v => p ++ v
  let presentSets : List (List Str × List Str) :=
    [(["o", "i", "a", "iamo", "ate", "ano"].map String.toList, ["are".toList]),
      (["o", "i", "e", "iamo", "ete", "ono"].map String.toList, ["ere".toList]),
      (["o", "i", "e", "iamo", "ite", "ono"].map String.toList, ["ire".toList])]
  let imp : List (Str × Str) :=
    withEnding ["avo", "avi", "ava", "avamo", "avate", "avano"] "are" ++
    withEnding ["evo", "evi", "eva", "evamo", "evate", "evano"] "ere" ++
    withEnding ["ivo", "ivi", "iva", "ivamo", "ivate", "ivano"] "ire"
  let futEnd : List Str := ["ò", "ai", "à", "emo", "ete", "anno"].map String.toList
  let remoto : List (Str × Str) :=
    withEnding ["ai", "asti", "ò", "ammo", "aste", "arono"] "are" ++
    withEnding ["ei", "esti", "é", "emmo", "este", "erono"] "ere" ++
    withEnding ["etti", "ette", "ettero"] "ere" ++
    withEnding ["ii", "isti", "ì", "immo", "iste", "irono"] "ire"
  -- add(term)
  [term]
  -- irregular present
  ++ (match IRREGULAR_PRESENT_TO_INF_it.lookup lower with
      | some irregularInf => [irregularInf]
      | none => [])
  -- irregular future: the first entry whose forms include the term, then `break`
  ++ (match irregularFutureMap.find? fun e => e.2.contains term with
      | some e => [e.1]
      | none => [])
  -- clitics
  ++ (if testEnd (infEnd.map fun e => e ++ "si".toList) term then
        [replaceEnd ["si".toList] [] term] else [])
  ++ (if testEnd (infEnd.flatMap fun e => clitics.map fun c => e ++ c) term then
        [replaceEnd clitics [] term] else [])
  -- past participles
  ++ (if testEnd part term then
        infEnd.map fun inf => replaceEnd part [] term ++ inf else [])
  -- gerunds
  ++ (if testEnd ["ando".toList] term then [replaceEnd ["ando".toList] "are".toList term] else [])
  ++ (if testEnd ["endo".toList] term then
        [replaceEnd ["endo".toList] "ere".toList term,
          replaceEnd ["endo".toList] "ire".toList term] else [])
  -- present indicative
  ++ (presentSets.flatMap fun set => set.1.flatMap fun suf =>
        if endsWith term suf && term.length > suf.length + 1 then
          set.2.map fun inf => sliceEnd term suf.length ++ inf
        else [])
  -- verbs in -isco
  ++ ((withEnding ["isco", "isci", "isce", "iscono"] "ire").flatMap fun p =>
        if endsWith term p.1 then [sliceEnd term p.1.length ++ p.2] else [])
  -- imperfect
  ++ imp.flatMap (guardedSuffix term)
  -- future
  ++ (futEnd.flatMap fun fe =>
        (if endsWith term ("er".toList ++ fe) then
          let b := sliceEnd term (2 + fe.length)
          [b ++ "are".toList, b ++ "ere".toList]
          ++ (if testEnd ["g".toList] b || testEnd ["c".toList] b then [b ++ "iare".toList]
              else [])
          ++ (if testEnd ["ch".toList] b || testEnd ["gh".toList] b then
                [sliceEnd b 1 ++ "are".toList] else [])
        else [])
        ++ (if endsWith term ("ir".toList ++ fe) then
              [sliceEnd term (2 + fe.length) ++ "ire".toList] else []))
  -- passato remoto
  ++ remoto.flatMap (guardedSuffix term)
  -- adverbs in -mente
  ++ (if testEnd ["mente".toList] term && term.length > 6 then
        [replaceEnd ["mente".toList] "o".toList term, replaceEnd ["mente".toList] "a".toList term]
      else [])
  -- gender variants of adjectives
  ++ (if testEnd ["a".toList] lower then [sliceEnd lower 1 ++ "o".toList] else [])
  -- participle "stato"
  ++ (if (["stato", "stata", "stati", "state"].map String.toList).contains lower then
        ["stare".toList, "essere".toList] else [])

/-- `generateItalianVariants(term)`. -/
def generateItalianVariants (term : Str) : List Str := collect (italianCandidates term)

/-- The arguments of the calls of `add` in `generateSpanishVariants(term)`. -/
def spanishCandidates (term : Str) : List Str :=
  let w := toLowerCase term
  let pres : List (List Str × List Str) :=
    [(["o", "as", "a", "amos", "áis", "an"].map String.toList, ["ar".toList]),
      (["o", "es", "e", "emos", "éis", "en"].map String.toList, ["er".toList, "ir".toList]),
      (["o", "es", "e", "imos", "ís", "en"].map String.toList, ["ir".toList])]
  let tenses : List (Str × Str) :=
    withEnding ["aba", "abas", "ábamos", "abais", "aban"] "ar" ++
    withEnding ["ía", "ías", "íamos", "íais", "ían"] "er" ++
    withEnding ["ía", "ías", "íamos", "íais", "ían"] "ir" ++
    withEnding ["é", "aste", "ó", "amos", "asteis", "aron"] "ar" ++
    withEnding ["í", "iste", "ió", "imos", "isteis", "ieron"] "er" ++
    withEnding ["í", "iste", "ió", "imos", "isteis", "ieron"] "ir" ++
    withEnding ["aré", "arás", "ará", "aremos", "aréis", "arán"] "ar" ++
    withEnding ["eré", "erás", "erá", "eremos", "eréis", "erán"] "er" ++
    withEnding ["iré", "irás", "irá", "iremos", "iréis", "irán"] "ir"
  -- add(term)
  [term]
  -- clitics
  ++ ((["me", "te", "se", "nos", "os", "lo", "la", "los", "las", "le", "les"].map
        String.toList).flatMap fun pro =>
        if endsWith w pro && w.length > pro.length + 1 then [sliceEnd w pro.length] else [])
  -- past participles
  ++ ((["ado", "ada", "ados", "adas", "ido", "ida", "idos", "idas"].map
        String.toList).flatMap fun suf =>
        if endsWith w suf && w.length > suf.length + 1 then
          (["ar", "er", "ir"].map String.toList).map fun inf => sliceEnd w suf.length ++ inf
        else [])
  -- gerunds
  ++ (if endsWith w "ando".toList && w.length > 4 then [sliceEnd w 4 ++ "ar".toList] else [])
  ++ (if endsWith w "iendo".toList && w.length > 5 then
        (["er", "ir"].map String.toList).map fun inf => sliceEnd w 5 ++ inf else [])
  ++ (if endsWith w "yendo".toList && w.length > 5 then
        (["er", "ir"].map String.toList).map fun inf => sliceEnd w 5 ++ inf else [])
  -- present indicative
  ++ (pres.flatMap fun set => set.1.flatMap fun suf =>
        if endsWith w suf && w.length > suf.length + 1 then
          set.2.map fun inf => sliceEnd w suf.length ++ inf
        else [])
  -- imperfect and other tenses
  ++ tenses.flatMap (guardedSuffix w)
  -- adverbs in -mente
  ++ (if endsWith w "mente".toList && w.length > 6 then
        [sliceEnd w 5 ++ "o".toList, sliceEnd w 5 ++ "a".toList] else [])

/-- `generateSpanishVariants(term)`. -/
def generateSpanishVariants (term : Str) : List Str := collect (spanishCandidates term)

/-- The candidates of an English root: the root, the root without its last
letter when its last two letters are equal, and, when `yEnd` holds a suffix and
the root ends with it, the root with that suffix replaced by `y`. -/
def englishRoot (root : Str) (yEnd : Option Str) : List Str :=
  [root]
  ++ (if root.length > 1 && root[root.length - 1]? == root[root.length - 2]? then
        [sliceEnd root 1] else [])
  ++ (match yEnd with
      | some e => if endsWith root e then [sliceEnd root e.length ++ "y".toList] else []
      | none => [])

/-- The arguments of the calls of `add` in `generateEnglishVariants(term)`. -/
def englishCandidates (term : Str) : List Str :=
  let w := toLowerCase term
  -- add(w)
  [w]
  -- plurals
  ++ (if endsWith w "ies".toList && w.length > 3 then [sliceEnd w 3 ++ "y".toList] else [])
  ++ (if endsWith w "es".toList && w.length > 2 then [sliceEnd w 2] else [])
  ++ (if endsWith w "s".toList && w.length > 1 then [sliceEnd w 1] else [])
  -- past participles
  ++ (if endsWith w "ied".toList && w.length > 3 then [sliceEnd w 3 ++ "y".toList] else [])
  ++ (if endsWith w "ed".toList && w.length > 2 then englishRoot (sliceEnd w 2) none else [])
  -- forms in -ing
  ++ (if endsWith w "ing".toList && w.length > 3 then
        englishRoot (sliceEnd w 3) (some "ie".toList) else [])
  -- comparatives and superlatives
  ++ (if endsWith w "er".toList && w.length > 2 then
        englishRoot (sliceEnd w 2) (some "i".toList) else [])
  ++ (if endsWith w "est".toList && w.length > 3 then
        englishRoot (sliceEnd w 3) (some "i".toList) else [])
  -- adverbs in -ly
  ++ (if endsWith w "ly".toList && w.length > 2 then [sliceEnd w 2] else [])
  -- possessives
  ++ (if endsWith w [apostrophe, 's'] then [sliceEnd w 2] else [])

/-- `generateEnglishVariants(term)`. -/
def generateEnglishVariants (term : Str) : List Str := collect (englishCandidates term)

/-- `generateVariants(term, lang)`. -/
def generateVariants (term : Str) (lang : String) : List Str :=
  if lang = "it" then generateItalianVariants term
  else if lang = "es" then generateSpanishVariants term
  else if lang = "en" then generateEnglishVariants term
  else [term]

/-! ## Depluralizer -/

/-- `results.add(v)` on a `Set` of strings. -/
def setAdd (results : List Str) (v : Str) : List Str :=
  if results.contains v then results else results ++ [v]

/-- `depluralizeItalian(word)`. -/
def depluralizeItalian (word : Str) : List Str :=
  let w := trim (toLowerCase word)
  if w.isEmpty then []
  else
    let results := setAdd [] w
    let results :=
      if endsWith w "i".toList && w.length > 1 then
        setAdd (setAdd results (sliceEnd w 1 ++ "o".toList)) (sliceEnd w 1 ++ "a".toList)
      else results
    let results :=
      if endsWith w "e".toList && w.length > 1 then
        setAdd (setAdd results (sliceEnd w 1 ++ "a".toList)) (sliceEnd w 1 ++ "o".toList)
      else results
    results

/-! ## Tense detector -/

/-- The tense names that the documentation of `detectTense` lists. -/
inductive Tense where
  | past
  | future
  | present
  deriving DecidableEq

/-- The class `\w` of a regular expression without flags. -/
def isWordChar (c : Char) : Bool := c.isAlphanum || c == '_'

/-- The list `futIr` of `detectTense`. -/
def futIr : List Str :=
  ["sarò", "sarai", "sarà", "saremo", "sarete", "saranno",
    "avrò", "avrai", "avrà", "avremo", "avrete", "avranno",
    "andrò", "andrai", "andrà", "andremo", "andrete", "andranno",
    "farò", "farai", "farà", "faremo", "farete", "faranno",
    "potrò", "potrai", "potrà", "potremo", "potrete", "potranno",
    "vorrò", "vorrai", "vorrà", "vorremo", "vorrete", "vorranno",
    "dovrò", "dovrai", "dovrà", "dovremo", "dovrete", "dovranno",
    "berrò", "berrai", "berrà", "berremo", "berrete", "berranno",
    "verrò", "verrai", "verrà", "verremo", "verrete", "verranno",
    "terrò", "terrai", "terrà", "terremo", "terrete", "terranno",
    "porrò", "porrai", "porrà", "porremo", "porrete", "porranno",
    "trarrò", "trarrai", "trarrà", "trarremo", "trarrete", "trarranno"].map String.toList

/-- `detectTense(term, lang)`; `none` is `null`. -/
def detectTense (term : Str) (lang : String) : Option Tense :=
  let w := toLowerCase term
  if lang = "it" then
    if testEnd ((["er", "ir"].map String.toList).flatMap fun a =>
        (["ò", "ai", "à", "emo", "ete", "anno"].map String.toList).map fun b => a ++ b) w then
      some Tense.future
    else if futIr.contains w then some Tense.future
    else if testEnd ((["at", "ut", "it"].map String.toList).flatMap fun a =>
        (["o", "a", "i", "e"].map String.toList).map fun b => a ++ b) w then
      some Tense.past
    else if (["avo", "avi", "ava", "avamo", "avate", "avano", "evo", "evi", "eva", "evamo",
        "evate", "evano", "ivo", "ivi", "iva", "ivamo", "ivate", "ivano"].map
        String.toList).any (endsWith w) then
      some Tense.past
    else if (["ai", "asti", "ò", "ammo", "aste", "arono", "ei", "esti", "é", "emmo", "este",
        "erono", "etti", "ette", "ettero", "ii", "isti", "ì", "immo", "iste", "irono"].map
        String.toList).any (endsWith w) then
      some Tense.past
    else none
  else if lang = "es" then
    if testEnd (["é", "ás", "á", "emos", "éis", "án"].map String.toList) w then some Tense.future
    else if testEnd (["é", "aste", "ó", "amos", "asteis", "aron", "í", "iste", "ió", "imos",
        "isteis", "ieron"].map String.toList) w then
      some Tense.past
    else none
  else if lang = "en" then
    if "will".toList.isPrefixOf w &&
        (match w[4]? with
          | some c => !isWordChar c
          | none => true) then
      some Tense.future
    else if testEnd ["ed".toList] w then some Tense.past
    else none
  else none

/-! ## Matching engine

The function `analyzePhrase` of the specification is not part of
`src/modules`; its per-token step is modelled from section 4.6 of the
specification, on top of the functions above and of the keyword cache of
`state.js`. -/

/-- The keyword part of `state.cache`: `keywordIndex` (keyword to symbol ids),
`keywordEntries` (the set the specification calls `knownKeywords`) and the flag
`keywordIndexReady`. -/
structure Cache where
  keywordIndex : List (Str × List Nat)
  keywordEntries : List Str
  keywordIndexReady : Bool

/-- The fields of a `GrammaticalAnalysis` that the matching step fills:
`lemma_` is the field `lemma` (`none` is `null`, a function word), `tense` the
result of the tense detector. -/
structure GrammaticalAnalysis where
  lemma_ : Option Str
  tense : Option Tense
  deriving DecidableEq

/-- One element of the result of `analyzePhrase`. -/
structure TokenResult where
  token : Str
  queryTerm : Option Str
  analysis : GrammaticalAnalysis
  deriving DecidableEq

/-- Modelled from the spec: the per-token step of the MatchingEngine (section
4.6), which is missing from the sources.  (a) sanitize; (b) an empty key, or a
stop word of the language when stop words are skipped, gives no query term and
`lemma: null`; (c) otherwise the variants are generated; (d) the sanitized key
is probed first, then the variants in their iteration order; (e) the first
variant present in `knownKeywords` is the query term, and without a match the
sanitized key is, whether or not the index is ready. -/
def analyzeToken (cache : Cache) (lang : String) (skipStopWords : Bool) (token : Str) :
    TokenResult :=
  let key := sanitizeWord token
  if key.isEmpty || (skipStopWords && ((STOP_WORDS lang).getD []).contains key) then
    { token := token, queryTerm := none, analysis := { lemma_ := none, tense := none } }
  else
    let variants := generateVariants key lang
    let queryTerm :=
      if cache.keywordEntries.contains key then key
      else (variants.find? fun v => cache.keywordEntries.contains v).getD key
    { token := token, queryTerm := some queryTerm,
      analysis := { lemma_ := some queryTerm, tense := detectTense key lang } }

/-- Modelled from the spec: `analyzePhrase(text, lang, {skipStopWords})`
(section 6), missing from the sources: the tokens of the text, in order, each
with its query term and analysis. -/
def analyzePhrase (cache : Cache) (text : Str) (lang : String) (skipStopWords : Bool) :
    List TokenResult :=
  (tokenize text).map (analyzeToken cache lang skipStopWords)

/-! ## Pronoun tables -/

/-- The table `PRONOUNS`; a language tag without an entry has none. -/
def PRONOUNS (lang : String) : Option (List Str) :=
  if lang = "it" then
    some (["io", "tu", "lui", "lei", "noi", "voi", "loro", "me", "te", "mi", "ti", "si", "ci",
      "vi", "ne", "gli", "le", "li", "la", "lo"].map String.toList)
  else if lang = "es" then
    some (["yo", "tú", "él", "ella", "nosotros", "nosotras", "vosotros", "vosotras", "ellos",
      "ellas", "me", "te", "se", "nos", "os", "lo", "la", "los", "las", "le", "les"].map
      String.toList)
  else if lang = "en" then
    some (["i", "you", "he", "she", "it", "we", "they", "me", "him", "her", "us", "them", "my",
      "your", "his", "hers", "our", "their"].map String.toList)
  else none

/-- The table `PRONOUN_SEARCH_MAP`: per language, a pronoun and its search
term; the Spanish and English entries are empty objects. -/
def PRONOUN_SEARCH_MAP (lang : String) : Option (List (Str × Str)) :=
  if lang = "it" then
    some ([("me", "io"), ("mi", "io"), ("te", "tu"), ("ti", "tu"), ("ci", "noi"), ("vi", "voi"),
      ("lui", "lui"), ("lei", "lei"), ("lo", "lui"), ("la", "lei"), ("li", "loro"),
      ("le", "loro"), ("loro", "loro"), ("noi", "noi"), ("voi", "voi"), ("tu", "tu"),
      ("io", "io")].map fun p => (p.1.toList, p.2.toList))
  else if lang = "es" then some []
  else if lang = "en" then some []
  else none

/-! ## Named tables

The tables below are local to `generateItalianVariants` and to `detectTense` in
the source; they are repeated here under a name so that statements can range
over them. -/

/-- The table `imp` of `generateItalianVariants`: an imperfect suffix and the
infinitive ending it maps to. -/
def impTable : List (Str × Str) :=
  withEnding ["avo", "avi", "ava", "avamo", "avate", "avano"] "are" ++
  withEnding ["evo", "evi", "eva", "evamo", "evate", "evano"] "ere" ++
  withEnding ["ivo", "ivi", "iva", "ivamo", "ivate", "ivano"] "ire"

/-- The alternatives of `/(er|ir)(ò|ai|à|emo|ete|anno)$/` in `detectTense`. -/
def futureEndings : List Str :=
  (["er", "ir"].map String.toList).flatMap fun a =>
    (["ò", "ai", "à", "emo", "ete", "anno"].map String.toList).map fun b => a ++ b

/-- The alternatives of `/(at|ut|it)[oaie]$/` in `detectTense`. -/
def participleEndings : List Str :=
  (["at", "ut", "it"].map String.toList).flatMap fun a =>
    (["o", "a", "i", "e"].map String.toList).map fun b => a ++ b

/-- The list `imp` of `detectTense`: the imperfect suffixes. -/
def impSuffixes : List Str :=
  ["avo", "avi", "ava", "avamo", "avate", "avano", "evo", "evi", "eva", "evamo",
    "evate", "evano", "ivo", "ivi", "iva", "ivamo", "ivate", "ivano"].map String.toList

/-- The list `rem` of `detectTense`: the passato remoto suffixes. -/
def remSuffixes : List Str :=
  ["ai", "asti", "ò", "ammo", "aste", "arono", "ei", "esti", "é", "emmo", "este",
    "erono", "etti", "ette", "ettero", "ii", "isti", "ì", "immo", "iste", "irono"].map
    String.toList

/-- The alternatives of the Spanish future pattern of `detectTense`. -/
def spanishFutureEndings : List Str := ["é", "ás", "á", "emos", "éis", "án"].map String.toList

/-- The alternatives of the Spanish past pattern of `detectTense`. -/
def spanishPastEndings : List Str :=
  ["é", "aste", "ó", "amos", "asteis", "aron", "í", "iste", "ió", "imos", "isteis",
    "ieron"].map String.toList

/-- The list `['are','ere','ire']` of `generateItalianVariants`, which is also
the alternation `infEnd`. -/
def infEndAlternatives : List Str := ["are", "ere", "ire"].map String.toList

/-- The alternation `clitics` of `generateItalianVariants`. -/
def cliticAlternatives : List Str :=
  ["la", "lo", "li", "le", "mi", "ti", "si", "ci", "vi", "ne", "gli", "le"].map String.toList

/-- The alternatives of the pattern `part` of `generateItalianVariants`,
`/(at|it|ut)[oaie]$/`. -/
def partAlternatives : List Str :=
  (["at", "it", "ut"].map String.toList).flatMap fun p =>
    (["o", "a", "i", "e"].map String.toList).map fun v => p ++ v

/-! ## Strings as sequences of code units

The sanitizer and the keyword loader call `toLowerCase` on arbitrary input, and
the result of that call depends on how the code units of the string pair up
into code points.  For these two functions a string is therefore modelled
exactly, as the list of its UTF-16 code units (`Units`), unpaired surrogates
included, and `toLowerCase` follows the steps of ECMA-262: `StringToCodePoints`,
the lower-case mapping of the Unicode Default Case Conversion algorithm,
`CodePointsToString`. -/

/-- A UTF-16 code unit: a number below `2 ^ 16`. -/
abbrev CodeUnit := Fin 65536

/-- A string of the language: any finite sequence of code units. -/
abbrev Units := List CodeUnit

/-- The code unit with the value `n`, for `n < 2 ^ 16`. -/
def unit (n : Nat) : CodeUnit := ⟨n % 65536, Nat.mod_lt n (by decide)⟩

/-- A leading surrogate: `0xD800` to `0xDBFF`. -/
def isLeadingSurrogate (c : Nat) : Bool := decide (0xD800 ≤ c) && decide (c ≤ 0xDBFF)

/-- A trailing surrogate: `0xDC00` to `0xDFFF`. -/
def isTrailingSurrogate (c : Nat) : Bool := decide (0xDC00 ≤ c) && decide (c ≤ 0xDFFF)

/-- A surrogate, leading or trailing. -/
def isSurrogate (c : Nat) : Bool := isLeadingSurrogate c || isTrailingSurrogate c

/-- The abstract operation `UTF16SurrogatePairToCodePoint(lead, trail)`. -/
def utf16SurrogatePairToCodePoint (lead trail : Nat) : Nat :=
  (lead - 0xD800) * 0x400 + (trail - 0xDC00) + 0x10000

/-- The abstract operation `StringToCodePoints(s)`: from left to right, a
leading surrogate directly followed by a trailing surrogate is one code point,
and every other code unit, an unpaired surrogate included, is the code point
with its own value. -/
def stringToCodePoints : Units → List Nat
  | [] => []
  | [u] => [u.val]
  | u :: v :: rest =>
    if isLeadingSurrogate u.val && isTrailingSurrogate v.val then
      utf16SurrogatePairToCodePoint u.val v.val :: stringToCodePoints rest
    else u.val :: stringToCodePoints (v :: rest)

/-- The abstract operation `UTF16EncodeCodePoint(cp)`. -/
def utf16EncodeCodePoint (cp : Nat) : Units :=
  if cp ≤ 0xFFFF then [unit cp]
  else [unit ((cp - 0x10000) / 0x400 + 0xD800), unit ((cp - 0x10000) % 0x400 + 0xDC00)]

/-- The abstract operation `CodePointsToString(text)`. -/
def codePointsToString (text : List Nat) : Units := text.flatMap utf16EncodeCodePoint

/-- The method `s.isWellFormed()`: the string has no unpaired surrogate. -/
def isWellFormed (s : Units) : Bool := (stringToCodePoints s).all fun c => !isSurrogate c

/-- The code units of a string given by its characters. -/
def toUnits (s : Str) : Units := codePointsToString (s.map Char.toNat)

/-! ## Case conversion

`s.toLowerCase()` maps each code point of the string to its lower-case mapping
in the Unicode Character Database: the full mapping, which may be several code
points long, and the one mapping that depends on the context and not on the
language, that of the capital sigma.  The database belongs to the engine that
runs the code, so the functions below take the part of it that they read as a
parameter, `CaseData`; the database of Unicode 14.0 is given further down. -/

/-- The part of the Unicode Character Database that lower-casing reads: the
unconditional lower-case mapping of a code point (`UnicodeData.txt`, replaced by
`SpecialCasing.txt` where that file has an unconditional entry), and the
properties `Cased` and `Case_Ignorable`. -/
structure CaseData where
  lower : Nat → List Nat
  cased : Nat → Bool
  caseIgnorable : Nat → Bool

/-- Walking away from a sigma over the code points `cs`: the case-ignorable
code points are skipped, and the first other code point is tested for `Cased`. -/
def casedAhead (d : CaseData) : List Nat → Bool
  | [] => false
  | c :: cs => if d.caseIgnorable c then casedAhead d cs else d.cased c

/-- The condition `Final_Sigma` of `SpecialCasing.txt`: the sigma is preceded
by a cased letter and is not followed by one, case-ignorable code points being
skipped on both sides.  `before` lists the code points before the sigma from
the nearest one on, `after` those after it. -/
def finalSigma (d : CaseData) (before after : List Nat) : Bool :=
  casedAhead d before && !casedAhead d after

/-- The operation `toLowercase` of the Default Case Conversion algorithm on a
sequence of code points; `before` lists the code points already passed, the
nearest first.  The capital sigma U+03A3 in the context `Final_Sigma` becomes
the final sigma U+03C2, every other code point takes its mapping. -/
def toLowercase (d : CaseData) : List Nat → List Nat → List Nat
  | _, [] => []
  | before, c :: after =>
    (if c = 0x3A3 ∧ finalSigma d before after = true then [0x3C2] else d.lower c) ++
      toLowercase d (c :: before) after

/-- The method `s.toLowerCase()`. -/
def toLowerCaseUnits (d : CaseData) (s : Units) : Units :=
  codePointsToString (toLowercase d [] (stringToCodePoints s))

/-! ## The sanitizer on code units -/

/-- The straight apostrophe U+0027 as a code unit. -/
def apostropheUnit : CodeUnit := unit 39

/-- The code units matched by `\s`, which are also those removed by `trim`. -/
def isWhiteSpaceUnit (u : CodeUnit) : Bool :=
  let n := u.val
  n == 9 || n == 10 || n == 11 || n == 12 || n == 13 || n == 32 || n == 0xA0 ||
  n == 0x1680 || (0x2000 ≤ n && n ≤ 0x200A) || n == 0x2028 || n == 0x2029 ||
  n == 0x202F || n == 0x205F || n == 0x3000 || n == 0xFEFF

/-- The method `s.trim()`. -/
def trimUnits (s : Units) : Units := (s.dropWhile isWhiteSpaceUnit).rdropWhile isWhiteSpaceUnit

/-- The class `[.,;:!?"'()\[\]{}<>]`, by the values of its code units. -/
def isPunctuationUnit (u : CodeUnit) : Bool :=
  [46, 44, 59, 58, 33, 63, 34, 39, 40, 41, 91, 93, 123, 125, 60, 62].contains u.val

/-- Lower case of a Basic Latin letter, other code units unchanged. -/
def lowerAsciiUnit (u : CodeUnit) : CodeUnit :=
  if 65 ≤ u.val ∧ u.val ≤ 90 then unit (u.val + 32) else u

/-- The elision stems as strings of code units. -/
def elisionStemsUnits : List Units := elisionStems.map toUnits

/-- Equality of strings up to the case of Basic Latin letters: the comparison
made by the `i` flag, without the `u` flag, against letters of Basic Latin. -/
def eqIgnoreCaseUnits (a b : Units) : Bool := a.map lowerAsciiUnit == b.map lowerAsciiUnit

/-- The call `word.replace(/^(l|un|...|qu)['']/i, '')` on code units: see
`stripElision`. -/
def stripElisionUnits (word : Units) : Units :=
  match elisionStemsUnits.find? fun st =>
      eqIgnoreCaseUnits (word.take st.length) st &&
        (word[st.length]? == some apostropheUnit || word[st.length]? == some apostropheUnit) with
  | some st => word.drop (st.length + 1)
  | none => word

/-- The function `sanitizeWord(word)` on code units: the elision is removed,
the rest is lower-cased, the punctuation class is removed and the result is
trimmed. -/
def sanitizeWordUnits (d : CaseData) (word : Units) : Units :=
  if word.isEmpty then []
  else trimUnits ((toLowerCaseUnits d (stripElisionUnits word)).filter fun u =>
    !isPunctuationUnit u)

/-! ## The case data of Unicode 14.0

The tables below are those of version 14.0.0 of the Unicode Character
Database: the simple lower-case mappings of `UnicodeData.txt`, the one
unconditional lower-case entry of `SpecialCasing.txt` (U+0130), and the
properties `Cased` and `Case_Ignorable` of `DerivedCoreProperties.txt`. -/

/-- A run of simple case mappings: the code points `first`, `first + step`, ...
up to `last` are mapped to `target`, `target + step`, ... -/
structure CaseRange where
  first : Nat
  last : Nat
  step : Nat
  target : Nat

/-- The code point `c` is one of the code points that the run maps. -/
def CaseRange.applies (r : CaseRange) (c : Nat) : Bool :=
  decide (r.first ≤ c) && decide (c ≤ r.last) && (c - r.first) % r.step == 0

/-- The simple lower-case mappings of `UnicodeData.txt`: the code points `first`,
`first + step`, ... up to `last` are mapped to `target`, `target + step`, ... -/
def lowerRanges : List CaseRange :=
  [
    CaseRange.mk 0x0041 0x005A 1 0x0061, CaseRange.mk 0x00C0 0x00D6 1 0x00E0,
    CaseRange.mk 0x00D8 0x00DE 1 0x00F8, CaseRange.mk 0x0100 0x012E 2 0x0101,
    CaseRange.mk 0x0130 0x0130 1 0x0069, CaseRange.mk 0x0132 0x0136 2 0x0133,
    CaseRange.mk 0x0139 0x0147 2 0x013A, CaseRange.mk 0x014A 0x0176 2 0x014B,
    CaseRange.mk 0x0178 0x0178 1 0x00FF, CaseRange.mk 0x0179 0x017D 2 0x017A,
    CaseRange.mk 0x0181 0x0181 1 0x0253, CaseRange.mk 0x0182 0x0184 2 0x0183,
    CaseRange.mk 0x0186 0x0186 1 0x0254, CaseRange.mk 0x0187 0x0187 1 0x0188,
    CaseRange.mk 0x0189 0x018A 1 0x0256, CaseRange.mk 0x018B 0x018B 1 0x018C,
    CaseRange.mk 0x018E 0x018E 1 0x01DD, CaseRange.mk 0x018F 0x018F 1 0x0259,
    CaseRange.mk 0x0190 0x0190 1 0x025B, CaseRange.mk 0x0191 0x0191 1 0x0192,
    CaseRange.mk 0x0193 0x0193 1 0x0260, CaseRange.mk 0x0194 0x0194 1 0x0263,
    CaseRange.mk 0x0196 0x0196 1 0x0269, CaseRange.mk 0x0197 0x0197 1 0x0268,
    CaseRange.mk 0x0198 0x0198 1 0x0199, CaseRange.mk 0x019C 0x019C 1 0x026F,
    CaseRange.mk 0x019D 0x019D 1 0x0272, CaseRange.mk 0x019F 0x019F 1 0x0275,
    CaseRange.mk 0x01A0 0x01A4 2 0x01A1, CaseRange.mk 0x01A6 0x01A6 1 0x0280,
    CaseRange.mk 0x01A7 0x01A7 1 0x01A8, CaseRange.mk 0x01A9 0x01A9 1 0x0283,
    CaseRange.mk 0x01AC 0x01AC 1 0x01AD, CaseRange.mk 0x01AE 0x01AE 1 0x0288,
    CaseRange.mk 0x01AF 0x01AF 1 0x01B0, CaseRange.mk 0x01B1 0x01B2 1 0x028A,
    CaseRange.mk 0x01B3 0x01B5 2 0x01B4, CaseRange.mk 0x01B7 0x01B7 1 0x0292,
    CaseRange.mk 0x01B8 0x01B8 1 0x01B9, CaseRange.mk 0x01BC 0x01BC 1 0x01BD,
    CaseRange.mk 0x01C4 0x01C4 1 0x01C6, CaseRange.mk 0x01C5 0x01C5 1 0x01C6,
    CaseRange.mk 0x01C7 0x01C7 1 0x01C9, CaseRange.mk 0x01C8 0x01C8 1 0x01C9,
    CaseRange.mk 0x01CA 0x01CA 1 0x01CC, CaseRange.mk 0x01CB 0x01DB 2 0x01CC,
    CaseRange.mk 0x01DE 0x01EE 2 0x01DF, CaseRange.mk 0x01F1 0x01F1 1 0x01F3,
    CaseRange.mk 0x01F2 0x01F4 2 0x01F3, CaseRange.mk 0x01F6 0x01F6 1 0x0195,
    CaseRange.mk 0x01F7 0x01F7 1 0x01BF, CaseRange.mk 0x01F8 0x021E 2 0x01F9,
    CaseRange.mk 0x0220 0x0220 1 0x019E, CaseRange.mk 0x0222 0x0232 2 0x0223,
    CaseRange.mk 0x023A 0x023A 1 0x2C65, CaseRange.mk 0x023B 0x023B 1 0x023C,
    CaseRange.mk 0x023D 0x023D 1 0x019A, CaseRange.mk 0x023E 0x023E 1 0x2C66,
    CaseRange.mk 0x0241 0x0241 1 0x0242, CaseRange.mk 0x0243 0x0243 1 0x0180,
    CaseRange.mk 0x0244 0x0244 1 0x0289, CaseRange.mk 0x0245 0x0245 1 0x028C,
    CaseRange.mk 0x0246 0x024E 2 0x0247, CaseRange.mk 0x0370 0x0372 2 0x0371,
    CaseRange.mk 0x0376 0x0376 1 0x0377, CaseRange.mk 0x037F 0x037F 1 0x03F3,
    CaseRange.mk 0x0386 0x0386 1 0x03AC, CaseRange.mk 0x0388 0x038A 1 0x03AD,
    CaseRange.mk 0x038C 0x038C 1 0x03CC, CaseRange.mk 0x038E 0x038F 1 0x03CD,
    CaseRange.mk 0x0391 0x03A1 1 0x03B1, CaseRange.mk 0x03A3 0x03AB 1 0x03C3,
    CaseRange.mk 0x03CF 0x03CF 1 0x03D7, CaseRange.mk 0x03D8 0x03EE 2 0x03D9,
    CaseRange.mk 0x03F4 0x03F4 1 0x03B8, CaseRange.mk 0x03F7 0x03F7 1 0x03F8,
    CaseRange.mk 0x03F9 0x03F9 1 0x03F2, CaseRange.mk 0x03FA 0x03FA 1 0x03FB,
    CaseRange.mk 0x03FD 0x03FF 1 0x037B, CaseRange.mk 0x0400 0x040F 1 0x0450,
    CaseRange.mk 0x0410 0x042F 1 0x0430, CaseRange.mk 0x0460 0x0480 2 0x0461,
    CaseRange.mk 0x048A 0x04BE 2 0x048B, CaseRange.mk 0x04C0 0x04C0 1 0x04CF,
    CaseRange.mk 0x04C1 0x04CD 2 0x04C2, CaseRange.mk 0x04D0 0x052E 2 0x04D1,
    CaseRange.mk 0x0531 0x0556 1 0x0561, CaseRange.mk 0x10A0 0x10C5 1 0x2D00,
    CaseRange.mk 0x10C7 0x10C7 1 0x2D27, CaseRange.mk 0x10CD 0x10CD 1 0x2D2D,
    CaseRange.mk 0x13A0 0x13EF 1 0xAB70, CaseRange.mk 0x13F0 0x13F5 1 0x13F8,
    CaseRange.mk 0x1C90 0x1CBA 1 0x10D0, CaseRange.mk 0x1CBD 0x1CBF 1 0x10FD,
    CaseRange.mk 0x1E00 0x1E94 2 0x1E01, CaseRange.mk 0x1E9E 0x1E9E 1 0x00DF,
    CaseRange.mk 0x1EA0 0x1EFE 2 0x1EA1, CaseRange.mk 0x1F08 0x1F0F 1 0x1F00,
    CaseRange.mk 0x1F18 0x1F1D 1 0x1F10, CaseRange.mk 0x1F28 0x1F2F 1 0x1F20,
    CaseRange.mk 0x1F38 0x1F3F 1 0x1F30, CaseRange.mk 0x1F48 0x1F4D 1 0x1F40,
    CaseRange.mk 0x1F59 0x1F5F 2 0x1F51, CaseRange.mk 0x1F68 0x1F6F 1 0x1F60,
    CaseRange.mk 0x1F88 0x1F8F 1 0x1F80, CaseRange.mk 0x1F98 0x1F9F 1 0x1F90,
    CaseRange.mk 0x1FA8 0x1FAF 1 0x1FA0, CaseRange.mk 0x1FB8 0x1FB9 1 0x1FB0,
    CaseRange.mk 0x1FBA 0x1FBB 1 0x1F70, CaseRange.mk 0x1FBC 0x1FBC 1 0x1FB3,
    CaseRange.mk 0x1FC8 0x1FCB 1 0x1F72, CaseRange.mk 0x1FCC 0x1FCC 1 0x1FC3,
    CaseRange.mk 0x1FD8 0x1FD9 1 0x1FD0, CaseRange.mk 0x1FDA 0x1FDB 1 0x1F76,
    CaseRange.mk 0x1FE8 0x1FE9 1 0x1FE0, CaseRange.mk 0x1FEA 0x1FEB 1 0x1F7A,
    CaseRange.mk 0x1FEC 0x1FEC 1 0x1FE5, CaseRange.mk 0x1FF8 0x1FF9 1 0x1F78,
    CaseRange.mk 0x1FFA 0x1FFB 1 0x1F7C, CaseRange.mk 0x1FFC 0x1FFC 1 0x1FF3,
    CaseRange.mk 0x2126 0x2126 1 0x03C9, CaseRange.mk 0x212A 0x212A 1 0x006B,
    CaseRange.mk 0x212B 0x212B 1 0x00E5, CaseRange.mk 0x2132 0x2132 1 0x214E,
    CaseRange.mk 0x2160 0x216F 1 0x2170, CaseRange.mk 0x2183 0x2183 1 0x2184,
    CaseRange.mk 0x24B6 0x24CF 1 0x24D0, CaseRange.mk 0x2C00 0x2C2F 1 0x2C30,
    CaseRange.mk 0x2C60 0x2C60 1 0x2C61, CaseRange.mk 0x2C62 0x2C62 1 0x026B,
    CaseRange.mk 0x2C63 0x2C63 1 0x1D7D, CaseRange.mk 0x2C64 0x2C64 1 0x027D,
    CaseRange.mk 0x2C67 0x2C6B 2 0x2C68, CaseRange.mk 0x2C6D 0x2C6D 1 0x0251,
    CaseRange.mk 0x2C6E 0x2C6E 1 0x0271, CaseRange.mk 0x2C6F 0x2C6F 1 0x0250,
    CaseRange.mk 0x2C70 0x2C70 1 0x0252, CaseRange.mk 0x2C72 0x2C72 1 0x2C73,
    CaseRange.mk 0x2C75 0x2C75 1 0x2C76, CaseRange.mk 0x2C7E 0x2C7F 1 0x023F,
    CaseRange.mk 0x2C80 0x2CE2 2 0x2C81, CaseRange.mk 0x2CEB 0x2CED 2 0x2CEC,
    CaseRange.mk 0x2CF2 0x2CF2 1 0x2CF3, CaseRange.mk 0xA640 0xA66C 2 0xA641,
    CaseRange.mk 0xA680 0xA69A 2 0xA681, CaseRange.mk 0xA722 0xA72E 2 0xA723,
    CaseRange.mk 0xA732 0xA76E 2 0xA733, CaseRange.mk 0xA779 0xA77B 2 0xA77A,
    CaseRange.mk 0xA77D 0xA77D 1 0x1D79, CaseRange.mk 0xA77E 0xA786 2 0xA77F,
    CaseRange.mk 0xA78B 0xA78B 1 0xA78C, CaseRange.mk 0xA78D 0xA78D 1 0x0265,
    CaseRange.mk 0xA790 0xA792 2 0xA791, CaseRange.mk 0xA796 0xA7A8 2 0xA797,
    CaseRange.mk 0xA7AA 0xA7AA 1 0x0266, CaseRange.mk 0xA7AB 0xA7AB 1 0x025C,
    CaseRange.mk 0xA7AC 0xA7AC 1 0x0261, CaseRange.mk 0xA7AD 0xA7AD 1 0x026C,
    CaseRange.mk 0xA7AE 0xA7AE 1 0x026A, CaseRange.mk 0xA7B0 0xA7B0 1 0x029E,
    CaseRange.mk 0xA7B1 0xA7B1 1 0x0287, CaseRange.mk 0xA7B2 0xA7B2 1 0x029D,
    CaseRange.mk 0xA7B3 0xA7B3 1 0xAB53, CaseRange.mk 0xA7B4 0xA7C2 2 0xA7B5,
    CaseRange.mk 0xA7C4 0xA7C4 1 0xA794, CaseRange.mk 0xA7C5 0xA7C5 1 0x0282,
    CaseRange.mk 0xA7C6 0xA7C6 1 0x1D8E, CaseRange.mk 0xA7C7 0xA7C9 2 0xA7C8,
    CaseRange.mk 0xA7D0 0xA7D0 1 0xA7D1, CaseRange.mk 0xA7D6 0xA7D8 2 0xA7D7,
    CaseRange.mk 0xA7F5 0xA7F5 1 0xA7F6, CaseRange.mk 0xFF21 0xFF3A 1 0xFF41,
    CaseRange.mk 0x10400 0x10427 1 0x10428, CaseRange.mk 0x104B0 0x104D3 1 0x104D8,
    CaseRange.mk 0x10570 0x1057A 1 0x10597, CaseRange.mk 0x1057C 0x1058A 1 0x105A3,
    CaseRange.mk 0x1058C 0x10592 1 0x105B3, CaseRange.mk 0x10594 0x10595 1 0x105BB,
    CaseRange.mk 0x10C80 0x10CB2 1 0x10CC0, CaseRange.mk 0x118A0 0x118BF 1 0x118C0,
    CaseRange.mk 0x16E40 0x16E5F 1 0x16E60, CaseRange.mk 0x1E900 0x1E921 1 0x1E922]

/-- The ranges of the code points with the property `Cased`. -/
def casedRanges : List (Nat × Nat) :=
  [
    (0x0041, 0x005A), (0x0061, 0x007A), (0x00AA, 0x00AA), (0x00B5, 0x00B5),
    (0x00BA, 0x00BA), (0x00C0, 0x00D6), (0x00D8, 0x00F6), (0x00F8, 0x01BA),
    (0x01BC, 0x01BF), (0x01C4, 0x0293), (0x0295, 0x02B8), (0x02C0, 0x02C1),
    (0x02E0, 0x02E4), (0x0345, 0x0345), (0x0370, 0x0373), (0x0376, 0x0377),
    (0x037A, 0x037D), (0x037F, 0x037F), (0x0386, 0x0386), (0x0388, 0x038A),
    (0x038C, 0x038C), (0x038E, 0x03A1), (0x03A3, 0x03F5), (0x03F7, 0x0481),
    (0x048A, 0x052F), (0x0531, 0x0556), (0x0560, 0x0588), (0x10A0, 0x10C5),
    (0x10C7, 0x10C7), (0x10CD, 0x10CD), (0x10D0, 0x10FA), (0x10FD, 0x10FF),
    (0x13A0, 0x13F5), (0x13F8, 0x13FD), (0x1C80, 0x1C88), (0x1C90, 0x1CBA),
    (0x1CBD, 0x1CBF), (0x1D00, 0x1DBF), (0x1E00, 0x1F15), (0x1F18, 0x1F1D),
    (0x1F20, 0x1F45), (0x1F48, 0x1F4D), (0x1F50, 0x1F57), (0x1F59, 0x1F59),
    (0x1F5B, 0x1F5B), (0x1F5D, 0x1F5D), (0x1F5F, 0x1F7D), (0x1F80, 0x1FB4),
    (0x1FB6, 0x1FBC), (0x1FBE, 0x1FBE), (0x1FC2, 0x1FC4), (0x1FC6, 0x1FCC),
    (0x1FD0, 0x1FD3), (0x1FD6, 0x1FDB), (0x1FE0, 0x1FEC), (0x1FF2, 0x1FF4),
    (0x1FF6, 0x1FFC), (0x2071, 0x2071), (0x207F, 0x207F), (0x2090, 0x209C),
    (0x2102, 0x2102), (0x2107, 0x2107), (0x210A, 0x2113), (0x2115, 0x2115),
    (0x2119, 0x211D), (0x2124, 0x2124), (0x2126, 0x2126), (0x2128, 0x2128),
    (0x212A, 0x212D), (0x212F, 0x2134), (0x2139, 0x2139), (0x213C, 0x213F),
    (0x2145, 0x2149), (0x214E, 0x214E), (0x2160, 0x217F), (0x2183, 0x2184),
    (0x24B6, 0x24E9), (0x2C00, 0x2CE4), (0x2CEB, 0x2CEE), (0x2CF2, 0x2CF3),
    (0x2D00, 0x2D25), (0x2D27, 0x2D27), (0x2D2D, 0x2D2D), (0xA640, 0xA66D),
    (0xA680, 0xA69D), (0xA722, 0xA787), (0xA78B, 0xA78E), (0xA790, 0xA7CA),
    (0xA7D0, 0xA7D1), (0xA7D3, 0xA7D3), (0xA7D5, 0xA7D9), (0xA7F5, 0xA7F6),
    (0xA7F8, 0xA7FA), (0xAB30, 0xAB5A), (0xAB5C, 0xAB68), (0xAB70, 0xABBF),
    (0xFB00, 0xFB06), (0xFB13, 0xFB17), (0xFF21, 0xFF3A), (0xFF41, 0xFF5A),
    (0x10400, 0x1044F), (0x104B0, 0x104D3), (0x104D8, 0x104FB), (0x10570, 0x1057A),
    (0x1057C, 0x1058A), (0x1058C, 0x10592), (0x10594, 0x10595), (0x10597, 0x105A1),
    (0x105A3, 0x105B1), (0x105B3, 0x105B9), (0x105BB, 0x105BC), (0x10780, 0x10780),
    (0x10783, 0x10785), (0x10787, 0x107B0), (0x107B2, 0x107BA), (0x10C80, 0x10CB2),
    (0x10CC0, 0x10CF2), (0x118A0, 0x118DF), (0x16E40, 0x16E7F), (0x1D400, 0x1D454),
    (0x1D456, 0x1D49C), (0x1D49E, 0x1D49F), (0x1D4A2, 0x1D4A2), (0x1D4A5, 0x1D4A6),
    (0x1D4A9, 0x1D4AC), (0x1D4AE, 0x1D4B9), (0x1D4BB, 0x1D4BB), (0x1D4BD, 0x1D4C3),
    (0x1D4C5, 0x1D505), (0x1D507, 0x1D50A), (0x1D50D, 0x1D514), (0x1D516, 0x1D51C),
    (0x1D51E, 0x1D539), (0x1D53B, 0x1D53E), (0x1D540, 0x1D544), (0x1D546, 0x1D546),
    (0x1D54A, 0x1D550), (0x1D552, 0x1D6A5), (0x1D6A8, 0x1D6C0), (0x1D6C2, 0x1D6DA),
    (0x1D6DC, 0x1D6FA), (0x1D6FC, 0x1D714), (0x1D716, 0x1D734), (0x1D736, 0x1D74E),
    (0x1D750, 0x1D76E), (0x1D770, 0x1D788), (0x1D78A, 0x1D7A8), (0x1D7AA, 0x1D7C2),
    (0x1D7C4, 0x1D7CB), (0x1DF00, 0x1DF09), (0x1DF0B, 0x1DF1E), (0x1E900, 0x1E943),
    (0x1F130, 0x1F149), (0x1F150, 0x1F169), (0x1F170, 0x1F189)]

/-- The ranges of the code points with the property `Case_Ignorable`. -/
def caseIgnorableRanges : List (Nat × Nat) :=
  [
    (0x0027, 0x0027), (0x002E, 0x002E), (0x003A, 0x003A), (0x005E, 0x005E),
    (0x0060, 0x0060), (0x00A8, 0x00A8), (0x00AD, 0x00AD), (0x00AF, 0x00AF),
    (0x00B4, 0x00B4), (0x00B7, 0x00B8), (0x02B0, 0x036F), (0x0374, 0x0375),
    (0x037A, 0x037A), (0x0384, 0x0385), (0x0387, 0x0387), (0x0483, 0x0489),
    (0x0559, 0x0559), (0x055F, 0x055F), (0x0591, 0x05BD), (0x05BF, 0x05BF),
    (0x05C1, 0x05C2), (0x05C4, 0x05C5), (0x05C7, 0x05C7), (0x05F4, 0x05F4),
    (0x0600, 0x0605), (0x0610, 0x061A), (0x061C, 0x061C), (0x0640, 0x0640),
    (0x064B, 0x065F), (0x0670, 0x0670), (0x06D6, 0x06DD), (0x06DF, 0x06E8),
    (0x06EA, 0x06ED), (0x070F, 0x070F), (0x0711, 0x0711), (0x0730, 0x074A),
    (0x07A6, 0x07B0), (0x07EB, 0x07F5), (0x07FA, 0x07FA), (0x07FD, 0x07FD),
    (0x0816, 0x082D), (0x0859, 0x085B), (0x0888, 0x0888), (0x0890, 0x0891),
    (0x0898, 0x089F), (0x08C9, 0x0902), (0x093A, 0x093A), (0x093C, 0x093C),
    (0x0941, 0x0948), (0x094D, 0x094D), (0x0951, 0x0957), (0x0962, 0x0963),
    (0x0971, 0x0971), (0x0981, 0x0981), (0x09BC, 0x09BC), (0x09C1, 0x09C4),
    (0x09CD, 0x09CD), (0x09E2, 0x09E3), (0x09FE, 0x09FE), (0x0A01, 0x0A02),
    (0x0A3C, 0x0A3C), (0x0A41, 0x0A42), (0x0A47, 0x0A48), (0x0A4B, 0x0A4D),
    (0x0A51, 0x0A51), (0x0A70, 0x0A71), (0x0A75, 0x0A75), (0x0A81, 0x0A82),
    (0x0ABC, 0x0ABC), (0x0AC1, 0x0AC5), (0x0AC7, 0x0AC8), (0x0ACD, 0x0ACD),
    (0x0AE2, 0x0AE3), (0x0AFA, 0x0AFF), (0x0B01, 0x0B01), (0x0B3C, 0x0B3C),
    (0x0B3F, 0x0B3F), (0x0B41, 0x0B44), (0x0B4D, 0x0B4D), (0x0B55, 0x0B56),
    (0x0B62, 0x0B63), (0x0B82, 0x0B82), (0x0BC0, 0x0BC0), (0x0BCD, 0x0BCD),
    (0x0C00, 0x0C00), (0x0C04, 0x0C04), (0x0C3C, 0x0C3C), (0x0C3E, 0x0C40),
    (0x0C46, 0x0C48), (0x0C4A, 0x0C4D), (0x0C55, 0x0C56), (0x0C62, 0x0C63),
    (0x0C81, 0x0C81), (0x0CBC, 0x0CBC), (0x0CBF, 0x0CBF), (0x0CC6, 0x0CC6),
    (0x0CCC, 0x0CCD), (0x0CE2, 0x0CE3), (0x0D00, 0x0D01), (0x0D3B, 0x0D3C),
    (0x0D41, 0x0D44), (0x0D4D, 0x0D4D), (0x0D62, 0x0D63), (0x0D81, 0x0D81),
    (0x0DCA, 0x0DCA), (0x0DD2, 0x0DD4), (0x0DD6, 0x0DD6), (0x0E31, 0x0E31),
    (0x0E34, 0x0E3A), (0x0E46, 0x0E4E), (0x0EB1, 0x0EB1), (0x0EB4, 0x0EBC),
    (0x0EC6, 0x0EC6), (0x0EC8, 0x0ECD), (0x0F18, 0x0F19), (0x0F35, 0x0F35),
    (0x0F37, 0x0F37), (0x0F39, 0x0F39), (0x0F71, 0x0F7E), (0x0F80, 0x0F84),
    (0x0F86, 0x0F87), (0x0F8D, 0x0F97), (0x0F99, 0x0FBC), (0x0FC6, 0x0FC6),
    (0x102D, 0x1030), (0x1032, 0x1037), (0x1039, 0x103A), (0x103D, 0x103E),
    (0x1058, 0x1059), (0x105E, 0x1060), (0x1071, 0x1074), (0x1082, 0x1082),
    (0x1085, 0x1086), (0x108D, 0x108D), (0x109D, 0x109D), (0x10FC, 0x10FC),
    (0x135D, 0x135F), (0x1712, 0x1714), (0x1732, 0x1733), (0x1752, 0x1753),
    (0x1772, 0x1773), (0x17B4, 0x17B5), (0x17B7, 0x17BD), (0x17C6, 0x17C6),
    (0x17C9, 0x17D3), (0x17D7, 0x17D7), (0x17DD, 0x17DD), (0x180B, 0x180F),
    (0x1843, 0x1843), (0x1885, 0x1886), (0x18A9, 0x18A9), (0x1920, 0x1922),
    (0x1927, 0x1928), (0x1932, 0x1932), (0x1939, 0x193B), (0x1A17, 0x1A18),
    (0x1A1B, 0x1A1B), (0x1A56, 0x1A56), (0x1A58, 0x1A5E), (0x1A60, 0x1A60),
    (0x1A62, 0x1A62), (0x1A65, 0x1A6C), (0x1A73, 0x1A7C), (0x1A7F, 0x1A7F),
    (0x1AA7, 0x1AA7), (0x1AB0, 0x1ACE), (0x1B00, 0x1B03), (0x1B34, 0x1B34),
    (0x1B36, 0x1B3A), (0x1B3C, 0x1B3C), (0x1B42, 0x1B42), (0x1B6B, 0x1B73),
    (0x1B80, 0x1B81), (0x1BA2, 0x1BA5), (0x1BA8, 0x1BA9), (0x1BAB, 0x1BAD),
    (0x1BE6, 0x1BE6), (0x1BE8, 0x1BE9), (0x1BED, 0x1BED), (0x1BEF, 0x1BF1),
    (0x1C2C, 0x1C33), (0x1C36, 0x1C37), (0x1C78, 0x1C7D), (0x1CD0, 0x1CD2),
    (0x1CD4, 0x1CE0), (0x1CE2, 0x1CE8), (0x1CED, 0x1CED), (0x1CF4, 0x1CF4),
    (0x1CF8, 0x1CF9), (0x1D2C, 0x1D6A), (0x1D78, 0x1D78), (0x1D9B, 0x1DFF),
    (0x1FBD, 0x1FBD), (0x1FBF, 0x1FC1), (0x1FCD, 0x1FCF), (0x1FDD, 0x1FDF),
    (0x1FED, 0x1FEF), (0x1FFD, 0x1FFE), (0x200B, 0x200F), (0x2018, 0x2019),
    (0x2024, 0x2024), (0x2027, 0x2027), (0x202A, 0x202E), (0x2060, 0x2064),
    (0x2066, 0x206F), (0x2071, 0x2071), (0x207F, 0x207F), (0x2090, 0x209C),
    (0x20D0, 0x20F0), (0x2C7C, 0x2C7D), (0x2CEF, 0x2CF1), (0x2D6F, 0x2D6F),
    (0x2D7F, 0x2D7F), (0x2DE0, 0x2DFF), (0x2E2F, 0x2E2F), (0x3005, 0x3005),
    (0x302A, 0x302D), (0x3031, 0x3035), (0x303B, 0x303B), (0x3099, 0x309E),
    (0x30FC, 0x30FE), (0xA015, 0xA015), (0xA4F8, 0xA4FD), (0xA60C, 0xA60C),
    (0xA66F, 0xA672), (0xA674, 0xA67D), (0xA67F, 0xA67F), (0xA69C, 0xA69F),
    (0xA6F0, 0xA6F1), (0xA700, 0xA721), (0xA770, 0xA770), (0xA788, 0xA78A),
    (0xA7F2, 0xA7F4), (0xA7F8, 0xA7F9), (0xA802, 0xA802), (0xA806, 0xA806),
    (0xA80B, 0xA80B), (0xA825, 0xA826), (0xA82C, 0xA82C), (0xA8C4, 0xA8C5),
    (0xA8E0, 0xA8F1), (0xA8FF, 0xA8FF), (0xA926, 0xA92D), (0xA947, 0xA951),
    (0xA980, 0xA982), (0xA9B3, 0xA9B3), (0xA9B6, 0xA9B9), (0xA9BC, 0xA9BD),
    (0xA9CF, 0xA9CF), (0xA9E5, 0xA9E6), (0xAA29, 0xAA2E), (0xAA31, 0xAA32),
    (0xAA35, 0xAA36), (0xAA43, 0xAA43), (0xAA4C, 0xAA4C), (0xAA70, 0xAA70),
    (0xAA7C, 0xAA7C), (0xAAB0, 0xAAB0), (0xAAB2, 0xAAB4), (0xAAB7, 0xAAB8),
    (0xAABE, 0xAABF), (0xAAC1, 0xAAC1), (0xAADD, 0xAADD), (0xAAEC, 0xAAED),
    (0xAAF3, 0xAAF4), (0xAAF6, 0xAAF6), (0xAB5B, 0xAB5F), (0xAB69, 0xAB6B),
    (0xABE5, 0xABE5), (0xABE8, 0xABE8), (0xABED, 0xABED), (0xFB1E, 0xFB1E),
    (0xFBB2, 0xFBC2), (0xFE00, 0xFE0F), (0xFE13, 0xFE13), (0xFE20, 0xFE2F),
    (0xFE52, 0xFE52), (0xFE55, 0xFE55), (0xFEFF, 0xFEFF), (0xFF07, 0xFF07),
    (0xFF0E, 0xFF0E), (0xFF1A, 0xFF1A), (0xFF3E, 0xFF3E), (0xFF40, 0xFF40),
    (0xFF70, 0xFF70), (0xFF9E, 0xFF9F), (0xFFE3, 0xFFE3), (0xFFF9, 0xFFFB),
    (0x101FD, 0x101FD), (0x102E0, 0x102E0), (0x10376, 0x1037A), (0x10780, 0x10785),
    (0x10787, 0x107B0), (0x107B2, 0x107BA), (0x10A01, 0x10A03), (0x10A05, 0x10A06),
    (0x10A0C, 0x10A0F), (0x10A38, 0x10A3A), (0x10A3F, 0x10A3F), (0x10AE5, 0x10AE6),
    (0x10D24, 0x10D27), (0x10EAB, 0x10EAC), (0x10F46, 0x10F50), (0x10F82, 0x10F85),
    (0x11001, 0x11001), (0x11038, 0x11046), (0x11070, 0x11070), (0x11073, 0x11074),
    (0x1107F, 0x11081), (0x110B3, 0x110B6), (0x110B9, 0x110BA), (0x110BD, 0x110BD),
    (0x110C2, 0x110C2), (0x110CD, 0x110CD), (0x11100, 0x11102), (0x11127, 0x1112B),
    (0x1112D, 0x11134), (0x11173, 0x11173), (0x11180, 0x11181), (0x111B6, 0x111BE),
    (0x111C9, 0x111CC), (0x111CF, 0x111CF), (0x1122F, 0x11231), (0x11234, 0x11234),
    (0x11236, 0x11237), (0x1123E, 0x1123E), (0x112DF, 0x112DF), (0x112E3, 0x112EA),
    (0x11300, 0x11301), (0x1133B, 0x1133C), (0x11340, 0x11340), (0x11366, 0x1136C),
    (0x11370, 0x11374), (0x11438, 0x1143F), (0x11442, 0x11444), (0x11446, 0x11446),
    (0x1145E, 0x1145E), (0x114B3, 0x114B8), (0x114BA, 0x114BA), (0x114BF, 0x114C0),
    (0x114C2, 0x114C3), (0x115B2, 0x115B5), (0x115BC, 0x115BD), (0x115BF, 0x115C0),
    (0x115DC, 0x115DD), (0x11633, 0x1163A), (0x1163D, 0x1163D), (0x1163F, 0x11640),
    (0x116AB, 0x116AB), (0x116AD, 0x116AD), (0x116B0, 0x116B5), (0x116B7, 0x116B7),
    (0x1171D, 0x1171F), (0x11722, 0x11725), (0x11727, 0x1172B), (0x1182F, 0x11837),
    (0x11839, 0x1183A), (0x1193B, 0x1193C), (0x1193E, 0x1193E), (0x11943, 0x11943),
    (0x119D4, 0x119D7), (0x119DA, 0x119DB), (0x119E0, 0x119E0), (0x11A01, 0x11A0A),
    (0x11A33, 0x11A38), (0x11A3B, 0x11A3E), (0x11A47, 0x11A47), (0x11A51, 0x11A56),
    (0x11A59, 0x11A5B), (0x11A8A, 0x11A96), (0x11A98, 0x11A99), (0x11C30, 0x11C36),
    (0x11C38, 0x11C3D), (0x11C3F, 0x11C3F), (0x11C92, 0x11CA7), (0x11CAA, 0x11CB0),
    (0x11CB2, 0x11CB3), (0x11CB5, 0x11CB6), (0x11D31, 0x11D36), (0x11D3A, 0x11D3A),
    (0x11D3C, 0x11D3D), (0x11D3F, 0x11D45), (0x11D47, 0x11D47), (0x11D90, 0x11D91),
    (0x11D95, 0x11D95), (0x11D97, 0x11D97), (0x11EF3, 0x11EF4), (0x13430, 0x13438),
    (0x16AF0, 0x16AF4), (0x16B30, 0x16B36), (0x16B40, 0x16B43), (0x16F4F, 0x16F4F),
    (0x16F8F, 0x16F9F), (0x16FE0, 0x16FE1), (0x16FE3, 0x16FE4), (0x1AFF0, 0x1AFF3),
    (0x1AFF5, 0x1AFFB), (0x1AFFD, 0x1AFFE), (0x1BC9D, 0x1BC9E), (0x1BCA0, 0x1BCA3),
    (0x1CF00, 0x1CF2D), (0x1CF30, 0x1CF46), (0x1D167, 0x1D169), (0x1D173, 0x1D182),
    (0x1D185, 0x1D18B), (0x1D1AA, 0x1D1AD), (0x1D242, 0x1D244), (0x1DA00, 0x1DA36),
    (0x1DA3B, 0x1DA6C), (0x1DA75, 0x1DA75), (0x1DA84, 0x1DA84), (0x1DA9B, 0x1DA9F),
    (0x1DAA1, 0x1DAAF), (0x1E000, 0x1E006), (0x1E008, 0x1E018), (0x1E01B, 0x1E021),
    (0x1E023, 0x1E024), (0x1E026, 0x1E02A), (0x1E130, 0x1E13D), (0x1E2AE, 0x1E2AE),
    (0x1E2EC, 0x1E2EF), (0x1E8D0, 0x1E8D6), (0x1E944, 0x1E94B), (0x1F3FB, 0x1F3FF),
    (0xE0001, 0xE0001), (0xE0020, 0xE007F), (0xE0100, 0xE01EF)]

/-- The simple lower-case mapping of a code point. -/
def simpleLowercase (c : Nat) : Nat :=
  match lowerRanges.find? fun r => r.applies c with
  | some r => r.target + (c - r.first)
  | none => c

/-- Membership in a list of ranges. -/
def inRanges (rs : List (Nat × Nat)) (c : Nat) : Bool :=
  rs.any fun r => decide (r.1 ≤ c) && decide (c ≤ r.2)

/-- The case data of Unicode 14.0: U+0130 has the full mapping U+0069 U+0307,
every other code point its simple mapping. -/
def unicode14 : CaseData where
  lower c := if c = 0x130 then [0x69, 0x307] else [simpleLowercase c]
  cased := inRanges casedRanges
  caseIgnorable := inRanges caseIgnorableRanges

/-- No code point that the run `r` produces is mapped by the run `r2`: the
targets of `r` lie before or after the code points of `r2`, or both runs have
step 2 and opposite parities, or `r` is a single code point whose target `r2`
does not map. -/
def CaseRange.clear (r r2 : CaseRange) : Bool :=
  decide (r.target + (r.last - r.first) < r2.first) || decide (r2.last < r.target) ||
  (r.step == 2 && r2.step == 2 && r.target % 2 != r2.first % 2) ||
  (r.first == r.last && !r2.applies r.target)

/-- The code points of the run and their targets are scalar values: none is a
surrogate and none lies above U+10FFFF. -/
def CaseRange.scalar (r : CaseRange) : Bool :=
  (decide (r.last < 0xD800) || decide (0xDFFF < r.first)) &&
  (decide (r.target + (r.last - r.first) < 0xD800) ||
    (decide (0xDFFF < r.target) && decide (r.target + (r.last - r.first) ≤ 0x10FFFF)))

/-! ## Keyword index loading

The function `loadKeywordIndexIT` of `api.js`, from the parsed response on: the
network request and the branch for a response that is not an array are outside
the embedding.  The keywords are strings of code units, since the response may
hold any string.  Symbol ids are JavaScript values compared by the `Set`; they
are coded as natural numbers. -/

/-- The keyword part of `state.cache` as the loader fills it: `keywordIndex`
(keyword to symbol ids), `keywordEntries` and the flag `keywordIndexReady`. -/
structure KeywordCache where
  keywordIndex : List (Units × List Nat)
  keywordEntries : List Units
  keywordIndexReady : Bool

/-- A property `keyword` or `name` of a row, as the loader reads it: a falsy
value (`undefined`, `null`, `0`, `false`, also for a row that is `null`), a
string, or another truthy value, which has no method `toLowerCase`. -/
inductive RowField where
  | falsy
  | text (s : Units)
  | other

/-- An element of `row.pictograms`, as the loader reads it: `null` or
`undefined`; another falsy value, coded by `v`; or any other value with its
properties `_id` and `id`, `none` standing for `null`, `undefined` or a missing
property. -/
inductive Pictogram where
  | nullish
  | falsy (v : Nat)
  | object (_id : Option Nat) (id : Option Nat)

/-- A row of the response; `pictograms` is `none` when the property is not an
array. -/
structure Row where
  keyword : RowField
  name : RowField
  pictograms : Option (List Pictogram)

/-- Truthiness of a property: the empty string is falsy. -/
def RowField.truthy : RowField → Bool
  | RowField.falsy => false
  | RowField.text s => !s.isEmpty
  | RowField.other => true

/-- The value of `(row?.keyword || row?.name || '')`. -/
def keywordValue (row : Row) : RowField :=
  if row.keyword.truthy then row.keyword
  else if row.name.truthy then row.name
  else RowField.text []

/-- The value of `(p && (p._id ?? p.id)) ?? null`; `none` is `null`. -/
def pictogramId : Pictogram → Option Nat
  | Pictogram.nullish => none
  | Pictogram.falsy v => some v
  | Pictogram.object (some a) _ => some a
  | Pictogram.object none id => id

/-- `ids.add(id)` on a `Set` of ids. -/
def idsAdd (ids : List Nat) (id : Nat) : List Nat :=
  if ids.contains id then ids else ids ++ [id]

/-- The set `ids` of a row: the ids of its pictograms that are not `null`. -/
def rowIds (row : Row) : List Nat :=
  ((row.pictograms.getD []).filterMap pictogramId).foldl idsAdd []

/-- `keywordEntries.add(k)` on a `Set` of strings. -/
def entriesAdd (entries : List Units) (k : Units) : List Units :=
  if entries.contains k then entries else entries ++ [k]

/-- `keywordIndex.set(k, ids)` on a `Map`: the value of an existing key is
replaced in place, a new key is appended. -/
def mapSet (m : List (Units × List Nat)) (k : Units) (ids : List Nat) :
    List (Units × List Nat) :=
  if m.any (fun e => e.1 == k) then m.map (fun e => if e.1 == k then (k, ids) else e)
  else m ++ [(k, ids)]

/-- `loadKeywordIndexIT` on an array response `data`, acting on `state.cache`.
A row whose keyword value is not a string raises a `TypeError`, which the
function catches: the rows before it stay loaded and the index is marked not
ready. -/
def loadKeywordIndexIT (d : CaseData) (cache : KeywordCache) : List Row → KeywordCache
  | [] => { cache with keywordIndexReady := true }
  | row :: rest =>
    match keywordValue row with
    | RowField.text s =>
      let k := trimUnits (toLowerCaseUnits d s)
      if k.isEmpty then loadKeywordIndexIT d cache rest
      else
        let ids := rowIds row
        loadKeywordIndexIT d
          { cache with
            keywordEntries := entriesAdd cache.keywordEntries k
            keywordIndex :=
              if ids.isEmpty then cache.keywordIndex else mapSet cache.keywordIndex k ids }
          rest
    | _ => { cache with keywordIndexReady := false }

/-- The empty cache of `state.js`. -/
def emptyCache : KeywordCache :=
  { keywordIndex := [], keywordEntries := [], keywordIndexReady := false }

/-! ## Reference definitions

Definitions that follow the words of the specification, against which the
functions above are compared. -/

/-- `MaximalRuns text runs`: `runs` lists, in order, the maximal runs of
characters of `text` that are not white space.  Either the text is blank and
there is no run, or the text is some white space `ws`, then a non-empty run `t`
free of white space, then a rest which is empty or starts with white space and
whose runs are the remaining ones. -/
inductive MaximalRuns : Str → List Str → Prop
  | blank (ws : Str) (hws : ∀ c ∈ ws, isWhiteSpace c = true) : MaximalRuns ws []
  | run (ws t rest : Str) (runs : List Str) (hws : ∀ c ∈ ws, isWhiteSpace c = true)
      (hne : t ≠ []) (ht : ∀ c ∈ t, isWhiteSpace c = false)
      (hrest : ∀ c, rest.head? = some c → isWhiteSpace c = true)
      (h : MaximalRuns rest runs) : MaximalRuns (ws ++ t ++ rest) (t :: runs)

/-- The two-rule singularization of the specification, as a membership
predicate: `v` is a result for the normalised word `w` when it is `w` itself,
or when `w` is a non-empty root followed by `i` or by `e` and `v` is that root
followed by `o` or by `a`. -/
def IsDepluralization (w v : Str) : Prop :=
  v = w ∨ ∃ r : Str, r ≠ [] ∧ (w = r ++ "i".toList ∨ w = r ++ "e".toList) ∧
    (v = r ++ "o".toList ∨ v = r ++ "a".toList)

/-- The words of the English future rule: the lower-cased term `w` starts with
`will`, followed by the end of the string or by a character that is not a word
character. -/
def StartsWithWill (w : Str) : Prop :=
  ∃ rest : Str, w = "will".toList ++ rest ∧
    (rest = [] ∨ ∃ (c : Char) (tail : Str), rest = c :: tail ∧ isWordChar c = false)

/-- Well-formedness of the keyword index of a cache: every key is a non-empty,
lower-cased, trimmed keyword, is a member of `keywordEntries`, and maps to a
non-empty set of ids.  A key is lower-cased when `toLowerCase` gives it back. -/
def WellFormedIndex (d : CaseData) (cache : KeywordCache) : Prop :=
  ∀ e ∈ cache.keywordIndex,
    e.1 ≠ [] ∧ toLowerCaseUnits d e.1 = e.1 ∧ trimUnits e.1 = e.1 ∧
      e.1 ∈ cache.keywordEntries ∧ e.2 ≠ []

/-- The facts about the case data on which the results on lower-casing rest.
`lower_fixed`: the code points of a lower-case mapping are mapped to
themselves.  `lower_sigma`: the capital sigma U+03A3 is mapped to the small
sigma U+03C3.  `final_sigma_fixed`: the final sigma U+03C2 is mapped to itself.
`lower_ne_nil`: no mapping is empty.  `lower_surrogate`: a surrogate code point
is mapped to itself.  `lower_scalar`: the mapping of a scalar value consists of
scalar values. -/
structure CaseData.Stable (d : CaseData) : Prop where
  lower_fixed : ∀ c o, o ∈ d.lower c → d.lower o = [o]
  lower_sigma : d.lower 0x3A3 = [0x3C3]
  final_sigma_fixed : d.lower 0x3C2 = [0x3C2]
  lower_ne_nil : ∀ c, d.lower c ≠ []
  lower_surrogate : ∀ c, isSurrogate c = true → d.lower c = [c]
  lower_scalar : ∀ c o, c ≤ 0x10FFFF → isSurrogate c = false → o ∈ d.lower c →
    o ≤ 0x10FFFF ∧ isSurrogate o = false

/-- A code point that lower-casing leaves alone in every context. -/
def CaseData.Fixed (d : CaseData) (c : Nat) : Prop := d.lower c = [c] ∧ c ≠ 0x3A3

/-- No leading surrogate of the sequence is directly followed by a trailing
surrogate: encoding the sequence pairs up no two of its code points. -/
def SplitFree (cps : List Nat) : Prop :=
  List.Chain' (fun a b => ¬ (isLeadingSurrogate a = true ∧ isTrailingSurrogate b = true)) cps

/-- The test on code points that a test on code units induces, for a test that
accepts every surrogate code unit. -/
def liftKeep (p : CodeUnit → Bool) (c : Nat) : Bool := decide (0xFFFF < c) || p (unit c)

/-- The test on code points that a test on code units induces, for a test that
rejects every surrogate code unit. -/
def liftDrop (q : CodeUnit → Bool) (c : Nat) : Bool := decide (c ≤ 0xFFFF) && q (unit c)

/-- The code points left by trimming. -/
def trimCodePoints (cps : List Nat) : List Nat :=
  (cps.dropWhile (liftDrop isWhiteSpaceUnit)).rdropWhile (liftDrop isWhiteSpaceUnit)

/-! ## Lemmas on the set accumulator -/

theorem add_eq (out : List Str) (v : Str) :
    add out v = if 1 < v.length then (if v ∈ out then out else out ++ [v]) else out := by
  unfold add
  cases v with
  | nil => simp
  | cons a t => simp [List.isEmpty]

theorem mem_foldl_add (cs : List Str) (acc : List Str) (v : Str) :
    v ∈ cs.foldl add acc ↔ v ∈ acc ∨ (v ∈ cs ∧ 1 < v.length) := by
  induction cs generalizing acc with
  | nil => simp
  | cons c cs ih =>
    rw [List.foldl_cons, ih, add_eq]
    by_cases hc : 1 < c.length
    · by_cases hin : c ∈ acc
      · simp only [hc, hin, if_true, List.mem_cons]
        constructor
        · rintro (h | ⟨h, hl⟩)
          · exact Or.inl h
          · exact Or.inr ⟨Or.inr h, hl⟩
        · rintro (h | ⟨h | h, hl⟩)
          · exact Or.inl h
          · subst h; exact Or.inl hin
          · exact Or.inr ⟨h, hl⟩
      · simp only [hc, hin, if_true, if_false, List.mem_cons, List.mem_append,
          List.not_mem_nil, or_false]
        constructor
        · rintro ((h | h) | ⟨h, hl⟩)
          · exact Or.inl h
          · subst h; exact Or.inr ⟨Or.inl rfl, hc⟩
          · exact Or.inr ⟨Or.inr h, hl⟩
        · rintro (h | ⟨h | h, hl⟩)
          · exact Or.inl (Or.inl h)
          · exact Or.inl (Or.inr h)
          · exact Or.inr ⟨h, hl⟩
    · simp only [hc, if_false, List.mem_cons]
      constructor
      · rintro (h | ⟨h, hl⟩)
        · exact Or.inl h
        · exact Or.inr ⟨Or.inr h, hl⟩
      · rintro (h | ⟨h | h, hl⟩)
        · exact Or.inl h
        · subst h; exact absurd hl hc
        · exact Or.inr ⟨h, hl⟩

theorem mem_collect (cs : List Str) (v : Str) : v ∈ collect cs ↔ v ∈ cs ∧ 1 < v.length := by
  unfold collect
  rw [mem_foldl_add]
  simp

theorem mem_generateVariants_supported (term : Str) (lang : String)
    (hlang : lang = "it" ∨ lang = "es" ∨ lang = "en") (v : Str) :
    v ∈ generateVariants term lang ↔
      1 < v.length ∧
        ((lang = "it" ∧ v ∈ italianCandidates term) ∨ (lang = "es" ∧ v ∈ spanishCandidates term) ∨
          (lang = "en" ∧ v ∈ englishCandidates term)) := by
  rcases hlang with h | h | h <;> subst h <;>
    simp [generateVariants, generateItalianVariants, generateSpanishVariants,
      generateEnglishVariants, mem_collect, and_comm]

theorem head_mem_italianCandidates (term : Str) : term ∈ italianCandidates term := by
  simp [italianCandidates]

theorem head_mem_spanishCandidates (term : Str) : term ∈ spanishCandidates term := by
  simp [spanishCandidates]

theorem head_mem_englishCandidates (term : Str) : toLowerCase term ∈ englishCandidates term := by
  simp [englishCandidates]

theorem length_toLowerCase (s : Str) : (toLowerCase s).length = s.length := by
  simp [toLowerCase]

/-! ## The sanitizer -/

theorem sanitizeWord_eq (word : Str) :
    sanitizeWord word = trim ((toLowerCase (stripElision word)).filter fun c => !isPunctuation c) := by
  unfold sanitizeWord
  cases word with
  | nil => decide
  | cons a t => simp [List.isEmpty]

/-! ## The tokenizer -/

theorem splitWhiteSpaceGo_map_nbsp (s cur : Str) (b : Bool) :
    splitWhiteSpaceGo (s.map fun c => if c = nbsp then ' ' else c) cur b =
      splitWhiteSpaceGo s cur b := by
  induction s generalizing cur b with
  | nil => rfl
  | cons c s ih =>
    by_cases hc : c = nbsp
    · subst hc
      have h1 : isWhiteSpace nbsp = true := by decide
      have h2 : isWhiteSpace ' ' = true := by decide
      simp only [List.map_cons, if_true, splitWhiteSpaceGo, h1, h2, ih]
    · simp only [List.map_cons, hc, if_false, splitWhiteSpaceGo, ih]

theorem map_apostrophe_eq (t : Str) :
    (t.map fun c => if c = apostrophe || c = apostrophe then apostrophe else c) = t := by
  conv_rhs => rw [← List.map_id t]
  apply List.map_congr_left
  intro c _
  by_cases h : c = apostrophe <;> simp [h]

theorem tokenize_eq (text : Str) :
    tokenize text = (splitWhiteSpaceGo text [] false).filter fun t => !t.isEmpty := by
  unfold tokenize splitWhiteSpace
  rw [splitWhiteSpaceGo_map_nbsp]
  congr 1
  conv_rhs => rw [← List.map_id (splitWhiteSpaceGo text [] false)]
  exact List.map_congr_left fun t _ => map_apostrophe_eq t

theorem MaximalRuns.cons_whiteSpace (c : Char) (s : Str) (runs : List Str)
    (hc : isWhiteSpace c = true) (h : MaximalRuns s runs) : MaximalRuns (c :: s) runs := by
  cases h with
  | blank ws hws =>
    exact MaximalRuns.blank _ (by
      intro d hd
      rcases List.mem_cons.mp hd with h | h
      · rw [h]; exact hc
      · exact hws d h)
  | run ws t rest runs hws hne ht hrest h =>
    have := MaximalRuns.run (c :: ws) t rest runs (by
      intro d hd
      rcases List.mem_cons.mp hd with h | h
      · rw [h]; exact hc
      · exact hws d h) hne ht hrest h
    simpa using this

theorem maximalRuns_splitWhiteSpaceGo (s cur : Str) (b : Bool)
    (hcur : ∀ c ∈ cur, isWhiteSpace c = false) (hb : b = true → cur = []) :
    MaximalRuns (cur ++ s) ((splitWhiteSpaceGo s cur b).filter fun t => !t.isEmpty) := by
  induction s generalizing cur b with
  | nil =>
    cases cur with
    | nil => exact MaximalRuns.blank [] (by simp)
    | cons a cur =>
      have := MaximalRuns.run [] (a :: cur) [] [] (by simp) (by simp) hcur (by simp)
        (MaximalRuns.blank [] (by simp))
      simpa [splitWhiteSpaceGo] using this
  | cons c s ih =>
    by_cases hc : isWhiteSpace c = true
    · have hrec : MaximalRuns (c :: s)
          ((splitWhiteSpaceGo s [] true).filter fun t => !t.isEmpty) := by
        have := ih [] true (by simp) (fun _ => rfl)
        exact MaximalRuns.cons_whiteSpace c _ _ hc (by simpa using this)
      cases cur with
      | nil =>
        cases b <;> simpa [splitWhiteSpaceGo, hc] using hrec
      | cons a cur =>
        have hbf : b = false := by
          cases b with
          | false => rfl
          | true => exact absurd (hb rfl) (by simp)
        subst hbf
        have := MaximalRuns.run [] (a :: cur) (c :: s) _ (by simp) (by simp) hcur
          (by simpa using hc) hrec
        simpa [splitWhiteSpaceGo, hc] using this
    · have hc2 : isWhiteSpace c = false := by simpa using hc
      have := ih (cur ++ [c]) false (by
        intro d hd
        rcases List.mem_append.mp hd with h | h
        · exact hcur d h
        · rw [List.mem_singleton.mp h]; exact hc2) (by simp)
      simpa [splitWhiteSpaceGo, hc2] using this

theorem append_split_unique {p : Char → Prop} (a a2 b b2 : Str) (ha : ∀ c ∈ a, p c)
    (ha2 : ∀ c ∈ a2, p c) (hb : ∀ c, b.head? = some c → ¬ p c)
    (hb2 : ∀ c, b2.head? = some c → ¬ p c) (h : a ++ b = a2 ++ b2) : a = a2 ∧ b = b2 := by
  induction a generalizing a2 with
  | nil =>
    cases a2 with
    | nil => exact ⟨rfl, by simpa using h⟩
    | cons x a2 =>
      simp only [List.nil_append] at h
      subst h
      exact absurd (ha2 x (List.mem_cons_self _ _)) (hb x (by simp))
  | cons x a ih =>
    cases a2 with
    | nil =>
      simp only [List.nil_append] at h
      subst h
      exact absurd (ha x (List.mem_cons_self _ _)) (hb2 x (by simp))
    | cons y a2 =>
      simp only [List.cons_append, List.cons.injEq] at h
      obtain ⟨hxy, hrest⟩ := h
      obtain ⟨h1, h2⟩ := ih a2 (fun c hc => ha c (List.mem_cons_of_mem _ hc))
        (fun c hc => ha2 c (List.mem_cons_of_mem _ hc)) hrest
      exact ⟨by rw [hxy, h1], h2⟩

theorem MaximalRuns.unique (s : Str) (runs runs2 : List Str) (h : MaximalRuns s runs)
    (h2 : MaximalRuns s runs2) : runs = runs2 := by
  induction h generalizing runs2 with
  | blank ws hws =>
    cases h2 with
    | blank _ _ => rfl
    | run ws2 t2 rest2 runs2 hws2 hne2 ht2 hrest2 h2 =>
      obtain ⟨x, t2, rfl⟩ := List.exists_cons_of_ne_nil hne2
      have h1 := hws x (by simp)
      have h3 := ht2 x (by simp)
      rw [h1] at h3
      exact absurd h3 (by simp)
  | run ws t rest runs hws hne ht hrest h ih =>
    generalize hs : ws ++ t ++ rest = s at h2
    cases h2 with
    | blank _ hws2 =>
      obtain ⟨x, t, rfl⟩ := List.exists_cons_of_ne_nil hne
      have h1 := hws2 x (by rw [← hs]; simp)
      have h3 := ht x (by simp)
      rw [h1] at h3
      exact absurd h3 (by simp)
    | run ws2 t2 rest2 runs2 hws2 hne2 ht2 hrest2 h2 =>
      obtain ⟨x, t1, hx⟩ := List.exists_cons_of_ne_nil hne
      obtain ⟨y, t3, hy⟩ := List.exists_cons_of_ne_nil hne2
      have e1 : ws ++ (t ++ rest) = ws2 ++ (t2 ++ rest2) := by
        simpa [List.append_assoc] using hs
      obtain ⟨_, e2⟩ := append_split_unique (p := fun c => isWhiteSpace c = true) ws ws2
        (t ++ rest) (t2 ++ rest2) hws hws2
        (by
          intro c hc
          rw [hx] at hc
          simp only [List.cons_append, List.head?_cons, Option.some.injEq] at hc
          have hx2 := ht x (by rw [hx]; simp)
          subst hc
          simp [hx2])
        (by
          intro c hc
          rw [hy] at hc
          simp only [List.cons_append, List.head?_cons, Option.some.injEq] at hc
          have hy2 := ht2 y (by rw [hy]; simp)
          subst hc
          simp [hy2]) e1
      obtain ⟨e3, e4⟩ := append_split_unique (p := fun c => isWhiteSpace c = false) t t2
        rest rest2 ht ht2
        (by intro c hc; simp [hrest c hc])
        (by intro c hc; simp [hrest2 c hc]) e2
      subst e3 e4
      rw [ih runs2 h2]

theorem MaximalRuns.run_spec (s : Str) (runs : List Str) (h : MaximalRuns s runs) :
    ∀ t ∈ runs, t ≠ [] ∧ ∀ c ∈ t, isWhiteSpace c = false := by
  induction h with
  | blank ws hws => simp
  | run ws t rest runs hws hne ht hrest h ih =>
    intro u hu
    rcases List.mem_cons.mp hu with h | h
    · rw [h]; exact ⟨hne, ht⟩
    · exact ih u h

/-- Claim C3 (the code at the failing input): the token of a text with the
curly apostrophe U+2019 still holds that apostrophe, it is not replaced by the
straight one; the same happens with U+2018. -/
theorem tokenize_keeps_curly_apostrophe :
    tokenize ['l', rightQuote, 'a', 'm', 'i', 'c', 'o'] =
      [['l', rightQuote, 'a', 'm', 'i', 'c', 'o']] ∧
    tokenize ['l', rightQuote, 'a', 'm', 'i', 'c', 'o'] ≠
      [['l', apostrophe, 'a', 'm', 'i', 'c', 'o']] ∧
    tokenize ['l', leftQuote, 'a', 'm', 'i', 'c', 'o'] =
      [['l', leftQuote, 'a', 'm', 'i', 'c', 'o']] := by
  decide

/-- Claim C4: the tokens of a text are exactly its maximal runs of characters
other than white space (the no-break space is white space), in the order of the
text; the equality is exact, hence also up to the apostrophes.  No token is
empty, none holds white space or U+00A0, and a blank text has no token. -/
theorem tokenize_maximal_runs (text : Str) :
    MaximalRuns text (tokenize text) ∧
    (∀ runs, MaximalRuns text runs → runs = tokenize text) ∧
    (∀ t ∈ tokenize text, t ≠ [] ∧ ∀ c ∈ t, isWhiteSpace c = false ∧ c ≠ nbsp) ∧
    ((∀ c ∈ text, isWhiteSpace c = true) → tokenize text = []) := by
  have hruns : MaximalRuns text (tokenize text) := by
    rw [tokenize_eq]
    simpa using maximalRuns_splitWhiteSpaceGo text [] false (by simp) (by simp)
  refine ⟨hruns, fun runs h => MaximalRuns.unique _ _ _ h hruns, ?_, ?_⟩
  · intro t ht
    obtain ⟨h1, h2⟩ := MaximalRuns.run_spec _ _ hruns t ht
    refine ⟨h1, fun c hc => ⟨h2 c hc, ?_⟩⟩
    intro hn
    have := h2 c hc
    rw [hn] at this
    exact absurd this (by decide)
  · intro hall
    exact MaximalRuns.unique _ _ _ hruns (MaximalRuns.blank text hall)

/-! ## The variant generators -/

/-- Claim C1 (counterexample): a one-letter term is not among its Italian
variants, and a capitalised term is not among its English variants. -/
theorem generateVariants_term_missing :
    "a".toList ∉ generateVariants "a".toList "it" ∧
    "Run".toList ∉ generateVariants "Run".toList "en" := by
  decide

/-- Claim C1 (amended): a term of at least two characters is among its Italian
and among its Spanish variants, and its lower-cased form is among its English
variants. -/
theorem generateVariants_contains_term (term : Str) (hlen : 2 ≤ term.length) :
    term ∈ generateVariants term "it" ∧ term ∈ generateVariants term "es" ∧
    toLowerCase term ∈ generateVariants term "en" := by
  have hen : toLowerCase term ∈ generateVariants term "en" := by
    rw [mem_generateVariants_supported _ _ (Or.inr (Or.inr rfl))]
    exact ⟨by rw [length_toLowerCase]; exact hlen,
      Or.inr (Or.inr ⟨rfl, head_mem_englishCandidates term⟩)⟩
  refine ⟨?_, ?_, hen⟩
  · rw [mem_generateVariants_supported _ _ (Or.inl rfl)]
    exact ⟨hlen, Or.inl ⟨rfl, head_mem_italianCandidates term⟩⟩
  · rw [mem_generateVariants_supported _ _ (Or.inr (Or.inl rfl))]
    exact ⟨hlen, Or.inr (Or.inl ⟨rfl, head_mem_spanishCandidates term⟩)⟩

/-- Witness of `generateVariants_contains_term` at the term `Corro`. -/
theorem generateVariants_contains_term_witness :
    2 ≤ "Corro".toList.length ∧
    "Corro".toList ∈ generateVariants "Corro".toList "it" ∧
    "Corro".toList ∈ generateVariants "Corro".toList "es" ∧
    toLowerCase "Corro".toList ∈ generateVariants "Corro".toList "en" :=
  ⟨by decide, generateVariants_contains_term "Corro".toList (by decide)⟩

/-- Claim C7: for the languages `it`, `es` and `en`, every variant of a term has
at least two characters. -/
theorem generateVariants_min_length (term : Str) (lang : String)
    (hlang : lang = "it" ∨ lang = "es" ∨ lang = "en") :
    ∀ v ∈ generateVariants term lang, 2 ≤ v.length := by
  intro v hv
  exact ((mem_generateVariants_supported term lang hlang v).mp hv).1

/-- Witness of `generateVariants_min_length` at the term `mangiato` and its
variant `mangiare`. -/
theorem generateVariants_min_length_witness :
    ("it" = "it" ∨ "it" = "es" ∨ "it" = "en") ∧
    "mangiare".toList ∈ generateVariants "mangiato".toList "it" ∧
    2 ≤ "mangiare".toList.length :=
  ⟨Or.inl rfl, by decide,
    generateVariants_min_length "mangiato".toList "it" (Or.inl rfl) "mangiare".toList
      (by decide)⟩

/-- Claim C8: for a language tag other than `it`, `es` and `en` the variants of
a term are the term alone, whatever its length. -/
theorem generateVariants_unsupported (term : Str) (lang : String) (hit : lang ≠ "it")
    (hes : lang ≠ "es") (hen : lang ≠ "en") : generateVariants term lang = [term] := by
  simp [generateVariants, hit, hes, hen]

/-- Witness of `generateVariants_unsupported` at the one-letter term `a` and the
tag `fr`. -/
theorem generateVariants_unsupported_witness :
    ("fr" ≠ "it" ∧ "fr" ≠ "es" ∧ "fr" ≠ "en") ∧ generateVariants "a".toList "fr" = ["a".toList] :=
  ⟨by decide, generateVariants_unsupported "a".toList "fr" (by decide) (by decide) (by decide)⟩

/-! ## The depluralizer -/

theorem endsWith_iff (s suf : Str) : endsWith s suf = true ↔ ∃ r, s = r ++ suf := by
  simp only [endsWith, List.isSuffixOf_iff_suffix, List.IsSuffix]
  constructor
  · rintro ⟨t, h⟩; exact ⟨t, h.symm⟩
  · rintro ⟨t, h⟩; exact ⟨t, h.symm⟩

theorem sliceEnd_append (r suf : Str) : sliceEnd (r ++ suf) suf.length = r := by
  simp [sliceEnd]

theorem mem_setAdd (out : List Str) (x v : Str) : v ∈ setAdd out x ↔ v ∈ out ∨ v = x := by
  unfold setAdd
  by_cases h : x ∈ out
  · have hc : out.contains x = true := List.elem_iff.mpr h
    simp only [hc, if_true]
    constructor
    · exact Or.inl
    · rintro (h1 | h1)
      · exact h1
      · rw [h1]; exact h
  · have hc : ¬ out.contains x = true := fun hc => h (List.elem_iff.mp hc)
    simp only [hc, Bool.false_eq_true, if_false, List.mem_append, List.mem_singleton]

theorem nodup_setAdd (out : List Str) (x : Str) (h : out.Nodup) : (setAdd out x).Nodup := by
  unfold setAdd
  by_cases hx : x ∈ out
  · have hc : out.contains x = true := List.elem_iff.mpr hx
    simpa only [hc, if_true] using h
  · have hc : ¬ out.contains x = true := fun hc => hx (List.elem_iff.mp hc)
    simp only [hc, Bool.false_eq_true, if_false]
    rw [List.nodup_append]
    refine ⟨h, List.nodup_singleton x, ?_⟩
    intro a ha hb
    rw [List.mem_singleton] at hb
    subst hb
    exact hx ha

theorem suffix_rule_iff (w : Str) (x : Char) :
    (endsWith w [x] && decide (w.length > 1)) = true ↔ ∃ r : Str, r ≠ [] ∧ w = r ++ [x] := by
  rw [Bool.and_eq_true, decide_eq_true_eq]
  constructor
  · rintro ⟨h1, h2⟩
    obtain ⟨r, hr⟩ := (endsWith_iff _ _).mp h1
    refine ⟨r, ?_, hr⟩
    rintro rfl
    rw [hr] at h2
    simp at h2
  · rintro ⟨r, hne, hr⟩
    refine ⟨(endsWith_iff _ _).mpr ⟨r, hr⟩, ?_⟩
    rw [hr]
    cases r with
    | nil => exact absurd rfl hne
    | cons a t => simp

theorem mem_depluralizeItalian (word v : Str) (hw : trim (toLowerCase word) ≠ []) :
    v ∈ depluralizeItalian word ↔ IsDepluralization (trim (toLowerCase word)) v := by
  unfold depluralizeItalian IsDepluralization
  generalize trim (toLowerCase word) = w at hw
  have hne : w.isEmpty = false := by
    cases w with
    | nil => exact absurd rfl hw
    | cons a t => rfl
  have hi := suffix_rule_iff w 'i'
  have he := suffix_rule_iff w 'e'
  have hslice : ∀ (r : Str) (x : Char), w = r ++ [x] → sliceEnd w 1 = r := by
    intro r x h
    rw [h]
    exact sliceEnd_append r [x]
  have e1 : "i".toList = ['i'] := rfl
  have e2 : "e".toList = ['e'] := rfl
  have e3 : "o".toList = ['o'] := rfl
  have e4 : "a".toList = ['a'] := rfl
  simp only [hne, Bool.false_eq_true, if_false]
  rw [e1, e2, e3, e4]
  by_cases ci : (endsWith w ['i'] && decide (w.length > 1)) = true
  · obtain ⟨r, hr, hwr⟩ := hi.mp ci
    have hs := hslice r 'i' hwr
    by_cases ce : (endsWith w ['e'] && decide (w.length > 1)) = true
    · obtain ⟨r2, _, hwr2⟩ := he.mp ce
      rw [hwr] at hwr2
      have := List.append_inj_right' hwr2 rfl
      simp at this
    · simp only [ci, ce, Bool.false_eq_true, if_true, if_false, mem_setAdd, List.not_mem_nil,
        false_or, hs]
      constructor
      · rintro ((h | h) | h)
        · exact Or.inl h
        · exact Or.inr ⟨r, hr, Or.inl hwr, Or.inl h⟩
        · exact Or.inr ⟨r, hr, Or.inl hwr, Or.inr h⟩
      · rintro (h | ⟨r3, _, h3 | h3, h4⟩)
        · exact Or.inl (Or.inl h)
        · rw [hwr] at h3
          have hr3 : r = r3 := List.append_inj_left' h3 rfl
          subst hr3
          rcases h4 with h4 | h4
          · exact Or.inl (Or.inr h4)
          · exact Or.inr h4
        · rw [hwr] at h3
          have := List.append_inj_right' h3 rfl
          simp at this
  · by_cases ce : (endsWith w ['e'] && decide (w.length > 1)) = true
    · obtain ⟨r, hr, hwr⟩ := he.mp ce
      have hs := hslice r 'e' hwr
      simp only [ci, ce, Bool.false_eq_true, if_true, if_false, mem_setAdd, List.not_mem_nil,
        false_or, hs]
      constructor
      · rintro ((h | h) | h)
        · exact Or.inl h
        · exact Or.inr ⟨r, hr, Or.inr hwr, Or.inr h⟩
        · exact Or.inr ⟨r, hr, Or.inr hwr, Or.inl h⟩
      · rintro (h | ⟨r3, _, h3 | h3, h4⟩)
        · exact Or.inl (Or.inl h)
        · rw [hwr] at h3
          have := List.append_inj_right' h3 rfl
          simp at this
        · rw [hwr] at h3
          have hr3 : r = r3 := List.append_inj_left' h3 rfl
          subst hr3
          rcases h4 with h4 | h4
          · exact Or.inr h4
          · exact Or.inl (Or.inr h4)
    · simp only [ci, ce, Bool.false_eq_true, if_false, mem_setAdd, List.not_mem_nil, false_or]
      constructor
      · exact Or.inl
      · rintro (h | ⟨r3, hr3, h3 | h3, _⟩)
        · exact h
        · exact absurd (hi.mpr ⟨r3, hr3, h3⟩) ci
        · exact absurd (he.mpr ⟨r3, hr3, h3⟩) ce

theorem nodup_depluralizeItalian (word : Str) : (depluralizeItalian word).Nodup := by
  unfold depluralizeItalian
  simp only
  split_ifs <;>
    first
      | exact List.nodup_nil
      | exact nodup_setAdd _ _ List.nodup_nil
      | exact nodup_setAdd _ _ (nodup_setAdd _ _ (nodup_setAdd _ _ List.nodup_nil))
      | exact nodup_setAdd _ _ (nodup_setAdd _ _ (nodup_setAdd _ _
          (nodup_setAdd _ _ (nodup_setAdd _ _ List.nodup_nil))))

/-- Claim C9 (counterexample): the capitalised word `Gatti` is not among its own
singular forms, and the empty word has no form at all. -/
theorem depluralizeItalian_word_missing :
    "Gatti".toList ∉ depluralizeItalian "Gatti".toList ∧
    ([] : Str) ∉ depluralizeItalian [] := by
  decide

/-- Claim C9 (amended): when the lower-cased, trimmed form of the word is not
empty, that form is among the results. -/
theorem depluralizeItalian_contains_normalized (word : Str)
    (hw : trim (toLowerCase word) ≠ []) :
    trim (toLowerCase word) ∈ depluralizeItalian word :=
  (mem_depluralizeItalian word _ hw).mpr (Or.inl rfl)

/-- Witness of `depluralizeItalian_contains_normalized` at the word `Gatti`. -/
theorem depluralizeItalian_contains_normalized_witness :
    trim (toLowerCase "Gatti".toList) ≠ [] ∧
    trim (toLowerCase "Gatti".toList) ∈ depluralizeItalian "Gatti".toList :=
  ⟨by decide, depluralizeItalian_contains_normalized "Gatti".toList (by decide)⟩

/-- Claim C10: `depluralizeItalian` is its two-rule reference definition.  With
`w` the lower-cased, trimmed word, the result is empty when `w` is empty, and
otherwise its elements are exactly those of `IsDepluralization w`, each listed
once; the results for `gatti` include `gatti`, `gatto` and `gatta`. -/
theorem depluralizeItalian_reference (word : Str) :
    (trim (toLowerCase word) = [] → depluralizeItalian word = []) ∧
    (trim (toLowerCase word) ≠ [] →
      ∀ v, v ∈ depluralizeItalian word ↔ IsDepluralization (trim (toLowerCase word)) v) ∧
    (depluralizeItalian word).Nodup ∧
    ("gatti".toList ∈ depluralizeItalian "gatti".toList ∧
      "gatto".toList ∈ depluralizeItalian "gatti".toList ∧
      "gatta".toList ∈ depluralizeItalian "gatti".toList) := by
  refine ⟨?_, fun hw v => mem_depluralizeItalian word v hw, nodup_depluralizeItalian word,
    by decide⟩
  intro hw
  unfold depluralizeItalian
  simp [hw]

/-! ## The matching engine -/

theorem analyzeToken_token (cache : Cache) (lang : String) (skip : Bool) (token : Str) :
    (analyzeToken cache lang skip token).token = token := by
  unfold analyzeToken
  simp only
  split_ifs <;> rfl

theorem generateVariants_nil_subset (lang : String) : ∀ v ∈ generateVariants [] lang, v = [] := by
  intro v hv
  by_cases hlang : lang = "it" ∨ lang = "es" ∨ lang = "en"
  · exfalso
    rcases hlang with h | h | h <;> subst h <;> revert hv <;> revert v <;> decide
  · have h1 : lang ≠ "it" := fun h => hlang (Or.inl h)
    have h2 : lang ≠ "es" := fun h => hlang (Or.inr (Or.inl h))
    have h3 : lang ≠ "en" := fun h => hlang (Or.inr (Or.inr h))
    simpa [generateVariants, h1, h2, h3] using hv

/-- Claim C5 (counterexample): with `corrare` also known, the query term of
`corro` is `corrare`, the first known variant, and not `correre`; and with stop
words skipped the stop word `ho` has no query term although `ho` is unknown and
its variant `avere` is known. -/
theorem analyzePhrase_query_term_counterexample :
    ("correre".toList ∈ ["corrare".toList, "correre".toList] ∧
      "corro".toList ∉ ["corrare".toList, "correre".toList] ∧
      (analyzePhrase ⟨[], ["corrare".toList, "correre".toList], true⟩ "corro".toList "it"
        true).map (fun r => r.queryTerm) = [some "corrare".toList]) ∧
    (sanitizeWord "ho".toList ∉ ["avere".toList] ∧
      "avere".toList ∈ generateVariants (sanitizeWord "ho".toList) "it" ∧
      (analyzePhrase ⟨[], ["avere".toList], true⟩ "ho".toList "it" true).map
        (fun r => r.queryTerm) = [none]) := by
  decide

/-- Claim C5 (amended): when the known keywords hold `correre` and neither
`corro` nor `corrare`, the query term of the phrase `corro` is `correre`; and
for every token whose sanitized key is not a skipped stop word and is unknown
while some generated variant is known, the query term is the first known
variant in the order of the variant list. -/
theorem analyzePhrase_query_term (cache : Cache) (skip : Bool) :
    ("correre".toList ∈ cache.keywordEntries → "corro".toList ∉ cache.keywordEntries →
      "corrare".toList ∉ cache.keywordEntries →
      (analyzePhrase cache "corro".toList "it" skip).map (fun r => r.queryTerm) =
        [some "correre".toList]) ∧
    (∀ (lang : String) (token : Str),
      ¬ (skip = true ∧ sanitizeWord token ∈ (STOP_WORDS lang).getD []) →
      sanitizeWord token ∉ cache.keywordEntries →
      (∃ v ∈ generateVariants (sanitizeWord token) lang, v ∈ cache.keywordEntries) →
      ∃ pre v post, generateVariants (sanitizeWord token) lang = pre ++ v :: post ∧
        v ∈ cache.keywordEntries ∧ (∀ u ∈ pre, u ∉ cache.keywordEntries) ∧
        (analyzeToken cache lang skip token).queryTerm = some v) := by
  constructor
  · intro h1 h2 h3
    have htok : tokenize "corro".toList = ["corro".toList] := by decide
    have hsan : sanitizeWord "corro".toList = "corro".toList := by decide
    have hvars : generateVariants "corro".toList "it" =
        ["corro".toList, "corrare".toList, "correre".toList, "corrire".toList] := by decide
    have hstop : ((STOP_WORDS "it").getD []).contains "corro".toList = false := by decide
    have hne : ("corro".toList).isEmpty = false := by decide
    have c1 : cache.keywordEntries.contains "correre".toList = true := List.elem_iff.mpr h1
    have c2 : cache.keywordEntries.contains "corro".toList = false := by
      rw [Bool.eq_false_iff]; exact fun h => h2 (List.elem_iff.mp h)
    have c3 : cache.keywordEntries.contains "corrare".toList = false := by
      rw [Bool.eq_false_iff]; exact fun h => h3 (List.elem_iff.mp h)
    unfold analyzePhrase
    rw [htok]
    simp only [List.map_cons, List.map_nil]
    unfold analyzeToken
    simp only [hsan, hne, hstop, c2, Bool.and_false, Bool.or_false, Bool.false_eq_true, if_false]
    rw [hvars,
      List.find?_cons_of_neg _
        (by show ¬ cache.keywordEntries.contains "corro".toList = true; rw [c2]; decide),
      List.find?_cons_of_neg _
        (by show ¬ cache.keywordEntries.contains "corrare".toList = true; rw [c3]; decide),
      List.find?_cons_of_pos _
        (by show cache.keywordEntries.contains "correre".toList = true; exact c1)]
    rfl
  · intro lang token hstop hkey hvar
    obtain ⟨v0, hv0, hk0⟩ := hvar
    have hne : (sanitizeWord token).isEmpty = false := by
      cases hs : sanitizeWord token with
      | nil =>
        rw [hs] at hv0 hkey
        have := generateVariants_nil_subset lang v0 hv0
        rw [this] at hk0
        exact absurd hk0 hkey
      | cons a t => rfl
    have hstop2 : (skip && ((STOP_WORDS lang).getD []).contains (sanitizeWord token)) = false := by
      rw [Bool.eq_false_iff]
      intro h
      rw [Bool.and_eq_true] at h
      exact hstop ⟨h.1, List.elem_iff.mp h.2⟩
    have hkey2 : cache.keywordEntries.contains (sanitizeWord token) = false := by
      rw [Bool.eq_false_iff]; exact fun h => hkey (List.elem_iff.mp h)
    cases hf : (generateVariants (sanitizeWord token) lang).find?
        fun v => cache.keywordEntries.contains v with
    | none =>
      rw [List.find?_eq_none] at hf
      exact absurd (List.elem_iff.mpr hk0) (hf v0 hv0)
    | some v =>
      obtain ⟨hpv, pre, post, hsplit, hpre⟩ := List.find?_eq_some.mp hf
      refine ⟨pre, v, post, hsplit, List.elem_iff.mp hpv, ?_, ?_⟩
      · intro u hu hmem
        have := hpre u hu
        have hcu : cache.keywordEntries.contains u = true := List.elem_iff.mpr hmem
        rw [hcu] at this
        exact absurd this (by decide)
      · simp only [analyzeToken, hne, hstop2, hkey2, hf, Bool.or_false, Bool.false_eq_true,
          if_false, Option.getD_some]

/-- Witness of `analyzePhrase_query_term`: the known keywords are `correre`
alone. -/
theorem analyzePhrase_query_term_witness :
    (analyzePhrase ⟨[], ["correre".toList], true⟩ "corro".toList "it" true).map
      (fun r => r.queryTerm) = [some "correre".toList] :=
  (analyzePhrase_query_term ⟨[], ["correre".toList], true⟩ true).1 (by decide) (by decide)
    (by decide)

/-- Claim C6: with stop words skipped, every token of a phrase whose sanitized
form is a stop word of the language (`it`, `es` or `en`) has no query term and
the lemma `null`. -/
theorem analyzePhrase_stop_word (cache : Cache) (text : Str) (lang : String)
    (_hlang : lang = "it" ∨ lang = "es" ∨ lang = "en") (r : TokenResult)
    (hr : r ∈ analyzePhrase cache text lang true)
    (hstop : sanitizeWord r.token ∈ (STOP_WORDS lang).getD []) :
    r.queryTerm = none ∧ r.analysis.lemma_ = none := by
  unfold analyzePhrase at hr
  obtain ⟨t, _, rfl⟩ := List.mem_map.mp hr
  rw [analyzeToken_token] at hstop
  have hc : ((STOP_WORDS lang).getD []).contains (sanitizeWord t) = true :=
    List.elem_iff.mpr hstop
  unfold analyzeToken
  simp only [hc, Bool.and_true, Bool.or_true, if_true, and_self]

/-- Witness of `analyzePhrase_stop_word` at the token `Ho` of the Italian phrase
`Ho fame`. -/
theorem analyzePhrase_stop_word_witness :
    ("it" = "it" ∨ "it" = "es" ∨ "it" = "en") ∧
    analyzeToken ⟨[], ["fame".toList], true⟩ "it" true "Ho".toList ∈
      analyzePhrase ⟨[], ["fame".toList], true⟩ "Ho fame".toList "it" true ∧
    sanitizeWord (analyzeToken ⟨[], ["fame".toList], true⟩ "it" true "Ho".toList).token ∈
      (STOP_WORDS "it").getD [] ∧
    (analyzeToken ⟨[], ["fame".toList], true⟩ "it" true "Ho".toList).queryTerm = none ∧
    (analyzeToken ⟨[], ["fame".toList], true⟩ "it" true "Ho".toList).analysis.lemma_ = none :=
  ⟨Or.inl rfl, by decide, by decide,
    analyzePhrase_stop_word ⟨[], ["fame".toList], true⟩ "Ho fame".toList "it" (Or.inl rfl)
      (analyzeToken ⟨[], ["fame".toList], true⟩ "it" true "Ho".toList) (by decide) (by decide)⟩

/-! ## The tense detector -/

theorem detectTense_it (term : Str) :
    detectTense term "it" =
      if testEnd futureEndings (toLowerCase term) then some Tense.future
      else if futIr.contains (toLowerCase term) then some Tense.future
      else if testEnd participleEndings (toLowerCase term) then some Tense.past
      else if impSuffixes.any (endsWith (toLowerCase term)) then some Tense.past
      else if remSuffixes.any (endsWith (toLowerCase term)) then some Tense.past
      else none := by
  unfold detectTense
  rw [if_pos rfl]
  rfl

theorem detectTense_es (term : Str) :
    detectTense term "es" =
      if testEnd spanishFutureEndings (toLowerCase term) then some Tense.future
      else if testEnd spanishPastEndings (toLowerCase term) then some Tense.past
      else none := by
  unfold detectTense
  rw [if_neg (by decide), if_pos rfl]
  rfl

theorem detectTense_en (term : Str) :
    detectTense term "en" =
      if "will".toList.isPrefixOf (toLowerCase term) &&
          (match (toLowerCase term)[4]? with
            | some c => !isWordChar c
            | none => true) then
        some Tense.future
      else if testEnd ["ed".toList] (toLowerCase term) then some Tense.past
      else none := by
  unfold detectTense
  rw [if_neg (by decide), if_neg (by decide), if_pos rfl]

theorem endsWith_append_eq_false (x suf alt : Str) (h1 : alt.isSuffixOf suf = false)
    (h2 : suf.isSuffixOf alt = false) : endsWith (x ++ suf) alt = false := by
  rw [Bool.eq_false_iff]
  intro h
  unfold endsWith at h
  rw [List.isSuffixOf_iff_suffix] at h
  rcases List.suffix_or_suffix_of_suffix h (List.suffix_append x suf) with h3 | h3
  · rw [← List.isSuffixOf_iff_suffix, h1] at h3
    exact absurd h3 (by decide)
  · rw [← List.isSuffixOf_iff_suffix, h2] at h3
    exact absurd h3 (by decide)

theorem testEnd_append_eq_false (alts : List Str) (x suf : Str)
    (h : ∀ alt ∈ alts, alt.isSuffixOf suf = false ∧ suf.isSuffixOf alt = false) :
    testEnd alts (x ++ suf) = false := by
  unfold testEnd
  rw [List.any_eq_false]
  intro alt halt
  rw [endsWith_append_eq_false x suf alt (h alt halt).1 (h alt halt).2]
  decide

theorem contains_append_eq_false (l : List Str) (x suf : Str)
    (h : ∀ f ∈ l, suf.isSuffixOf f = false) : l.contains (x ++ suf) = false := by
  rw [Bool.eq_false_iff]
  intro hc
  have hmem : x ++ suf ∈ l := List.elem_iff.mp hc
  have h1 := h _ hmem
  have h2 : suf.isSuffixOf (x ++ suf) = true :=
    List.isSuffixOf_iff_suffix.mpr (List.suffix_append x suf)
  rw [h1] at h2
  exact absurd h2 (by decide)

theorem impSuffixes_not_future :
    ∀ suf ∈ impSuffixes,
      (∀ alt ∈ futureEndings, alt.isSuffixOf suf = false ∧ suf.isSuffixOf alt = false) ∧
      (∀ f ∈ futIr, suf.isSuffixOf f = false) := by
  decide

/-- Claim C12: a term whose lower-cased form ends in one of the 18 Italian
imperfect suffixes has the tense `past`; so has `mangiavano`. -/
theorem detectTense_imperfect (term suf : Str) (hsuf : suf ∈ impSuffixes)
    (hend : endsWith (toLowerCase term) suf = true) :
    detectTense term "it" = some Tense.past ∧
    detectTense "mangiavano".toList "it" = some Tense.past := by
  refine ⟨?_, by decide⟩
  obtain ⟨x, hx⟩ := (endsWith_iff _ _).mp hend
  have t1 : testEnd futureEndings (toLowerCase term) = false := by
    rw [hx]
    exact testEnd_append_eq_false _ _ _ (impSuffixes_not_future suf hsuf).1
  have t2 : futIr.contains (toLowerCase term) = false := by
    rw [hx]
    exact contains_append_eq_false _ _ _ (impSuffixes_not_future suf hsuf).2
  have t4 : impSuffixes.any (endsWith (toLowerCase term)) = true :=
    List.any_eq_true.mpr ⟨suf, hsuf, hend⟩
  rw [detectTense_it, t1, t2, t4]
  cases testEnd participleEndings (toLowerCase term) <;> rfl

/-- Witness of `detectTense_imperfect` at the term `Parlavo` and the suffix
`avo`. -/
theorem detectTense_imperfect_witness :
    "avo".toList ∈ impSuffixes ∧ endsWith (toLowerCase "Parlavo".toList) "avo".toList = true ∧
    detectTense "Parlavo".toList "it" = some Tense.past :=
  ⟨by decide, by decide,
    (detectTense_imperfect "Parlavo".toList "avo".toList (by decide) (by decide)).1⟩

/-- Claim C16: for a language tag other than `it`, `es` and `en` the tense of
any term is `null`. -/
theorem detectTense_unsupported (term : Str) (lang : String) (hit : lang ≠ "it")
    (hes : lang ≠ "es") (hen : lang ≠ "en") : detectTense term lang = none := by
  unfold detectTense
  rw [if_neg hit, if_neg hes, if_neg hen]

/-- Witness of `detectTense_unsupported` at the term `mangiavano` and the tag
`fr`. -/
theorem detectTense_unsupported_witness :
    ("fr" ≠ "it" ∧ "fr" ≠ "es" ∧ "fr" ≠ "en") ∧ detectTense "mangiavano".toList "fr" = none :=
  ⟨by decide,
    detectTense_unsupported "mangiavano".toList "fr" (by decide) (by decide) (by decide)⟩

theorem infinitive_not_tensed_it :
    ∀ inf ∈ ["are", "ere", "ire"].map String.toList,
      (∀ alt ∈ futureEndings, alt.isSuffixOf inf = false ∧ inf.isSuffixOf alt = false) ∧
      (∀ f ∈ futIr, inf.isSuffixOf f = false) ∧
      (∀ alt ∈ participleEndings, alt.isSuffixOf inf = false ∧ inf.isSuffixOf alt = false) ∧
      (∀ alt ∈ impSuffixes, alt.isSuffixOf inf = false ∧ inf.isSuffixOf alt = false) ∧
      (∀ alt ∈ remSuffixes, alt.isSuffixOf inf = false ∧ inf.isSuffixOf alt = false) := by
  decide

theorem infinitive_not_tensed_es :
    ∀ inf ∈ ["ar", "er", "ir"].map String.toList,
      (∀ alt ∈ spanishFutureEndings,
        alt.isSuffixOf inf = false ∧ inf.isSuffixOf alt = false) ∧
      (∀ alt ∈ spanishPastEndings, alt.isSuffixOf inf = false ∧ inf.isSuffixOf alt = false) := by
  decide

/-- Claim C17: infinitives carry no tense.  A term whose lower-cased form ends
in `are`, `ere` or `ire` has the Italian tense `null`, and a term whose
lower-cased form ends in `ar`, `er` or `ir` has the Spanish tense `null`. -/
theorem detectTense_infinitive (term : Str) :
    (∀ inf ∈ ["are", "ere", "ire"].map String.toList,
      endsWith (toLowerCase term) inf = true → detectTense term "it" = none) ∧
    (∀ inf ∈ ["ar", "er", "ir"].map String.toList,
      endsWith (toLowerCase term) inf = true → detectTense term "es" = none) := by
  constructor
  · intro inf hinf hend
    obtain ⟨x, hx⟩ := (endsWith_iff _ _).mp hend
    obtain ⟨h1, h2, h3, h4, h5⟩ := infinitive_not_tensed_it inf hinf
    have t1 := testEnd_append_eq_false _ x inf h1
    have t2 := contains_append_eq_false _ x inf h2
    have t3 := testEnd_append_eq_false _ x inf h3
    have t4 := testEnd_append_eq_false _ x inf h4
    have t5 := testEnd_append_eq_false _ x inf h5
    unfold testEnd at t4 t5
    rw [detectTense_it, hx, t1, t2, t3, t4, t5]
    rfl
  · intro inf hinf hend
    obtain ⟨x, hx⟩ := (endsWith_iff _ _).mp hend
    obtain ⟨h1, h2⟩ := infinitive_not_tensed_es inf hinf
    have t1 := testEnd_append_eq_false _ x inf h1
    have t2 := testEnd_append_eq_false _ x inf h2
    rw [detectTense_es, hx, t1, t2]
    rfl

/-- Witness of `detectTense_infinitive`: the Italian `Mangiare` and the Spanish
`hablar`. -/
theorem detectTense_infinitive_witness :
    detectTense "Mangiare".toList "it" = none ∧ detectTense "hablar".toList "es" = none :=
  ⟨(detectTense_infinitive "Mangiare".toList).1 "are".toList (by decide) (by decide),
    (detectTense_infinitive "hablar".toList).2 "ar".toList (by decide) (by decide)⟩

/-! ## Rules of the variant generators -/

theorem mem_italianCandidates_of_imp (term v : Str)
    (h : v ∈ impTable.flatMap (guardedSuffix term)) : v ∈ italianCandidates term := by
  unfold italianCandidates
  simp only [List.mem_append]
  unfold impTable at h
  repeat (first | exact Or.inr h | apply Or.inl)

theorem mem_italianCandidates_of_irregularFuture (term : Str) (e : Str × List Str)
    (h : (irregularFutureMap.find? fun e => e.2.contains term) = some e) :
    e.1 ∈ italianCandidates term := by
  have h2 : e.1 ∈ (match irregularFutureMap.find? fun e => e.2.contains term with
      | some e => [e.1]
      | none => []) := by
    rw [h]
    exact List.mem_singleton.mpr rfl
  unfold italianCandidates
  simp only [List.mem_append]
  repeat (first | exact Or.inr h2 | apply Or.inl)

theorem guardedSuffix_append (r : Str) (p : Str × Str) (hr : 2 ≤ r.length) :
    guardedSuffix (r ++ p.1) p = [r ++ p.2] := by
  unfold guardedSuffix
  have h1 : endsWith (r ++ p.1) p.1 = true := (endsWith_iff _ _).mpr ⟨r, rfl⟩
  have h2 : (r ++ p.1).length > p.1.length + 1 := by
    rw [List.length_append]
    omega
  rw [h1, sliceEnd_append]
  simp only [h2, decide_True, Bool.and_self, if_true]

/-- Claim C11: Italian imperfect reversal.  For a root of at least two
characters and a pair of the imperfect table, the variants of the root followed
by the suffix include the root followed by the infinitive ending; so the
variants of `mangiavano` include `mangiare`. -/
theorem generateVariants_imperfect (r : Str) (hr : 2 ≤ r.length) (p : Str × Str)
    (hp : p ∈ impTable) :
    r ++ p.2 ∈ generateVariants (r ++ p.1) "it" ∧
    "mangiare".toList ∈ generateVariants "mangiavano".toList "it" := by
  refine ⟨?_, by decide⟩
  rw [mem_generateVariants_supported _ _ (Or.inl rfl)]
  refine ⟨?_, Or.inl ⟨rfl, ?_⟩⟩
  · rw [List.length_append]
    omega
  · apply mem_italianCandidates_of_imp
    rw [List.mem_flatMap]
    exact ⟨p, hp, by rw [guardedSuffix_append r p hr]; exact List.mem_singleton.mpr rfl⟩

/-- Witness of `generateVariants_imperfect` at the root `parl` and the pair
`evano`, `ere`. -/
theorem generateVariants_imperfect_witness :
    2 ≤ "parl".toList.length ∧ ("evano".toList, "ere".toList) ∈ impTable ∧
    "parl".toList ++ "ere".toList ∈ generateVariants ("parl".toList ++ "evano".toList) "it" :=
  ⟨by decide, by decide,
    (generateVariants_imperfect "parl".toList (by decide) ("evano".toList, "ere".toList)
      (by decide)).1⟩

theorem irregularFutureMap_find :
    ∀ e ∈ irregularFutureMap, ∀ f ∈ e.2,
      (irregularFutureMap.find? fun e2 => e2.2.contains f) = some e ∧ 1 < e.1.length := by
  decide

/-- Claim C13: for every infinitive of the irregular future table and every
form listed for it, the Italian variants of the form include the infinitive; so
the variants of `farò` include `fare`. -/
theorem generateVariants_irregular_future (e : Str × List Str) (he : e ∈ irregularFutureMap)
    (f : Str) (hf : f ∈ e.2) :
    e.1 ∈ generateVariants f "it" ∧ "fare".toList ∈ generateVariants "farò".toList "it" := by
  refine ⟨?_, by decide⟩
  obtain ⟨h1, h2⟩ := irregularFutureMap_find e he f hf
  rw [mem_generateVariants_supported _ _ (Or.inl rfl)]
  exact ⟨h2, Or.inl ⟨rfl, mem_italianCandidates_of_irregularFuture f e h1⟩⟩

/-- Witness of `generateVariants_irregular_future` at the entry of `venire` and
its form `verranno`. -/
theorem generateVariants_irregular_future_witness :
    ("venire".toList, ["verrò", "verrai", "verrà", "verremo", "verrete", "verranno"].map
      String.toList) ∈ irregularFutureMap ∧
    "verranno".toList ∈ ["verrò", "verrai", "verrà", "verremo", "verrete", "verranno"].map
      String.toList ∧
    "venire".toList ∈ generateVariants "verranno".toList "it" :=
  ⟨by decide, by decide,
    (generateVariants_irregular_future
      ("venire".toList, ["verrò", "verrai", "verrà", "verremo", "verrete", "verranno"].map
        String.toList) (by decide) "verranno".toList (by decide)).1⟩

theorem mem_englishCandidates_of_ing (term v : Str)
    (hend : endsWith (toLowerCase term) "ing".toList = true)
    (hlen : (toLowerCase term).length > 3)
    (h : v ∈ englishRoot (sliceEnd (toLowerCase term) 3) (some "ie".toList)) :
    v ∈ englishCandidates term := by
  have h2 : v ∈ (if endsWith (toLowerCase term) "ing".toList &&
      decide ((toLowerCase term).length > 3) then
        englishRoot (sliceEnd (toLowerCase term) 3) (some "ie".toList) else []) := by
    rw [hend]
    simp only [hlen, decide_True, Bool.and_self, if_true]
    exact h
  unfold englishCandidates
  simp only [List.mem_append]
  repeat (first | exact Or.inr h2 | apply Or.inl)

/-- Claim C14: English `-ing` reduction with doubled consonant.  When the
lower-cased term is a root `r` of at least three characters whose last two
characters are equal, followed by `ing`, the English variants include the
lower-cased term, `r`, and `r` without its last character; so `running` gives
`run` and `running`, and `swimming` gives `swim`. -/
theorem generateVariants_ing_doubled (term r : Str)
    (hw : toLowerCase term = r ++ "ing".toList) (hlen : 3 ≤ r.length)
    (hdbl : r[r.length - 1]? = r[r.length - 2]?) :
    (toLowerCase term ∈ generateVariants term "en" ∧ r ∈ generateVariants term "en" ∧
      r.dropLast ∈ generateVariants term "en") ∧
    ("run".toList ∈ generateVariants "running".toList "en" ∧
      "running".toList ∈ generateVariants "running".toList "en" ∧
      "swim".toList ∈ generateVariants "swimming".toList "en") := by
  refine ⟨?_, by decide⟩
  have hend : endsWith (toLowerCase term) "ing".toList = true :=
    (endsWith_iff _ _).mpr ⟨r, hw⟩
  have hl : (toLowerCase term).length > 3 := by
    rw [hw, List.length_append]
    have : "ing".toList.length = 3 := rfl
    omega
  have hroot : sliceEnd (toLowerCase term) 3 = r := by
    rw [hw]
    exact sliceEnd_append r "ing".toList
  have hcond : (decide (r.length > 1) && (r[r.length - 1]? == r[r.length - 2]?)) = true := by
    rw [hdbl]
    simp only [beq_self_eq_true, Bool.and_true, decide_eq_true_eq]
    omega
  refine ⟨?_, ?_, ?_⟩
  · rw [mem_generateVariants_supported _ _ (Or.inr (Or.inr rfl))]
    exact ⟨by omega, Or.inr (Or.inr ⟨rfl, head_mem_englishCandidates term⟩)⟩
  · rw [mem_generateVariants_supported _ _ (Or.inr (Or.inr rfl))]
    refine ⟨by omega, Or.inr (Or.inr ⟨rfl, ?_⟩)⟩
    apply mem_englishCandidates_of_ing term r hend hl
    rw [hroot]
    unfold englishRoot
    simp only [List.mem_append, List.mem_singleton]
    exact Or.inl (Or.inl trivial)
  · rw [mem_generateVariants_supported _ _ (Or.inr (Or.inr rfl))]
    refine ⟨?_, Or.inr (Or.inr ⟨rfl, ?_⟩)⟩
    · rw [List.length_dropLast]
      omega
    · apply mem_englishCandidates_of_ing term _ hend hl
      rw [hroot]
      unfold englishRoot
      rw [hcond]
      simp only [if_true, List.mem_append, List.mem_singleton, sliceEnd, List.dropLast_eq_take]
      exact Or.inl (Or.inr trivial)

/-- Witness of `generateVariants_ing_doubled` at the term `Sitting`. -/
theorem generateVariants_ing_doubled_witness :
    toLowerCase "Sitting".toList = "sitt".toList ++ "ing".toList ∧
    3 ≤ "sitt".toList.length ∧
    "sitt".toList[("sitt".toList).length - 1]? = "sitt".toList[("sitt".toList).length - 2]? ∧
    toLowerCase "Sitting".toList ∈ generateVariants "Sitting".toList "en" ∧
    "sitt".toList ∈ generateVariants "Sitting".toList "en" ∧
    ("sitt".toList).dropLast ∈ generateVariants "Sitting".toList "en" :=
  ⟨by decide, by decide, by decide,
    (generateVariants_ing_doubled "Sitting".toList "sitt".toList (by decide) (by decide)
      (by decide)).1⟩

/-! ## English tense detection -/

theorem will_getElem (c : Char) (tail : Str) : ("will".toList ++ c :: tail)[4]? = some c := by
  rw [List.getElem?_append_right (by decide)]
  have h : 4 - "will".toList.length = 0 := by decide
  rw [h]
  exact List.getElem?_cons_zero

theorem startsWithWill_iff (w : Str) :
    ("will".toList.isPrefixOf w &&
      (match w[4]? with
        | some c => !isWordChar c
        | none => true)) = true ↔ StartsWithWill w := by
  unfold StartsWithWill
  rw [Bool.and_eq_true]
  constructor
  · rintro ⟨h1, h2⟩
    obtain ⟨rest, hrest⟩ := ( List.isPrefixOf_iff_prefix).mp h1
    refine ⟨rest, hrest.symm, ?_⟩
    subst hrest
    cases rest with
    | nil => exact Or.inl rfl
    | cons c tail =>
      refine Or.inr ⟨c, tail, rfl, ?_⟩
      rw [will_getElem] at h2
      simpa using h2
  · rintro ⟨rest, hw, hrest⟩
    subst hw
    refine ⟨( List.isPrefixOf_iff_prefix).mpr ⟨rest, rfl⟩, ?_⟩
    rcases hrest with h | ⟨c, tail, h, hc⟩
    · subst h
      rfl
    · subst h
      rw [will_getElem]
      show (!isWordChar c) = true
      rw [hc]
      rfl

theorem testEnd_singleton (suf w : Str) : testEnd [suf] w = true ↔ ∃ r, w = r ++ suf := by
  unfold testEnd
  rw [List.any_cons, List.any_nil, Bool.or_false, endsWith_iff]

/-- Claim C15: English tense detection is its reference definition.  The tense
is `future` when the lower-cased term starts with `will` followed by the end of
the string or by a character that is not a word character; otherwise `past`
when the lower-cased term ends in `ed`; otherwise `null`.  So `will run` is
`future` and `jumped` is `past`. -/
theorem detectTense_english_reference (term : Str) :
    (StartsWithWill (toLowerCase term) → detectTense term "en" = some Tense.future) ∧
    (¬ StartsWithWill (toLowerCase term) → (∃ r, toLowerCase term = r ++ "ed".toList) →
      detectTense term "en" = some Tense.past) ∧
    (¬ StartsWithWill (toLowerCase term) → (¬ ∃ r, toLowerCase term = r ++ "ed".toList) →
      detectTense term "en" = none) ∧
    (detectTense "will run".toList "en" = some Tense.future ∧
      detectTense "jumped".toList "en" = some Tense.past) := by
  refine ⟨?_, ?_, ?_, by decide⟩
  · intro h
    rw [detectTense_en, if_pos ((startsWithWill_iff _).mpr h)]
  · intro h1 h2
    rw [detectTense_en, if_neg (fun h => h1 ((startsWithWill_iff _).mp h)),
      if_pos ((testEnd_singleton _ _).mpr h2)]
  · intro h1 h2
    rw [detectTense_en, if_neg (fun h => h1 ((startsWithWill_iff _).mp h)),
      if_neg (fun h => h2 ((testEnd_singleton _ _).mp h))]

/-! ## Elision in the sanitizer -/

theorem find?_eq_some_of_unique (l : List Str) (p : Str → Bool) (s : Str) (hs : s ∈ l)
    (hp : p s = true) (hu : ∀ a ∈ l, p a = true → a = s) : l.find? p = some s := by
  induction l with
  | nil => exact absurd hs (List.not_mem_nil s)
  | cons a l ih =>
    by_cases hpa : p a = true
    · rw [List.find?_cons_of_pos _ hpa, hu a (List.mem_cons_self _ _) hpa]
    · rw [List.find?_cons_of_neg _ hpa]
      rcases List.mem_cons.mp hs with h | h
      · rw [h] at hp
        exact absurd hp hpa
      · exact ih h fun b hb => hu b (List.mem_cons_of_mem _ hb)

theorem elisionStems_spec :
    ∀ st ∈ elisionStems, st.map Char.toLower = st ∧ apostrophe ∉ st := by
  decide

theorem elision_apostrophe_index (s2 b : Str) :
    (s2 ++ apostrophe :: b)[s2.length]? = some apostrophe := by
  rw [List.getElem?_append_right (Nat.le_refl _), Nat.sub_self]
  exact List.getElem?_cons_zero

theorem elision_stem_unique (s s2 b st : Str) (hs : s ∈ elisionStems) (hst : st ∈ elisionStems)
    (hcase : s2.map Char.toLower = s)
    (h : (eqIgnoreCase ((s2 ++ apostrophe :: b).take st.length) st &&
      ((s2 ++ apostrophe :: b)[st.length]? == some apostrophe ||
        (s2 ++ apostrophe :: b)[st.length]? == some apostrophe)) = true) : st = s := by
  obtain ⟨hlow, hnot⟩ := elisionStems_spec st hst
  obtain ⟨_, hnots⟩ := elisionStems_spec s hs
  rw [Bool.and_eq_true, Bool.or_self] at h
  obtain ⟨h1, h2⟩ := h
  have h1b : ((s2 ++ apostrophe :: b).take st.length).map Char.toLower = st := by
    have := eq_of_beq h1
    rw [hlow] at this
    exact this
  have h2b : (s2 ++ apostrophe :: b)[st.length]? = some apostrophe := eq_of_beq h2
  have hap : Char.toLower apostrophe = apostrophe := by decide
  rcases Nat.lt_trichotomy st.length s2.length with hlt | heq | hgt
  · exfalso
    rw [List.getElem?_append_left hlt] at h2b
    have hmem : apostrophe ∈ s2 := List.getElem?_mem h2b
    have : Char.toLower apostrophe ∈ s2.map Char.toLower := List.mem_map_of_mem _ hmem
    rw [hap, hcase] at this
    exact hnots this
  · have htake : (s2 ++ apostrophe :: b).take st.length = s2 := List.take_left' heq.symm
    rw [htake, hcase] at h1b
    exact h1b.symm
  · exfalso
    have h3 : (((s2 ++ apostrophe :: b).take st.length).map Char.toLower)[s2.length]? =
        some apostrophe := by
      rw [List.getElem?_map, List.getElem?_take_of_lt hgt, elision_apostrophe_index]
      exact congrArg some hap
    rw [h1b] at h3
    exact hnot (List.getElem?_mem h3)

theorem stripElision_stem (s : Str) (hs : s ∈ elisionStems) (s2 : Str)
    (hcase : s2.map Char.toLower = s) (b : Str) :
    stripElision (s2 ++ apostrophe :: b) = b := by
  have hlen : s.length = s2.length := by rw [← hcase, List.length_map]
  have hfind : (elisionStems.find? fun st =>
      eqIgnoreCase ((s2 ++ apostrophe :: b).take st.length) st &&
        ((s2 ++ apostrophe :: b)[st.length]? == some apostrophe ||
          (s2 ++ apostrophe :: b)[st.length]? == some apostrophe)) = some s := by
    apply find?_eq_some_of_unique _ _ s hs
    · show (eqIgnoreCase ((s2 ++ apostrophe :: b).take s.length) s &&
        ((s2 ++ apostrophe :: b)[s.length]? == some apostrophe ||
          (s2 ++ apostrophe :: b)[s.length]? == some apostrophe)) = true
      rw [hlen, List.take_left' rfl, elision_apostrophe_index]
      unfold eqIgnoreCase
      rw [hcase, (elisionStems_spec s hs).1]
      simp only [beq_self_eq_true, Bool.or_self, Bool.and_self]
    · intro st hst hp
      exact elision_stem_unique s s2 b st hs hst hcase hp
  unfold stripElision
  rw [hfind]
  show (s2 ++ apostrophe :: b).drop (s.length + 1) = b
  rw [hlen]
  have : s2 ++ apostrophe :: b = (s2 ++ [apostrophe]) ++ b := by
    rw [List.append_assoc]
    rfl
  rw [this]
  exact List.drop_left' (by rw [List.length_append]; rfl)

/-- Claim C18: elision stripping.  For a stem of the sanitizer written in any
letter case, followed by the straight apostrophe and any string `b`, the
sanitized word is the lower-cased `b` without the punctuation class, trimmed;
so `L'Amico` gives `amico` and `dell'acqua` gives `acqua`. -/
theorem sanitizeWord_elision (s : Str) (hs : s ∈ elisionStems) (s2 : Str)
    (hcase : s2.map Char.toLower = s) (b : Str) :
    sanitizeWord (s2 ++ apostrophe :: b) =
      trim ((toLowerCase b).filter fun c => !isPunctuation c) ∧
    (sanitizeWord ("L".toList ++ apostrophe :: "Amico".toList) = "amico".toList ∧
      sanitizeWord ("dell".toList ++ apostrophe :: "acqua".toList) = "acqua".toList) := by
  refine ⟨?_, by decide⟩
  rw [sanitizeWord_eq, stripElision_stem s hs s2 hcase b]

/-- Witness of `sanitizeWord_elision` at the stem `qu` written `Qu` and the
string `Esto!`. -/
theorem sanitizeWord_elision_witness :
    "qu".toList ∈ elisionStems ∧ "Qu".toList.map Char.toLower = "qu".toList ∧
    sanitizeWord ("Qu".toList ++ apostrophe :: "Esto!".toList) =
      trim ((toLowerCase "Esto!".toList).filter fun c => !isPunctuation c) :=
  ⟨by decide, by decide,
    (sanitizeWord_elision "qu".toList (by decide) "Qu".toList (by decide) "Esto!".toList).1⟩

/-! ## Pronouns -/

/-- Claim C20 (counterexample): `si`, `ne` and `gli` are Italian pronouns of
`PRONOUNS` at which `PRONOUN_SEARCH_MAP` is not defined. -/
theorem pronoun_search_map_undefined :
    ("si".toList ∈ (PRONOUNS "it").getD [] ∧
      ((PRONOUN_SEARCH_MAP "it").getD []).lookup "si".toList = none) ∧
    ("ne".toList ∈ (PRONOUNS "it").getD [] ∧
      ((PRONOUN_SEARCH_MAP "it").getD []).lookup "ne".toList = none) ∧
    ("gli".toList ∈ (PRONOUNS "it").getD [] ∧
      ((PRONOUN_SEARCH_MAP "it").getD []).lookup "gli".toList = none) := by
  decide

/-- Claim C20 (amended): the search map is defined at every Italian pronoun of
`PRONOUNS` other than `si`, `ne` and `gli`, and at none of these three. -/
theorem pronoun_search_map_defined (p : Str) (hp : p ∈ (PRONOUNS "it").getD []) :
    (((PRONOUN_SEARCH_MAP "it").getD []).lookup p).isSome = true ↔
      p ∉ ["si", "ne", "gli"].map String.toList := by
  revert p
  decide

/-- Witness of `pronoun_search_map_defined` at the pronoun `mi`. -/
theorem pronoun_search_map_defined_witness :
    "mi".toList ∈ (PRONOUNS "it").getD [] ∧
    ((((PRONOUN_SEARCH_MAP "it").getD []).lookup "mi".toList).isSome = true ↔
      "mi".toList ∉ ["si", "ne", "gli"].map String.toList) :=
  ⟨by decide, pronoun_search_map_defined "mi".toList (by decide)⟩

/-! ## Order and range of the tense checks -/

/-- Claim C26: the Italian checks start with the future.  A term whose
lower-cased form ends in `er` or `ir` followed by one of `ò`, `ai`, `à`, `emo`,
`ete`, `anno` has the tense `future`, whatever past suffix it also ends in; so
`mangerai`, which ends in the remoto suffix `ai`, is `future`. -/
theorem detectTense_future_first (term ending : Str) (hending : ending ∈ futureEndings)
    (hend : endsWith (toLowerCase term) ending = true) :
    detectTense term "it" = some Tense.future ∧
    ("ai".toList ∈ remSuffixes ∧ endsWith (toLowerCase "mangerai".toList) "ai".toList = true ∧
      detectTense "mangerai".toList "it" = some Tense.future) := by
  refine ⟨?_, by decide⟩
  have h : testEnd futureEndings (toLowerCase term) = true := by
    unfold testEnd
    exact List.any_eq_true.mpr ⟨ending, hending, hend⟩
  rw [detectTense_it, h]
  rfl

/-- Witness of `detectTense_future_first` at the term `Finirete` and the ending
`irete`. -/
theorem detectTense_future_first_witness :
    "irete".toList ∈ futureEndings ∧
    endsWith (toLowerCase "Finirete".toList) "irete".toList = true ∧
    detectTense "Finirete".toList "it" = some Tense.future :=
  ⟨by decide, by decide,
    (detectTense_future_first "Finirete".toList "irete".toList (by decide) (by decide)).1⟩

theorem irregularFuture_forms_lower :
    ∀ e ∈ irregularFutureMap, ∀ f ∈ e.2, toLowerCase f = f ∧ f ∈ futIr := by
  decide

/-- Claim C27: the generator and the detector agree on the irregular futures.
The forms listed in `irregularFutureMap` are exactly the forms of the list
`futIr`, and every form that the generator maps to an irregular infinitive has
the tense `future`. -/
theorem irregular_future_tables_agree :
    (∀ f, f ∈ irregularFutureMap.flatMap (fun e => e.2) ↔ f ∈ futIr) ∧
    (∀ e ∈ irregularFutureMap, ∀ f ∈ e.2,
      e.1 ∈ generateVariants f "it" ∧ detectTense f "it" = some Tense.future) := by
  constructor
  · intro f
    constructor
    · intro hf
      revert f
      decide
    · intro hf
      revert f
      decide
  · intro e he f hf
    obtain ⟨hlow, hmem⟩ := irregularFuture_forms_lower e he f hf
    obtain ⟨h1, h2⟩ := irregularFutureMap_find e he f hf
    refine ⟨?_, ?_⟩
    · rw [mem_generateVariants_supported _ _ (Or.inl rfl)]
      exact ⟨h2, Or.inl ⟨rfl, mem_italianCandidates_of_irregularFuture f e h1⟩⟩
    · have hc : futIr.contains (toLowerCase f) = true := by
        rw [hlow]
        exact List.elem_iff.mpr hmem
      rw [detectTense_it, hc]
      cases testEnd futureEndings (toLowerCase f) <;> rfl

/-- Claim C29: `detectTense` never returns `present`; its result is `past`,
`future` or `null`, for every term and language tag. -/
theorem detectTense_never_present (term : Str) (lang : String) :
    detectTense term lang ≠ some Tense.present ∧
    (detectTense term lang = some Tense.past ∨ detectTense term lang = some Tense.future ∨
      detectTense term lang = none) := by
  unfold detectTense
  simp only
  split_ifs <;> simp

/-- Claim C30: in Spanish the future check shadows the preterite check on `é`.
A term whose lower-cased form ends in `é` has the tense `future`, although `é` is
also an alternative of the past pattern; so `hablé` is `future`. -/
theorem detectTense_spanish_e_acute (term : Str)
    (hend : endsWith (toLowerCase term) "é".toList = true) :
    detectTense term "es" = some Tense.future ∧
    ("é".toList ∈ spanishPastEndings ∧
      detectTense "hablé".toList "es" = some Tense.future) := by
  refine ⟨?_, by decide⟩
  have h : testEnd spanishFutureEndings (toLowerCase term) = true := by
    unfold testEnd
    exact List.any_eq_true.mpr ⟨"é".toList, by decide, hend⟩
  rw [detectTense_es, h]
  rfl

/-- Witness of `detectTense_spanish_e_acute` at the term `Comé`. -/
theorem detectTense_spanish_e_acute_witness :
    endsWith (toLowerCase "Comé".toList) "é".toList = true ∧
    detectTense "Comé".toList "es" = some Tense.future :=
  ⟨by decide, (detectTense_spanish_e_acute "Comé".toList (by decide)).1⟩

/-! ## Replacement at the end of a term -/

theorem replaceEnd_of_mem (alts : List Str) (rep a : Str) (ha : a ∈ alts) :
    replaceEnd alts rep a = rep := by
  have hc : alts.contains a = true := List.elem_iff.mpr ha
  cases a with
  | nil => unfold replaceEnd; rw [hc]; rfl
  | cons c cs => unfold replaceEnd; rw [hc]; rfl

theorem replaceEnd_append (alts : List Str) (rep s a : Str) (ha : a ∈ alts)
    (hno : ∀ t : Str, t ≠ [] → t <:+ s → t ++ a ∉ alts) :
    replaceEnd alts rep (s ++ a) = s ++ rep := by
  induction s with
  | nil => exact replaceEnd_of_mem alts rep a ha
  | cons x s ih =>
    have hnot : ¬ alts.contains (x :: (s ++ a)) = true := by
      intro hc
      exact hno (x :: s) (List.cons_ne_nil x s) (List.suffix_refl _) (List.elem_iff.mp hc)
    have hstep : replaceEnd alts rep (x :: (s ++ a)) = x :: replaceEnd alts rep (s ++ a) := by
      conv_lhs => unfold replaceEnd
      rw [if_neg hnot]
    rw [List.cons_append, hstep,
      ih fun t ht hsuf => hno t ht (hsuf.trans (List.suffix_cons x s)), List.cons_append]

theorem replaceEnd_append_of_length (alts : List Str) (rep s a : Str) (ha : a ∈ alts)
    (hlen : ∀ b ∈ alts, b.length ≤ a.length) : replaceEnd alts rep (s ++ a) = s ++ rep := by
  apply replaceEnd_append alts rep s a ha
  intro t ht _ hmem
  have h1 := hlen _ hmem
  rw [List.length_append] at h1
  have h2 : 0 < t.length := List.length_pos.mpr ht
  omega

theorem testEnd_of_mem (alts : List Str) (s a : Str) (ha : a ∈ alts) :
    testEnd alts (s ++ a) = true := by
  unfold testEnd
  exact List.any_eq_true.mpr ⟨a, ha, (endsWith_iff _ _).mpr ⟨s, rfl⟩⟩

/-! ## Italian participles, irregular presents and clitics -/

theorem mem_italianCandidates_of_participle (term v : Str)
    (h : v ∈ (if testEnd partAlternatives term then
        infEndAlternatives.map fun inf => replaceEnd partAlternatives [] term ++ inf
      else [])) : v ∈ italianCandidates term := by
  unfold italianCandidates
  simp only [List.mem_append]
  unfold partAlternatives infEndAlternatives at h
  repeat (first | exact Or.inr h | apply Or.inl)

theorem mem_italianCandidates_of_irregularPresent (term inf : Str)
    (h : IRREGULAR_PRESENT_TO_INF_it.lookup (toLowerCase term) = some inf) :
    inf ∈ italianCandidates term := by
  have h2 : inf ∈ (match IRREGULAR_PRESENT_TO_INF_it.lookup (toLowerCase term) with
      | some irregularInf => [irregularInf]
      | none => []) := by
    rw [h]
    exact List.mem_singleton.mpr rfl
  unfold italianCandidates
  simp only [List.mem_append]
  repeat (first | exact Or.inr h2 | apply Or.inl)

theorem mem_italianCandidates_of_clitic (term v : Str)
    (h : v ∈ (if testEnd (infEndAlternatives.flatMap fun e =>
        cliticAlternatives.map fun c => e ++ c) term then
        [replaceEnd cliticAlternatives [] term] else [])) : v ∈ italianCandidates term := by
  unfold italianCandidates
  simp only [List.mem_append]
  unfold cliticAlternatives infEndAlternatives at h
  repeat (first | exact Or.inr h | apply Or.inl)

theorem partAlternatives_length : ∀ b ∈ partAlternatives, b.length = 3 := by
  decide

/-- Claim C22: Italian participle reduction.  For every stem `s`, every `p`
among `at`, `it`, `ut` and every vowel `v` among `o`, `a`, `i`, `e`, the variants
of `s + p + v` include `s + are`, `s + ere` and `s + ire`; so `mangiato` gives
`mangiare`, `mangiere` and `mangiire`. -/
theorem generateVariants_participle (s p v : Str)
    (hp : p ∈ ["at", "it", "ut"].map String.toList)
    (hv : v ∈ ["o", "a", "i", "e"].map String.toList) :
    (s ++ "are".toList ∈ generateVariants (s ++ p ++ v) "it" ∧
      s ++ "ere".toList ∈ generateVariants (s ++ p ++ v) "it" ∧
      s ++ "ire".toList ∈ generateVariants (s ++ p ++ v) "it") ∧
    ("mangiare".toList ∈ generateVariants "mangiato".toList "it" ∧
      "mangiere".toList ∈ generateVariants "mangiato".toList "it" ∧
      "mangiire".toList ∈ generateVariants "mangiato".toList "it") := by
  refine ⟨?_, by decide⟩
  have hpv : p ++ v ∈ partAlternatives := by
    unfold partAlternatives
    rw [List.mem_flatMap]
    exact ⟨p, hp, List.mem_map.mpr ⟨v, hv, rfl⟩⟩
  have hterm : s ++ p ++ v = s ++ (p ++ v) := List.append_assoc s p v
  have htest : testEnd partAlternatives (s ++ p ++ v) = true := by
    rw [hterm]
    exact testEnd_of_mem _ _ _ hpv
  have hstem : replaceEnd partAlternatives [] (s ++ p ++ v) = s := by
    rw [hterm, replaceEnd_append_of_length _ _ _ _ hpv, List.append_nil]
    intro b hb
    rw [partAlternatives_length b hb, partAlternatives_length _ hpv]
  have key : ∀ inf ∈ infEndAlternatives, s ++ inf ∈ generateVariants (s ++ p ++ v) "it" := by
    intro inf hinf
    rw [mem_generateVariants_supported _ _ (Or.inl rfl)]
    refine ⟨?_, Or.inl ⟨rfl, ?_⟩⟩
    · have h3 : ∀ i ∈ infEndAlternatives, i.length = 3 := by decide
      rw [List.length_append, h3 inf hinf]
      omega
    · apply mem_italianCandidates_of_participle
      rw [htest, if_pos rfl, hstem]
      exact List.mem_map.mpr ⟨inf, hinf, rfl⟩
  exact ⟨key _ (by decide), key _ (by decide), key _ (by decide)⟩

/-- Witness of `generateVariants_participle` at the stem `fin`, with `it` and
`a`. -/
theorem generateVariants_participle_witness :
    "it".toList ∈ ["at", "it", "ut"].map String.toList ∧
    "a".toList ∈ ["o", "a", "i", "e"].map String.toList ∧
    "fin".toList ++ "are".toList ∈
      generateVariants ("fin".toList ++ "it".toList ++ "a".toList) "it" ∧
    "fin".toList ++ "ere".toList ∈
      generateVariants ("fin".toList ++ "it".toList ++ "a".toList) "it" ∧
    "fin".toList ++ "ire".toList ∈
      generateVariants ("fin".toList ++ "it".toList ++ "a".toList) "it" :=
  ⟨by decide, by decide,
    (generateVariants_participle "fin".toList "it".toList "a".toList (by decide)
      (by decide)).1⟩

theorem irregularPresent_lookup :
    ∀ p ∈ IRREGULAR_PRESENT_TO_INF_it,
      IRREGULAR_PRESENT_TO_INF_it.lookup p.1 = some p.2 ∧ 1 < p.2.length := by
  decide

/-- Claim C23: irregular present lookup.  For every key of the Italian entry of
`IRREGULAR_PRESENT_TO_INF` written in any letter case, that is for every term
whose lower-cased form is the key, the variants include the mapped
infinitive. -/
theorem generateVariants_irregular_present (term : Str) (p : Str × Str)
    (hp : p ∈ IRREGULAR_PRESENT_TO_INF_it) (hterm : toLowerCase term = p.1) :
    p.2 ∈ generateVariants term "it" := by
  obtain ⟨h1, h2⟩ := irregularPresent_lookup p hp
  rw [mem_generateVariants_supported _ _ (Or.inl rfl)]
  refine ⟨h2, Or.inl ⟨rfl, ?_⟩⟩
  apply mem_italianCandidates_of_irregularPresent
  rw [hterm]
  exact h1

/-- Witness of `generateVariants_irregular_present` at the term `È`, whose
lower-cased form is the key `è` of `essere`. -/
theorem generateVariants_irregular_present_witness :
    ("è".toList, "essere".toList) ∈ IRREGULAR_PRESENT_TO_INF_it ∧
    toLowerCase "È".toList = "è".toList ∧
    "essere".toList ∈ generateVariants "È".toList "it" :=
  ⟨by decide, by decide,
    generateVariants_irregular_present "È".toList ("è".toList, "essere".toList) (by decide)
      (by decide)⟩

theorem clitic_not_extended :
    (∀ b ∈ cliticAlternatives, ∀ c ∈ cliticAlternatives, ('e' :: c).isSuffixOf b = false) ∧
    (∀ e ∈ infEndAlternatives, e.getLast? = some 'e' ∧ e.length = 3) := by
  decide

theorem getLast?_of_suffix (t l : Str) (z : Char) (ht : t.getLast? = some z) (h : t <:+ l) :
    l.getLast? = some z := by
  obtain ⟨r, hr⟩ := h
  rw [← hr, List.getLast?_append, ht]
  rfl

/-- Claim C24: Italian clitic removal.  For every string `x`, every infinitive
ending `e` among `are`, `ere`, `ire` and every clitic `c` of the list, the
variants of `x + e + c` include `x + e`: the clitic alone is stripped. -/
theorem generateVariants_clitic (x e c : Str) (he : e ∈ ["are", "ere", "ire"].map String.toList)
    (hc : c ∈ ["la", "lo", "li", "le", "mi", "ti", "si", "ci", "vi", "ne", "gli"].map
      String.toList) :
    x ++ e ∈ generateVariants (x ++ e ++ c) "it" := by
  have hc2 : c ∈ cliticAlternatives := by
    revert c
    decide
  have he2 : e ∈ infEndAlternatives := he
  obtain ⟨hfact, hinf⟩ := clitic_not_extended
  obtain ⟨hlast, hlen⟩ := hinf e he2
  have htest : testEnd (infEndAlternatives.flatMap fun e =>
      cliticAlternatives.map fun c => e ++ c) (x ++ e ++ c) = true := by
    rw [List.append_assoc]
    apply testEnd_of_mem
    rw [List.mem_flatMap]
    exact ⟨e, he2, List.mem_map.mpr ⟨c, hc2, rfl⟩⟩
  have hrep : replaceEnd cliticAlternatives [] (x ++ e ++ c) = x ++ e := by
    rw [replaceEnd_append _ _ _ _ hc2, List.append_nil]
    intro t ht hsuf hmem
    rcases List.eq_nil_or_concat t with h | ⟨t2, z, h⟩
    · exact ht h
    · rw [List.concat_eq_append] at h
      have hz : t.getLast? = some z := by rw [h]; exact List.getLast?_concat t2
      have h1 := getLast?_of_suffix t (x ++ e) z hz hsuf
      rw [List.getLast?_append, hlast] at h1
      have hze : z = 'e' := by
        have h2 : some 'e' = some z := h1
        exact (Option.some.inj h2).symm
      have hsuf2 : ('e' :: c) <:+ t ++ c := by
        rw [h, hze]
        exact ⟨t2, by rw [List.append_assoc]; rfl⟩
      have h3 := hfact _ hmem c hc2
      rw [← List.isSuffixOf_iff_suffix, h3] at hsuf2
      exact absurd hsuf2 (by decide)
  rw [mem_generateVariants_supported _ _ (Or.inl rfl)]
  refine ⟨?_, Or.inl ⟨rfl, ?_⟩⟩
  · rw [List.length_append, hlen]
    omega
  · apply mem_italianCandidates_of_clitic
    rw [htest, if_pos rfl, hrep]
    exact List.mem_singleton.mpr rfl

/-- Witness of `generateVariants_clitic` at `d`, `are` and `gli`. -/
theorem generateVariants_clitic_witness :
    "are".toList ∈ ["are", "ere", "ire"].map String.toList ∧
    "gli".toList ∈ ["la", "lo", "li", "le", "mi", "ti", "si", "ci", "vi", "ne", "gli"].map
      String.toList ∧
    "d".toList ++ "are".toList ∈
      generateVariants ("d".toList ++ "are".toList ++ "gli".toList) "it" :=
  ⟨by decide, by decide,
    generateVariants_clitic "d".toList "are".toList "gli".toList (by decide) (by decide)⟩

/-! ## English comparatives and superlatives -/

theorem mem_englishCandidates_of_er (term v : Str)
    (hend : endsWith (toLowerCase term) "er".toList = true)
    (hlen : (toLowerCase term).length > 2)
    (h : v ∈ englishRoot (sliceEnd (toLowerCase term) 2) (some "i".toList)) :
    v ∈ englishCandidates term := by
  have h2 : v ∈ (if endsWith (toLowerCase term) "er".toList &&
      decide ((toLowerCase term).length > 2) then
        englishRoot (sliceEnd (toLowerCase term) 2) (some "i".toList) else []) := by
    rw [hend]
    simp only [hlen, decide_True, Bool.and_self, if_true]
    exact h
  unfold englishCandidates
  simp only [List.mem_append]
  repeat (first | exact Or.inr h2 | apply Or.inl)

theorem mem_englishCandidates_of_est (term v : Str)
    (hend : endsWith (toLowerCase term) "est".toList = true)
    (hlen : (toLowerCase term).length > 3)
    (h : v ∈ englishRoot (sliceEnd (toLowerCase term) 3) (some "i".toList)) :
    v ∈ englishCandidates term := by
  have h2 : v ∈ (if endsWith (toLowerCase term) "est".toList &&
      decide ((toLowerCase term).length > 3) then
        englishRoot (sliceEnd (toLowerCase term) 3) (some "i".toList) else []) := by
    rw [hend]
    simp only [hlen, decide_True, Bool.and_self, if_true]
    exact h
  unfold englishCandidates
  simp only [List.mem_append]
  repeat (first | exact Or.inr h2 | apply Or.inl)

theorem dropLast_mem_englishRoot (r : Str) (yEnd : Option Str) (hlen : 2 ≤ r.length)
    (hdbl : r[r.length - 1]? = r[r.length - 2]?) : r.dropLast ∈ englishRoot r yEnd := by
  have hcond : (decide (r.length > 1) && (r[r.length - 1]? == r[r.length - 2]?)) = true := by
    rw [hdbl]
    simp only [beq_self_eq_true, Bool.and_true, decide_eq_true_eq]
    omega
  unfold englishRoot
  rw [hcond]
  simp only [if_true, List.mem_append, List.mem_singleton, sliceEnd, List.dropLast_eq_take]
  exact Or.inl (Or.inr trivial)

theorem y_mem_englishRoot (r : Str) (hend : endsWith r "i".toList = true) :
    r.dropLast ++ "y".toList ∈ englishRoot r (some "i".toList) := by
  unfold englishRoot
  simp only [hend, if_true, List.mem_append, List.mem_singleton]
  refine Or.inr ?_
  unfold sliceEnd
  rw [List.dropLast_eq_take]
  rfl

theorem comparative_mem (term r suf v : Str) (hsuf : suf ∈ ["er", "est"].map String.toList)
    (hw : toLowerCase term = r ++ suf) (hr : 1 ≤ r.length)
    (hv : v ∈ englishRoot r (some "i".toList)) : v ∈ englishCandidates term := by
  have hend : endsWith (toLowerCase term) suf = true := (endsWith_iff _ _).mpr ⟨r, hw⟩
  have hroot : sliceEnd (toLowerCase term) suf.length = r := by
    rw [hw]
    exact sliceEnd_append r suf
  have hl : (toLowerCase term).length = r.length + suf.length := by
    rw [hw, List.length_append]
  rcases List.mem_cons.mp hsuf with h | h
  · subst h
    apply mem_englishCandidates_of_er term v hend
    · have : "er".toList.length = 2 := rfl
      omega
    · have h2 : sliceEnd (toLowerCase term) 2 = r := hroot
      rw [h2]
      exact hv
  · have h3 : suf = "est".toList := List.mem_singleton.mp h
    subst h3
    apply mem_englishCandidates_of_est term v hend
    · have : "est".toList.length = 3 := rfl
      omega
    · have h2 : sliceEnd (toLowerCase term) 3 = r := hroot
      rw [h2]
      exact hv

/-- Claim C25: English comparative and superlative reduction.  When the
lower-cased term is `r + er` or `r + est`, the variants include `r` without its
last character if `r` has at least three characters and ends in a doubled
letter, and `r` with its final `i` replaced by `y` if `r` has at least two
characters and ends in `i`; so `bigger` and `biggest` give `big`, `happier` and
`happiest` give `happy`. -/
theorem generateVariants_comparative (term r suf : Str)
    (hsuf : suf ∈ ["er", "est"].map String.toList) (hw : toLowerCase term = r ++ suf) :
    (3 ≤ r.length → r[r.length - 1]? = r[r.length - 2]? →
      r.dropLast ∈ generateVariants term "en") ∧
    (2 ≤ r.length → endsWith r "i".toList = true →
      r.dropLast ++ "y".toList ∈ generateVariants term "en") ∧
    ("big".toList ∈ generateVariants "bigger".toList "en" ∧
      "big".toList ∈ generateVariants "biggest".toList "en" ∧
      "happy".toList ∈ generateVariants "happier".toList "en" ∧
      "happy".toList ∈ generateVariants "happiest".toList "en") := by
  refine ⟨?_, ?_, by decide⟩
  · intro hlen hdbl
    rw [mem_generateVariants_supported _ _ (Or.inr (Or.inr rfl))]
    refine ⟨?_, Or.inr (Or.inr ⟨rfl, ?_⟩)⟩
    · rw [List.length_dropLast]
      omega
    · exact comparative_mem term r suf _ hsuf hw (by omega)
        (dropLast_mem_englishRoot r _ (by omega) hdbl)
  · intro hlen hend
    rw [mem_generateVariants_supported _ _ (Or.inr (Or.inr rfl))]
    refine ⟨?_, Or.inr (Or.inr ⟨rfl, ?_⟩)⟩
    · rw [List.length_append, List.length_dropLast]
      have : "y".toList.length = 1 := rfl
      omega
    · exact comparative_mem term r suf _ hsuf hw (by omega) (y_mem_englishRoot r hend)

/-- Witness of `generateVariants_comparative` at the term `Hottest`. -/
theorem generateVariants_comparative_witness :
    "est".toList ∈ ["er", "est"].map String.toList ∧
    toLowerCase "Hottest".toList = "hott".toList ++ "est".toList ∧
    3 ≤ "hott".toList.length ∧
    "hott".toList[("hott".toList).length - 1]? = "hott".toList[("hott".toList).length - 2]? ∧
    ("hott".toList).dropLast ∈ generateVariants "Hottest".toList "en" :=
  ⟨by decide, by decide, by decide, by decide,
    (generateVariants_comparative "Hottest".toList "hott".toList "est".toList (by decide)
      (by decide)).1 (by decide) (by decide)⟩

/-! ## Rules without a length guard -/

/-- Claim C21 (the code at the failing inputs): a term that is only the suffix
of the Italian gerund, participle, `-isco` or future rule gains the candidates
that the rule builds from the empty root: `are` for `ando`, `ere` and `ire` for
`endo`, the three infinitive endings for `ato`, `ire` for `isco`, `are` and `ere`
for `erò`. -/
theorem generateVariants_empty_root :
    generateVariants "ando".toList "it" =
      ["ando", "are", "andare", "andere", "andire"].map String.toList ∧
    generateVariants "endo".toList "it" =
      ["endo", "ere", "ire", "endare", "endere", "endire"].map String.toList ∧
    generateVariants "ato".toList "it" =
      ["ato", "are", "ere", "ire", "atare", "atere", "atire"].map String.toList ∧
    generateVariants "isco".toList "it" =
      ["isco", "iscare", "iscere", "iscire", "ire"].map String.toList ∧
    generateVariants "erò".toList "it" = ["erò", "are", "ere", "erare"].map String.toList := by
  decide

/-- Witness of `irregular_future_tables_agree` at the form `verranno` of
`venire`. -/
theorem irregular_future_tables_agree_witness :
    "venire".toList ∈ generateVariants "verranno".toList "it" ∧
    detectTense "verranno".toList "it" = some Tense.future :=
  irregular_future_tables_agree.2
    ("venire".toList, ["verrò", "verrai", "verrà", "verremo", "verrete", "verranno"].map
      String.toList) (by decide) "verranno".toList (by decide)

/-! ## Code units and code points -/

theorem unit_val (n : Nat) (h : n ≤ 0xFFFF) : (unit n).val = n := by
  unfold unit
  exact Nat.mod_eq_of_lt (by omega)

theorem stringToCodePoints_cons (u : CodeUnit) (s : Units)
    (h : ∀ v, s.head? = some v →
      ¬ (isLeadingSurrogate u.val = true ∧ isTrailingSurrogate v.val = true)) :
    stringToCodePoints (u :: s) = u.val :: stringToCodePoints s := by
  cases s with
  | nil => rfl
  | cons v rest =>
    have hv := h v rfl
    rw [stringToCodePoints]
    rw [if_neg]
    simpa using hv

theorem stringToCodePoints_pair (u v : CodeUnit) (s : Units)
    (hu : isLeadingSurrogate u.val = true) (hv : isTrailingSurrogate v.val = true) :
    stringToCodePoints (u :: v :: s) =
      utf16SurrogatePairToCodePoint u.val v.val :: stringToCodePoints s := by
  rw [stringToCodePoints, if_pos]
  simp [hu, hv]

theorem stringToCodePoints_le (s : Units) : ∀ c ∈ stringToCodePoints s, c ≤ 0x10FFFF := by
  induction s using stringToCodePoints.induct with
  | case1 => simp [stringToCodePoints]
  | case2 u =>
    intro c hc
    simp [stringToCodePoints] at hc
    have := u.isLt
    omega
  | case3 u v rest h ih =>
    intro c hc
    rw [stringToCodePoints, if_pos h] at hc
    rcases List.mem_cons.mp hc with h1 | h1
    · simp only [isLeadingSurrogate, isTrailingSurrogate, Bool.and_eq_true,
        decide_eq_true_eq] at h
      rw [h1]
      unfold utf16SurrogatePairToCodePoint
      omega
    · exact ih c h1
  | case4 u v rest h ih =>
    intro c hc
    rw [stringToCodePoints, if_neg h] at hc
    rcases List.mem_cons.mp hc with h1 | h1
    · have := u.isLt
      omega
    · exact ih c h1

theorem head_stringToCodePoints (s : Units) (c : Nat)
    (h : (stringToCodePoints s).head? = some c) (ht : isTrailingSurrogate c = true) :
    ∃ v, s.head? = some v ∧ v.val = c := by
  cases s with
  | nil => simp [stringToCodePoints] at h
  | cons u s2 =>
    cases s2 with
    | nil =>
      simp only [stringToCodePoints, List.head?_cons, Option.some.injEq] at h
      exact ⟨u, rfl, h⟩
    | cons v rest =>
      rw [stringToCodePoints] at h
      split_ifs at h with hp
      · exfalso
        simp only [List.head?_cons, Option.some.injEq] at h
        simp only [isLeadingSurrogate, isTrailingSurrogate, Bool.and_eq_true,
          decide_eq_true_eq] at hp ht
        unfold utf16SurrogatePairToCodePoint at h
        omega
      · simp only [List.head?_cons, Option.some.injEq] at h
        exact ⟨u, rfl, h⟩

theorem splitFree_stringToCodePoints (s : Units) : SplitFree (stringToCodePoints s) := by
  unfold SplitFree
  induction s using stringToCodePoints.induct with
  | case1 => simp [stringToCodePoints]
  | case2 u => simp [stringToCodePoints]
  | case3 u v rest h ih =>
    rw [stringToCodePoints, if_pos h]
    rw [List.chain'_cons']
    refine ⟨?_, ih⟩
    intro y _ hy
    have h1 := hy.1
    simp only [isLeadingSurrogate, isTrailingSurrogate, Bool.and_eq_true,
      decide_eq_true_eq] at h h1
    unfold utf16SurrogatePairToCodePoint at h1
    omega
  | case4 u v rest h ih =>
    rw [stringToCodePoints, if_neg h]
    rw [List.chain'_cons']
    refine ⟨?_, ih⟩
    intro y hy hyy
    obtain ⟨w, hw, hwy⟩ := head_stringToCodePoints (v :: rest) y (by simpa using hy) hyy.2
    simp only [List.head?_cons, Option.some.injEq] at hw
    subst hw
    apply h
    rw [hwy, hyy.1, hyy.2]
    rfl

theorem codePointsToString_cons (c : Nat) (cps : List Nat) :
    codePointsToString (c :: cps) = utf16EncodeCodePoint c ++ codePointsToString cps := by
  simp [codePointsToString, List.flatMap_cons]

theorem codePointsToString_append (a b : List Nat) :
    codePointsToString (a ++ b) = codePointsToString a ++ codePointsToString b := by
  simp [codePointsToString, List.flatMap_append]

theorem head_codePointsToString (cps : List Nat) (hv : ∀ c ∈ cps, c ≤ 0x10FFFF) (v : CodeUnit)
    (h : (codePointsToString cps).head? = some v) (ht : isTrailingSurrogate v.val = true) :
    ∃ c, cps.head? = some c ∧ c = v.val := by
  cases cps with
  | nil => simp [codePointsToString] at h
  | cons c rest =>
    refine ⟨c, rfl, ?_⟩
    have hc := hv c (List.mem_cons_self c rest)
    rw [codePointsToString_cons] at h
    unfold utf16EncodeCodePoint at h
    split_ifs at h with hb
    · simp only [List.singleton_append, List.head?_cons, Option.some.injEq] at h
      rw [← h, unit_val c hb]
    · exfalso
      simp only [List.cons_append, List.head?_cons, Option.some.injEq] at h
      have h1 : (unit ((c - 0x10000) / 0x400 + 0xD800)).val = (c - 0x10000) / 0x400 + 0xD800 :=
        unit_val _ (by omega)
      rw [← h, h1] at ht
      simp only [isTrailingSurrogate, Bool.and_eq_true, decide_eq_true_eq] at ht
      omega

theorem stringToCodePoints_codePointsToString (cps : List Nat)
    (hv : ∀ c ∈ cps, c ≤ 0x10FFFF) (hs : SplitFree cps) :
    stringToCodePoints (codePointsToString cps) = cps := by
  induction cps with
  | nil => rfl
  | cons c rest ih =>
    have hrest : stringToCodePoints (codePointsToString rest) = rest :=
      ih (fun x hx => hv x (List.mem_cons_of_mem c hx)) (List.Chain'.tail hs)
    have hc := hv c (List.mem_cons_self c rest)
    rw [codePointsToString_cons]
    unfold utf16EncodeCodePoint
    split_ifs with hb
    · show stringToCodePoints (unit c :: codePointsToString rest) = c :: rest
      rw [stringToCodePoints_cons, unit_val c hb, hrest]
      intro v hvh hlt
      rw [unit_val c hb] at hlt
      obtain ⟨c2, hc2, hcv⟩ :=
        head_codePointsToString rest (fun x hx => hv x (List.mem_cons_of_mem c hx)) v hvh hlt.2
      have hrel := (List.chain'_cons'.mp hs).1 c2 hc2
      apply hrel
      rw [hcv]
      exact hlt
    · show stringToCodePoints (unit ((c - 0x10000) / 0x400 + 0xD800) ::
        unit ((c - 0x10000) % 0x400 + 0xDC00) :: codePointsToString rest) = c :: rest
      have h1 : (unit ((c - 0x10000) / 0x400 + 0xD800)).val = (c - 0x10000) / 0x400 + 0xD800 :=
        unit_val _ (by omega)
      have h2 : (unit ((c - 0x10000) % 0x400 + 0xDC00)).val = (c - 0x10000) % 0x400 + 0xDC00 :=
        unit_val _ (by omega)
      have e : utf16SurrogatePairToCodePoint ((c - 0x10000) / 0x400 + 0xD800)
          ((c - 0x10000) % 0x400 + 0xDC00) = c := by
        unfold utf16SurrogatePairToCodePoint
        omega
      rw [stringToCodePoints_pair, hrest, h1, h2, e]
      · rw [h1]
        simp only [isLeadingSurrogate, Bool.and_eq_true, decide_eq_true_eq]
        omega
      · rw [h2]
        simp only [isTrailingSurrogate, Bool.and_eq_true, decide_eq_true_eq]
        omega

theorem utf16EncodeCodePoint_surrogate (c : Nat) (hc : c ≤ 0x10FFFF) (hb : ¬ c ≤ 0xFFFF) :
    ∀ u ∈ utf16EncodeCodePoint c, isSurrogate u.val = true := by
  intro u hu
  unfold utf16EncodeCodePoint at hu
  rw [if_neg hb] at hu
  have h1 : (unit ((c - 0x10000) / 0x400 + 0xD800)).val = (c - 0x10000) / 0x400 + 0xD800 :=
    unit_val _ (by omega)
  have h2 : (unit ((c - 0x10000) % 0x400 + 0xDC00)).val = (c - 0x10000) % 0x400 + 0xDC00 :=
    unit_val _ (by omega)
  simp only [List.mem_cons, List.mem_singleton, List.not_mem_nil, or_false] at hu
  rcases hu with h | h
  · rw [h, h1]
    simp only [isSurrogate, isLeadingSurrogate, isTrailingSurrogate, Bool.or_eq_true,
      Bool.and_eq_true, decide_eq_true_eq]
    omega
  · rw [h, h2]
    simp only [isSurrogate, isLeadingSurrogate, isTrailingSurrogate, Bool.or_eq_true,
      Bool.and_eq_true, decide_eq_true_eq]
    omega

theorem filter_codePointsToString (p : CodeUnit → Bool)
    (hp : ∀ u : CodeUnit, isSurrogate u.val = true → p u = true) (cps : List Nat)
    (hv : ∀ c ∈ cps, c ≤ 0x10FFFF) :
    (codePointsToString cps).filter p = codePointsToString (cps.filter (liftKeep p)) := by
  induction cps with
  | nil => rfl
  | cons c rest ih =>
    have hrest := ih (fun x hx => hv x (List.mem_cons_of_mem c hx))
    have hc := hv c (List.mem_cons_self c rest)
    rw [codePointsToString_cons, List.filter_append, hrest]
    by_cases hb : c ≤ 0xFFFF
    · have he : utf16EncodeCodePoint c = [unit c] := by
        unfold utf16EncodeCodePoint
        rw [if_pos hb]
      have hl : liftKeep p c = p (unit c) := by
        unfold liftKeep
        simp [hb]
      by_cases hpc : p (unit c) = true
      · rw [List.filter_cons_of_pos (by rw [hl]; exact hpc), codePointsToString_cons, he]
        simp [hpc]
      · rw [List.filter_cons_of_neg (by rw [hl]; exact hpc), he]
        simp [hpc]
    · have hl : liftKeep p c = true := by
        unfold liftKeep
        simp
        left
        omega
      rw [List.filter_cons_of_pos hl, codePointsToString_cons]
      congr 1
      rw [List.filter_eq_self]
      intro u hu
      exact hp u (utf16EncodeCodePoint_surrogate c hc hb u hu)

theorem dropWhile_codePointsToString (q : CodeUnit → Bool)
    (hq : ∀ u : CodeUnit, isSurrogate u.val = true → q u = false) (cps : List Nat)
    (hv : ∀ c ∈ cps, c ≤ 0x10FFFF) :
    (codePointsToString cps).dropWhile q = codePointsToString (cps.dropWhile (liftDrop q)) := by
  induction cps with
  | nil => rfl
  | cons c rest ih =>
    have hrest := ih (fun x hx => hv x (List.mem_cons_of_mem c hx))
    have hc := hv c (List.mem_cons_self c rest)
    by_cases hb : c ≤ 0xFFFF
    · have he : utf16EncodeCodePoint c = [unit c] := by
        unfold utf16EncodeCodePoint
        rw [if_pos hb]
      have hl : liftDrop q c = q (unit c) := by
        unfold liftDrop
        simp [hb]
      rw [codePointsToString_cons, he]
      by_cases hqc : q (unit c) = true
      · rw [List.dropWhile_cons_of_pos (by rw [hl]; exact hqc)]
        show List.dropWhile q (unit c :: codePointsToString rest) = _
        rw [List.dropWhile_cons_of_pos hqc, hrest]
      · rw [List.dropWhile_cons_of_neg (by rw [hl]; exact hqc), codePointsToString_cons, he]
        show List.dropWhile q (unit c :: codePointsToString rest) = _
        rw [List.dropWhile_cons_of_neg hqc]
        rfl
    · have hl : ¬ liftDrop q c = true := by
        unfold liftDrop
        simp
        intro h
        omega
      rw [List.dropWhile_cons_of_neg hl, codePointsToString_cons]
      have hs := utf16EncodeCodePoint_surrogate c hc hb
      unfold utf16EncodeCodePoint at hs ⊢
      rw [if_neg hb] at hs ⊢
      have h1 := hq _ (hs _ (List.mem_cons_self _ _))
      show List.dropWhile q (_ :: _) = _
      rw [List.dropWhile_cons_of_neg (by simp [h1])]
      rfl

theorem rdropWhile_codePointsToString (q : CodeUnit → Bool)
    (hq : ∀ u : CodeUnit, isSurrogate u.val = true → q u = false) (cps : List Nat)
    (hv : ∀ c ∈ cps, c ≤ 0x10FFFF) :
    (codePointsToString cps).rdropWhile q = codePointsToString (cps.rdropWhile (liftDrop q)) := by
  induction cps using List.reverseRecOn with
  | nil => rfl
  | append_singleton rest c ih =>
    have hrest := ih (fun x hx => hv x (List.mem_append_left _ hx))
    have hc := hv c (List.mem_append_right _ (List.mem_singleton_self c))
    rw [codePointsToString_append]
    have hone : codePointsToString [c] = utf16EncodeCodePoint c := by
      simp [codePointsToString]
    rw [hone]
    by_cases hb : c ≤ 0xFFFF
    · have he : utf16EncodeCodePoint c = [unit c] := by
        unfold utf16EncodeCodePoint
        rw [if_pos hb]
      have hl : liftDrop q c = q (unit c) := by
        unfold liftDrop
        simp [hb]
      rw [he]
      by_cases hqc : q (unit c) = true
      · rw [List.rdropWhile_concat_pos _ _ _ hqc,
          List.rdropWhile_concat_pos _ _ _ (by rw [hl]; exact hqc), hrest]
      · rw [List.rdropWhile_concat_neg _ _ _ hqc,
          List.rdropWhile_concat_neg _ _ _ (by rw [hl]; exact hqc), codePointsToString_append,
          hone, he]
    · have hl : ¬ liftDrop q c = true := by
        unfold liftDrop
        simp
        intro h
        omega
      rw [List.rdropWhile_concat_neg _ _ _ hl, codePointsToString_append, hone]
      have hs := utf16EncodeCodePoint_surrogate c hc hb
      unfold utf16EncodeCodePoint at hs ⊢
      rw [if_neg hb] at hs ⊢
      have h2 := hq _ (hs _ (List.mem_cons_of_mem _ (List.mem_singleton_self _)))
      rw [show ∀ (a b : CodeUnit), codePointsToString rest ++ [a, b] =
        (codePointsToString rest ++ [a]) ++ [b] from fun a b => by simp]
      rw [List.rdropWhile_concat_neg _ _ _ (by simp [h2])]

theorem isSurrogate_of_leading (c : Nat) (h : isLeadingSurrogate c = true) :
    isSurrogate c = true := by
  simp [isSurrogate, h]

theorem isSurrogate_of_trailing (c : Nat) (h : isTrailingSurrogate c = true) :
    isSurrogate c = true := by
  simp [isSurrogate, h]

theorem isSurrogate_of_ascii (n : Nat) (h : n < 128) : isSurrogate n = false := by
  cases hs : isSurrogate n with
  | false => rfl
  | true =>
    exfalso
    simp only [isSurrogate, isLeadingSurrogate, isTrailingSurrogate, Bool.or_eq_true,
      Bool.and_eq_true, decide_eq_true_eq] at hs
    omega

theorem splitFree_of_scalar (l : List Nat) (h : ∀ c ∈ l, isSurrogate c = false) :
    SplitFree l := by
  unfold SplitFree
  induction l with
  | nil => exact List.chain'_nil
  | cons a t ih =>
    rw [List.chain'_cons']
    refine ⟨?_, ih (fun x hx => h x (List.mem_cons_of_mem a hx))⟩
    intro y _ hy
    have := h a (List.mem_cons_self a t)
    rw [isSurrogate_of_leading a hy.1] at this
    exact absurd this (by decide)

theorem stringToCodePoints_append_scalar (pre s : Units)
    (h : ∀ u ∈ pre, isSurrogate u.val = false) :
    stringToCodePoints (pre ++ s) = pre.map Fin.val ++ stringToCodePoints s := by
  induction pre with
  | nil => rfl
  | cons a t ih =>
    have ha := h a (List.mem_cons_self a t)
    rw [List.cons_append, stringToCodePoints_cons, ih (fun u hu => h u (List.mem_cons_of_mem a hu))]
    · rfl
    · intro v _ hv
      rw [isSurrogate_of_leading _ hv.1] at ha
      exact absurd ha (by decide)

theorem isWellFormed_iff (s : Units) :
    isWellFormed s = true ↔ ∀ c ∈ stringToCodePoints s, isSurrogate c = false := by
  unfold isWellFormed
  simp [List.all_eq_true]

/-! ## Lower-casing of code points -/

theorem toLowercase_cons (d : CaseData) (before after : List Nat) (c : Nat) :
    toLowercase d before (c :: after) =
      (if c = 0x3A3 ∧ finalSigma d before after = true then [0x3C2] else d.lower c) ++
        toLowercase d (c :: before) after := by
  rw [toLowercase]

theorem mem_mapping (d : CaseData) (b : Prop) [Decidable b] (c o : Nat)
    (ho : o ∈ (if b then [0x3C2] else d.lower c)) : o = 0x3C2 ∨ o ∈ d.lower c := by
  split_ifs at ho
  · exact Or.inl (List.mem_singleton.mp ho)
  · exact Or.inr ho

theorem isSurrogate_sigma : isSurrogate 0x3C2 = false ∧ isSurrogate 0x3A3 = false := by
  constructor <;> decide

theorem CaseData.Stable.fixed_of_mem {d : CaseData} (hd : d.Stable) (c o : Nat)
    (ho : o = 0x3C2 ∨ o ∈ d.lower c) : d.Fixed o := by
  rcases ho with h | h
  · rw [h]
    exact ⟨hd.final_sigma_fixed, by decide⟩
  · refine ⟨hd.lower_fixed c o h, ?_⟩
    intro he
    have h1 := hd.lower_fixed c o h
    rw [he, hd.lower_sigma] at h1
    exact absurd h1 (by decide)

theorem fixed_of_mem_toLowercase (d : CaseData) (hd : d.Stable) (cps before : List Nat) :
    ∀ o ∈ toLowercase d before cps, d.Fixed o := by
  induction cps generalizing before with
  | nil => intro o ho; simp [toLowercase] at ho
  | cons c rest ih =>
    intro o ho
    rw [toLowercase_cons] at ho
    rcases List.mem_append.mp ho with h | h
    · exact hd.fixed_of_mem c o (mem_mapping d _ c o h)
    · exact ih _ o h

theorem toLowercase_of_fixed (d : CaseData) (cps before : List Nat)
    (h : ∀ c ∈ cps, d.Fixed c) : toLowercase d before cps = cps := by
  induction cps generalizing before with
  | nil => rfl
  | cons c rest ih =>
    have hc := h c (List.mem_cons_self c rest)
    rw [toLowercase_cons, if_neg (fun hh => hc.2 hh.1), hc.1,
      ih _ (fun x hx => h x (List.mem_cons_of_mem c hx))]
    rfl

theorem scalar_of_mem_toLowercase (d : CaseData) (hd : d.Stable) (cps before : List Nat)
    (hv : ∀ c ∈ cps, c ≤ 0x10FFFF ∧ isSurrogate c = false) :
    ∀ o ∈ toLowercase d before cps, o ≤ 0x10FFFF ∧ isSurrogate o = false := by
  induction cps generalizing before with
  | nil => intro o ho; simp [toLowercase] at ho
  | cons c rest ih =>
    intro o ho
    have hc := hv c (List.mem_cons_self c rest)
    rw [toLowercase_cons] at ho
    rcases List.mem_append.mp ho with h | h
    · rcases mem_mapping d _ c o h with h1 | h1
      · rw [h1]
        exact ⟨by omega, isSurrogate_sigma.1⟩
      · exact hd.lower_scalar c o hc.1 hc.2 h1
    · exact ih _ (fun x hx => hv x (List.mem_cons_of_mem c hx)) o h

theorem mapping_surrogate (d : CaseData) (hd : d.Stable) (b : Prop) [Decidable b] (c : Nat)
    (hc : isSurrogate c = true) :
    (if c = 0x3A3 ∧ b then [0x3C2] else d.lower c) = [c] := by
  rw [if_neg, hd.lower_surrogate c hc]
  intro hh
  rw [hh.1] at hc
  exact absurd hc (by decide)

theorem le_of_mem_toLowercase (d : CaseData) (hd : d.Stable) (cps before : List Nat)
    (hv : ∀ c ∈ cps, c ≤ 0x10FFFF) : ∀ o ∈ toLowercase d before cps, o ≤ 0x10FFFF := by
  induction cps generalizing before with
  | nil => intro o ho; simp [toLowercase] at ho
  | cons c rest ih =>
    intro o ho
    have hc := hv c (List.mem_cons_self c rest)
    rw [toLowercase_cons] at ho
    rcases List.mem_append.mp ho with h | h
    · by_cases hs : isSurrogate c = true
      · rw [mapping_surrogate d hd _ c hs] at h
        rw [List.mem_singleton.mp h]
        exact hc
      · rcases mem_mapping d _ c o h with h1 | h1
        · rw [h1]
          omega
        · exact (hd.lower_scalar c o hc (by simpa using hs) h1).1
    · exact ih _ (fun x hx => hv x (List.mem_cons_of_mem c hx)) o h

/-- The mapping of one code point, in a context. -/
theorem mapping_spec (d : CaseData) (hd : d.Stable) (b : Prop) [Decidable b] (c : Nat)
    (hc : c ≤ 0x10FFFF) :
    (if c = 0x3A3 ∧ b then [0x3C2] else d.lower c) ≠ [] ∧
    ((isSurrogate c = true ∧ (if c = 0x3A3 ∧ b then [0x3C2] else d.lower c) = [c]) ∨
      (∀ o ∈ (if c = 0x3A3 ∧ b then [0x3C2] else d.lower c), isSurrogate o = false)) := by
  constructor
  · split_ifs
    · simp
    · exact hd.lower_ne_nil c
  · by_cases hs : isSurrogate c = true
    · exact Or.inl ⟨hs, mapping_surrogate d hd b c hs⟩
    · right
      intro o ho
      rcases mem_mapping d _ c o ho with h1 | h1
      · rw [h1]
        exact isSurrogate_sigma.1
      · exact (hd.lower_scalar c o hc (by simpa using hs) h1).2

theorem head_toLowercase (d : CaseData) (hd : d.Stable) (cps before : List Nat)
    (hv : ∀ c ∈ cps, c ≤ 0x10FFFF) (y : Nat)
    (h : (toLowercase d before cps).head? = some y) (ht : isTrailingSurrogate y = true) :
    cps.head? = some y := by
  cases cps with
  | nil => simp [toLowercase] at h
  | cons c rest =>
    rw [toLowercase_cons] at h
    obtain ⟨hne, hcase⟩ := mapping_spec d hd (finalSigma d before rest = true) c
      (hv c (List.mem_cons_self c rest))
    rcases hcase with ⟨_, he⟩ | hsc
    · rw [he] at h
      simpa using h
    · exfalso
      rw [List.head?_append_of_ne_nil _ hne] at h
      have hmem := List.mem_of_mem_head? h
      have := hsc y hmem
      rw [isSurrogate_of_trailing y ht] at this
      exact absurd this (by decide)

theorem splitFree_toLowercase (d : CaseData) (hd : d.Stable) (cps before : List Nat)
    (hv : ∀ c ∈ cps, c ≤ 0x10FFFF) (hs : SplitFree cps) :
    SplitFree (toLowercase d before cps) := by
  induction cps generalizing before with
  | nil => exact List.chain'_nil
  | cons c rest ih =>
    have hrest := ih (c :: before) (fun x hx => hv x (List.mem_cons_of_mem c hx))
      (List.Chain'.tail hs)
    rw [toLowercase_cons]
    obtain ⟨_, hcase⟩ := mapping_spec d hd (finalSigma d before rest = true) c
      (hv c (List.mem_cons_self c rest))
    unfold SplitFree
    apply List.Chain'.append
    · rcases hcase with ⟨_, he⟩ | hsc
      · rw [he]
        exact List.chain'_singleton c
      · exact splitFree_of_scalar _ hsc
    · exact hrest
    · intro x hx y hy hxy
      rcases hcase with ⟨_, he⟩ | hsc
      · rw [he] at hx
        have hxc : x = c := by simpa using hx.symm
        subst hxc
        have hhead := head_toLowercase d hd rest (x :: before)
          (fun z hz => hv z (List.mem_cons_of_mem x hz)) y hy hxy.2
        exact (List.chain'_cons'.mp hs).1 y hhead hxy
      · have := hsc x (List.mem_of_mem_getLast? hx)
        rw [isSurrogate_of_leading x hxy.1] at this
        exact absurd this (by decide)

theorem toLowerCaseUnits_codePointsToString (d : CaseData) (cps : List Nat)
    (hfix : ∀ c ∈ cps, d.Fixed c) (hv : ∀ c ∈ cps, c ≤ 0x10FFFF) (hs : SplitFree cps) :
    toLowerCaseUnits d (codePointsToString cps) = codePointsToString cps := by
  unfold toLowerCaseUnits
  rw [stringToCodePoints_codePointsToString cps hv hs, toLowercase_of_fixed d cps [] hfix]

/-! ## White space and punctuation on code units -/

theorem isWhiteSpaceUnit_surrogate (u : CodeUnit) (h : isSurrogate u.val = true) :
    isWhiteSpaceUnit u = false := by
  simp only [isSurrogate, isLeadingSurrogate, isTrailingSurrogate, Bool.or_eq_true,
    Bool.and_eq_true, decide_eq_true_eq] at h
  cases hw : isWhiteSpaceUnit u with
  | false => rfl
  | true =>
    exfalso
    simp only [isWhiteSpaceUnit, Bool.or_eq_true, Bool.and_eq_true, beq_iff_eq,
      decide_eq_true_eq] at hw
    omega

theorem isPunctuationUnit_iff (u : CodeUnit) :
    isPunctuationUnit u = true ↔
      u.val ∈ [46, 44, 59, 58, 33, 63, 34, 39, 40, 41, 91, 93, 123, 125, 60, 62] := by
  unfold isPunctuationUnit
  exact List.elem_iff

theorem isPunctuationUnit_surrogate (u : CodeUnit) (h : isSurrogate u.val = true) :
    (!isPunctuationUnit u) = true := by
  simp only [isSurrogate, isLeadingSurrogate, isTrailingSurrogate, Bool.or_eq_true,
    Bool.and_eq_true, decide_eq_true_eq] at h
  cases hw : isPunctuationUnit u with
  | false => rfl
  | true =>
    exfalso
    rw [isPunctuationUnit_iff] at hw
    simp only [List.mem_cons, List.mem_singleton, List.not_mem_nil, or_false] at hw
    omega

theorem trimUnits_sublist (s : Units) : (trimUnits s).Sublist s :=
  List.Sublist.trans
    (List.IsPrefix.sublist
      ( List.rdropWhile_prefix isWhiteSpaceUnit (List.dropWhile isWhiteSpaceUnit s)))
    (List.dropWhile_sublist _)

theorem trimUnits_idem (s : Units) : trimUnits (trimUnits s) = trimUnits s := by
  unfold trimUnits
  have key : List.dropWhile isWhiteSpaceUnit
      (List.rdropWhile isWhiteSpaceUnit (List.dropWhile isWhiteSpaceUnit s)) =
      List.rdropWhile isWhiteSpaceUnit (List.dropWhile isWhiteSpaceUnit s) := by
    cases hm : List.dropWhile isWhiteSpaceUnit s with
    | nil => simp
    | cons a m =>
      have ha : ¬ isWhiteSpaceUnit a = true := by
        have h0 := List.dropWhile_get_zero_not isWhiteSpaceUnit s (by simp [hm])
        simpa [hm] using h0
      have hpre := List.rdropWhile_prefix isWhiteSpaceUnit (a :: m)
      cases ht : List.rdropWhile isWhiteSpaceUnit (a :: m) with
      | nil => simp
      | cons b t =>
        rw [ht] at hpre
        have hb : b = a := by
          obtain ⟨r, hr⟩ := hpre
          simp at hr
          exact hr.1
        subst hb
        exact List.dropWhile_cons_of_neg ha
  rw [key, List.rdropWhile_idempotent]

theorem trimUnits_head_not_whiteSpace (s : Units) (c : CodeUnit)
    (h : (trimUnits s).head? = some c) : isWhiteSpaceUnit c = false := by
  have hidem := trimUnits_idem s
  cases ht : trimUnits s with
  | nil => rw [ht] at h; simp at h
  | cons a t =>
    rw [ht] at h hidem
    have hac : a = c := by simpa using h
    subst hac
    by_contra hws
    have hws2 : isWhiteSpaceUnit a = true := by simpa using hws
    have hlen : (trimUnits (a :: t)).length ≤ t.length := by
      unfold trimUnits
      rw [List.dropWhile_cons_of_pos hws2]
      exact (List.Sublist.trans
        (List.IsPrefix.sublist ( List.rdropWhile_prefix isWhiteSpaceUnit _))
        (List.dropWhile_sublist _)).length_le
    rw [hidem] at hlen
    simp at hlen

theorem trimUnits_getLast_not_whiteSpace (s : Units) (c : CodeUnit)
    (h : (trimUnits s).getLast? = some c) : isWhiteSpaceUnit c = false := by
  unfold trimUnits at h
  by_cases hne : List.rdropWhile isWhiteSpaceUnit (List.dropWhile isWhiteSpaceUnit s) = []
  · rw [hne] at h; simp at h
  · rw [List.getLast?_eq_getLast _ hne] at h
    have := List.rdropWhile_last_not isWhiteSpaceUnit (List.dropWhile isWhiteSpaceUnit s) hne
    have hc : (List.rdropWhile isWhiteSpaceUnit
        (List.dropWhile isWhiteSpaceUnit s)).getLast hne = c := by
      simpa using h
    rw [hc] at this
    simpa using this

theorem trimCodePoints_contiguous (cps : List Nat) : trimCodePoints cps <:+: cps :=
  List.IsInfix.trans
    (List.IsPrefix.isInfix ( List.rdropWhile_prefix _ _))
    (List.IsSuffix.isInfix (List.dropWhile_suffix _))

theorem trimUnits_codePointsToString (cps : List Nat) (hv : ∀ c ∈ cps, c ≤ 0x10FFFF) :
    trimUnits (codePointsToString cps) = codePointsToString (trimCodePoints cps) := by
  unfold trimUnits trimCodePoints
  rw [dropWhile_codePointsToString _ isWhiteSpaceUnit_surrogate cps hv,
    rdropWhile_codePointsToString _ isWhiteSpaceUnit_surrogate]
  intro c hc
  exact hv c ((List.dropWhile_sublist _).subset hc)

theorem toLowerCaseUnits_trimUnits (d : CaseData) (hd : d.Stable) (s : Units) :
    toLowerCaseUnits d (trimUnits (toLowerCaseUnits d s)) = trimUnits (toLowerCaseUnits d s) := by
  have hle := le_of_mem_toLowercase d hd (stringToCodePoints s) [] (stringToCodePoints_le s)
  have hfix := fixed_of_mem_toLowercase d hd (stringToCodePoints s) []
  have hsf := splitFree_toLowercase d hd (stringToCodePoints s) [] (stringToCodePoints_le s)
    (splitFree_stringToCodePoints s)
  have hin := trimCodePoints_contiguous (toLowercase d [] (stringToCodePoints s))
  have key : trimUnits (toLowerCaseUnits d s) =
      codePointsToString (trimCodePoints (toLowercase d [] (stringToCodePoints s))) := by
    unfold toLowerCaseUnits
    exact trimUnits_codePointsToString _ hle
  rw [key]
  exact toLowerCaseUnits_codePointsToString d _
    (fun c hc => hfix c (hin.subset hc)) (fun c hc => hle c (hin.subset hc))
    ( List.Chain'.infix hsf hin)

/-! ## The case data of Unicode 14.0 -/

theorem CaseRange.clear_sound (r r2 : CaseRange) (h : r.clear r2 = true) (c : Nat)
    (hc : r.applies c = true) : r2.applies (r.target + (c - r.first)) = false := by
  cases hr : r2.applies (r.target + (c - r.first)) with
  | false => rfl
  | true =>
    exfalso
    simp only [CaseRange.clear, Bool.or_eq_true, Bool.and_eq_true, decide_eq_true_eq,
      beq_iff_eq, bne_iff_ne, Bool.not_eq_true', ne_eq] at h
    simp only [CaseRange.applies, Bool.and_eq_true, decide_eq_true_eq, beq_iff_eq] at hc hr
    rcases h with ((h | h) | h) | h
    · omega
    · omega
    · obtain ⟨⟨h1, h2⟩, h3⟩ := h
      rw [h1] at hc
      rw [h2] at hr
      omega
    · obtain ⟨h1, h2⟩ := h
      have hcf : c - r.first = 0 := by omega
      rw [hcf, Nat.add_zero] at hr
      have : r2.applies r.target = true := by
        simp only [CaseRange.applies, Bool.and_eq_true, decide_eq_true_eq, beq_iff_eq]
        exact hr
      rw [this] at h2
      exact absurd h2 (by decide)

theorem lowerRanges_clear :
    (lowerRanges.all fun r => lowerRanges.all fun r2 => r.clear r2) = true := by
  decide!

theorem lowerRanges_scalar : (lowerRanges.all fun r => r.scalar) = true := by
  decide!

theorem simpleLowercase_cases (c : Nat) :
    (simpleLowercase c = c ∧ ∀ r ∈ lowerRanges, r.applies c = false) ∨
    ∃ r ∈ lowerRanges, r.applies c = true ∧ simpleLowercase c = r.target + (c - r.first) := by
  unfold simpleLowercase
  cases hf : lowerRanges.find? fun r => r.applies c with
  | none =>
    left
    refine ⟨rfl, ?_⟩
    intro r hr
    have := List.find?_eq_none.mp hf r hr
    simpa using this
  | some r =>
    right
    have ha := List.find?_some hf
    exact ⟨r, List.mem_of_find?_eq_some hf, ha, rfl⟩

theorem simpleLowercase_of_none (c : Nat) (h : ∀ r ∈ lowerRanges, r.applies c = false) :
    simpleLowercase c = c := by
  unfold simpleLowercase
  have hf : (lowerRanges.find? fun r => r.applies c) = none := by
    rw [List.find?_eq_none]
    intro r hr
    simp [h r hr]
  rw [hf]

theorem applies_simpleLowercase (c : Nat) :
    ∀ r ∈ lowerRanges, r.applies (simpleLowercase c) = false := by
  rcases simpleLowercase_cases c with ⟨he, hn⟩ | ⟨r, hr, ha, he⟩
  · rw [he]
    exact hn
  · rw [he]
    intro r2 hr2
    exact CaseRange.clear_sound r r2
      (List.all_eq_true.mp (List.all_eq_true.mp lowerRanges_clear r hr) r2 hr2) c ha

theorem simpleLowercase_idem (c : Nat) :
    simpleLowercase (simpleLowercase c) = simpleLowercase c :=
  simpleLowercase_of_none _ (applies_simpleLowercase c)

theorem simpleLowercase_ne (c k : Nat) (hk : (lowerRanges.any fun r => r.applies k) = true) :
    simpleLowercase c ≠ k := by
  intro he
  obtain ⟨r, hr, ha⟩ := List.any_eq_true.mp hk
  have := applies_simpleLowercase c r hr
  rw [he, ha] at this
  exact absurd this (by decide)

theorem simpleLowercase_scalar (c : Nat) (hc : c ≤ 0x10FFFF) (hs : isSurrogate c = false) :
    simpleLowercase c ≤ 0x10FFFF ∧ isSurrogate (simpleLowercase c) = false := by
  rcases simpleLowercase_cases c with ⟨he, _⟩ | ⟨r, hr, ha, he⟩
  · rw [he]
    exact ⟨hc, hs⟩
  · rw [he]
    have h := List.all_eq_true.mp lowerRanges_scalar r hr
    simp only [CaseRange.scalar, Bool.or_eq_true, Bool.and_eq_true, decide_eq_true_eq] at h
    simp only [CaseRange.applies, Bool.and_eq_true, decide_eq_true_eq, beq_iff_eq] at ha
    constructor
    · omega
    · cases hsur : isSurrogate (r.target + (c - r.first)) with
      | false => rfl
      | true =>
        exfalso
        simp only [isSurrogate, isLeadingSurrogate, isTrailingSurrogate, Bool.or_eq_true,
          Bool.and_eq_true, decide_eq_true_eq] at hsur
        omega

theorem simpleLowercase_surrogate (c : Nat) (hs : isSurrogate c = true) :
    simpleLowercase c = c := by
  apply simpleLowercase_of_none
  intro r hr
  have h := List.all_eq_true.mp lowerRanges_scalar r hr
  simp only [CaseRange.scalar, Bool.or_eq_true, Bool.and_eq_true, decide_eq_true_eq] at h
  simp only [isSurrogate, isLeadingSurrogate, isTrailingSurrogate, Bool.or_eq_true,
    Bool.and_eq_true, decide_eq_true_eq] at hs
  cases ha : r.applies c with
  | false => rfl
  | true =>
    exfalso
    simp only [CaseRange.applies, Bool.and_eq_true, decide_eq_true_eq, beq_iff_eq] at ha
    omega

theorem unicode14_lower (c : Nat) :
    unicode14.lower c = if c = 0x130 then [0x69, 0x307] else [simpleLowercase c] := rfl

theorem unicode14_stable : unicode14.Stable where
  lower_fixed := by
    intro c o ho
    rw [unicode14_lower] at ho
    split_ifs at ho with hc
    · simp only [List.mem_cons, List.mem_singleton, List.not_mem_nil, or_false] at ho
      rcases ho with h | h
      · rw [h]; decide
      · rw [h]; decide
    · have ho2 : o = simpleLowercase c := by simpa using ho
      rw [unicode14_lower, if_neg, ho2, simpleLowercase_idem]
      rw [ho2]
      exact simpleLowercase_ne c 0x130 (by decide)
  lower_sigma := by decide
  final_sigma_fixed := by decide
  lower_ne_nil := by
    intro c
    rw [unicode14_lower]
    split_ifs <;> simp
  lower_surrogate := by
    intro c hs
    rw [unicode14_lower, if_neg, simpleLowercase_surrogate c hs]
    intro he
    rw [he] at hs
    exact absurd hs (by decide)
  lower_scalar := by
    intro c o hc hs ho
    rw [unicode14_lower] at ho
    split_ifs at ho with h130
    · simp only [List.mem_cons, List.mem_singleton, List.not_mem_nil, or_false] at ho
      rcases ho with h | h
      · rw [h]; exact ⟨by omega, by decide⟩
      · rw [h]; exact ⟨by omega, by decide⟩
    · have ho2 : o = simpleLowercase c := by simpa using ho
      rw [ho2]
      exact simpleLowercase_scalar c hc hs

/-! ## The sanitizer on code units -/

theorem elisionStemsUnits_ascii :
    ∀ st ∈ elisionStemsUnits, ∀ v ∈ st.map lowerAsciiUnit, v.val < 128 := by
  have h : (elisionStemsUnits.all fun st =>
      (st.map lowerAsciiUnit).all fun v => decide (v.val < 128)) = true := by
    decide
  intro st hst v hv
  have h1 := List.all_eq_true.mp h st hst
  simpa using List.all_eq_true.mp h1 v hv

theorem lowerAsciiUnit_ascii (u : CodeUnit) (h : (lowerAsciiUnit u).val < 128) : u.val < 128 := by
  unfold lowerAsciiUnit at h
  split_ifs at h with hc
  · omega
  · exact h

theorem stripElisionUnits_spec (word : Units) :
    stripElisionUnits word = word ∨
    ∃ pre : Units, (∀ u ∈ pre, u.val < 128) ∧ word = pre ++ stripElisionUnits word := by
  unfold stripElisionUnits
  cases hf : elisionStemsUnits.find? fun st =>
      eqIgnoreCaseUnits (word.take st.length) st &&
        (word[st.length]? == some apostropheUnit || word[st.length]? == some apostropheUnit) with
  | none => exact Or.inl rfl
  | some st =>
    right
    have hmem := List.mem_of_find?_eq_some hf
    have hp := List.find?_some hf
    simp only [Bool.and_eq_true, Bool.or_self, beq_iff_eq] at hp
    obtain ⟨heq, hap⟩ := hp
    unfold eqIgnoreCaseUnits at heq
    have heq2 : (word.take st.length).map lowerAsciiUnit = st.map lowerAsciiUnit := by
      simpa using heq
    refine ⟨word.take (st.length + 1), ?_, (List.take_append_drop _ _).symm⟩
    intro u hu
    rw [List.take_succ, hap] at hu
    rcases List.mem_append.mp hu with h1 | h1
    · apply lowerAsciiUnit_ascii
      apply elisionStemsUnits_ascii st hmem
      rw [← heq2]
      exact List.mem_map_of_mem _ h1
    · have : u = apostropheUnit := by simpa using h1
      rw [this]
      decide

theorem isWellFormed_stripElisionUnits (word : Units) (h : isWellFormed word = true) :
    isWellFormed (stripElisionUnits word) = true := by
  rcases stripElisionUnits_spec word with he | ⟨pre, hpre, he⟩
  · rw [he]
    exact h
  · rw [isWellFormed_iff] at h ⊢
    intro c hc
    apply h
    rw [he, stringToCodePoints_append_scalar pre _
      (fun u hu => isSurrogate_of_ascii _ (hpre u hu))]
    exact List.mem_append_right _ hc

theorem stripElisionUnits_of_not_mem (r : Units) (h : apostropheUnit ∉ r) :
    stripElisionUnits r = r := by
  unfold stripElisionUnits
  have hnone : (elisionStemsUnits.find? fun st =>
      eqIgnoreCaseUnits (r.take st.length) st &&
        (r[st.length]? == some apostropheUnit || r[st.length]? == some apostropheUnit)) =
      none := by
    rw [List.find?_eq_none]
    intro st _
    have hne : r[st.length]? ≠ some apostropheUnit := fun e => h (List.getElem?_mem e)
    simp [hne]
  rw [hnone]

theorem sanitizeWordUnits_eq (d : CaseData) (word : Units) :
    sanitizeWordUnits d word =
      trimUnits ((toLowerCaseUnits d (stripElisionUnits word)).filter fun u =>
        !isPunctuationUnit u) := by
  unfold sanitizeWordUnits
  cases word with
  | nil => rfl
  | cons a t => simp [List.isEmpty]

theorem isPunctuationUnit_of_mem_sanitizeWordUnits (d : CaseData) (word : Units) (u : CodeUnit)
    (hu : u ∈ sanitizeWordUnits d word) : isPunctuationUnit u = false := by
  rw [sanitizeWordUnits_eq] at hu
  have := (trimUnits_sublist _).subset hu
  simpa using (List.mem_filter.mp this).2

/-- The code points of a sanitized word, for a well-formed word: they are
scalar values that lower-casing leaves alone. -/
theorem sanitizeWordUnits_codePoints (d : CaseData) (hd : d.Stable) (word : Units)
    (hw : isWellFormed word = true) :
    ∃ cps : List Nat, sanitizeWordUnits d word = codePointsToString cps ∧
      ∀ c ∈ cps, d.Fixed c ∧ c ≤ 0x10FFFF ∧ isSurrogate c = false := by
  have hs := (isWellFormed_iff _).mp (isWellFormed_stripElisionUnits word hw)
  have hsc := scalar_of_mem_toLowercase d hd (stringToCodePoints (stripElisionUnits word)) []
    (fun c hc => ⟨stringToCodePoints_le _ c hc, hs c hc⟩)
  have hfix := fixed_of_mem_toLowercase d hd (stringToCodePoints (stripElisionUnits word)) []
  refine ⟨trimCodePoints ((toLowercase d [] (stringToCodePoints (stripElisionUnits word))).filter
    (liftKeep fun u => !isPunctuationUnit u)), ?_, ?_⟩
  · rw [sanitizeWordUnits_eq]
    unfold toLowerCaseUnits
    rw [filter_codePointsToString _ isPunctuationUnit_surrogate _ (fun c hc => (hsc c hc).1),
      trimUnits_codePointsToString]
    intro c hc
    exact (hsc c (List.mem_filter.mp hc).1).1
  · intro c hc
    have h1 := (List.mem_filter.mp ((trimCodePoints_contiguous _).subset hc)).1
    exact ⟨hfix c h1, hsc c h1⟩

theorem toLowerCaseUnits_sanitizeWordUnits (d : CaseData) (hd : d.Stable) (word : Units)
    (hw : isWellFormed word = true) :
    toLowerCaseUnits d (sanitizeWordUnits d word) = sanitizeWordUnits d word := by
  obtain ⟨cps, he, hc⟩ := sanitizeWordUnits_codePoints d hd word hw
  rw [he]
  exact toLowerCaseUnits_codePointsToString d cps (fun c h => (hc c h).1)
    (fun c h => (hc c h).2.1) (splitFree_of_scalar cps fun c h => (hc c h).2.2)

/-- Counterexample to claim C2 as stated.  The word U+D801 U+0027 U+DC00, two
unpaired surrogates around an apostrophe, is sanitized to U+D801 U+DC00, which
reads as the capital letter U+10400; sanitizing that word gives the small
letter U+10428, that is U+D801 U+DC28. -/
theorem sanitizeWordUnits_not_idempotent :
    sanitizeWordUnits unicode14 [unit 0xD801, apostropheUnit, unit 0xDC00] =
      [unit 0xD801, unit 0xDC00] ∧
    sanitizeWordUnits unicode14
        (sanitizeWordUnits unicode14 [unit 0xD801, apostropheUnit, unit 0xDC00]) =
      [unit 0xD801, unit 0xDC28] := by
  decide

/-- Claim C2, amended: `sanitizeWord` is idempotent on the well-formed strings.
For every word without an unpaired surrogate, sanitizing the sanitized word
gives the same word again; this holds for all case data that are stable. -/
theorem sanitizeWordUnits_idempotent (d : CaseData) (hd : d.Stable) (w : Units)
    (hw : isWellFormed w = true) :
    sanitizeWordUnits d (sanitizeWordUnits d w) = sanitizeWordUnits d w := by
  have hap : apostropheUnit ∉ sanitizeWordUnits d w := by
    intro hmem
    have := isPunctuationUnit_of_mem_sanitizeWordUnits d w _ hmem
    exact absurd this (by decide)
  have hlow := toLowerCaseUnits_sanitizeWordUnits d hd w hw
  have hfil : ((sanitizeWordUnits d w).filter fun u => !isPunctuationUnit u) =
      sanitizeWordUnits d w := by
    rw [List.filter_eq_self]
    intro u hu
    simp [isPunctuationUnit_of_mem_sanitizeWordUnits d w u hu]
  have htrim : trimUnits (sanitizeWordUnits d w) = sanitizeWordUnits d w := by
    conv_lhs => rw [sanitizeWordUnits_eq]
    rw [trimUnits_idem, ← sanitizeWordUnits_eq]
  conv_lhs => rw [sanitizeWordUnits_eq]
  rw [stripElisionUnits_of_not_mem _ hap, hlow, hfil, htrim]

/-- Witness of `sanitizeWordUnits_idempotent`, with the case data of Unicode
14.0, at the word `L'ŒΣ. `: it is well formed, it is sanitized to `œς`, and
sanitizing again changes nothing. -/
theorem sanitizeWordUnits_idempotent_witness :
    unicode14.Stable ∧
    isWellFormed (toUnits "L".toList ++ apostropheUnit :: toUnits "ŒΣ. ".toList) = true ∧
    sanitizeWordUnits unicode14
        (toUnits "L".toList ++ apostropheUnit :: toUnits "ŒΣ. ".toList) =
      toUnits "œς".toList ∧
    sanitizeWordUnits unicode14 (sanitizeWordUnits unicode14
        (toUnits "L".toList ++ apostropheUnit :: toUnits "ŒΣ. ".toList)) =
      sanitizeWordUnits unicode14
        (toUnits "L".toList ++ apostropheUnit :: toUnits "ŒΣ. ".toList) :=
  ⟨unicode14_stable, by decide, by decide!,
    sanitizeWordUnits_idempotent unicode14 unicode14_stable
      (toUnits "L".toList ++ apostropheUnit :: toUnits "ŒΣ. ".toList) (by decide)⟩

/-- Counterexample to claim C19 as stated.  The word U+D801 U+002E U+DC00, two
unpaired surrogates around a full stop, is sanitized to U+D801 U+DC00, and the
lower-casing of that result is another string, U+D801 U+DC28. -/
theorem sanitizeWordUnits_not_lower :
    sanitizeWordUnits unicode14 [unit 0xD801, unit 46, unit 0xDC00] =
      [unit 0xD801, unit 0xDC00] ∧
    toLowerCaseUnits unicode14
        (sanitizeWordUnits unicode14 [unit 0xD801, unit 46, unit 0xDC00]) =
      [unit 0xD801, unit 0xDC28] := by
  decide

/-- Claim C19, amended: a sanitized word holds no character of the punctuation
class and has no white space at its start or at its end; when the word has no
unpaired surrogate, and the case data are stable, the sanitized word is its own
lower-casing; the sanitized empty word is empty. -/
theorem sanitizeWordUnits_clean (d : CaseData) (word : Units) :
    (∀ u ∈ sanitizeWordUnits d word, isPunctuationUnit u = false) ∧
    (∀ u, (sanitizeWordUnits d word).head? = some u → isWhiteSpaceUnit u = false) ∧
    (∀ u, (sanitizeWordUnits d word).getLast? = some u → isWhiteSpaceUnit u = false) ∧
    (d.Stable → isWellFormed word = true →
      toLowerCaseUnits d (sanitizeWordUnits d word) = sanitizeWordUnits d word) ∧
    sanitizeWordUnits d [] = [] := by
  refine ⟨isPunctuationUnit_of_mem_sanitizeWordUnits d word, ?_, ?_,
    fun hd hw => toLowerCaseUnits_sanitizeWordUnits d hd word hw, rfl⟩
  · intro c h
    rw [sanitizeWordUnits_eq] at h
    exact trimUnits_head_not_whiteSpace _ c h
  · intro c h
    rw [sanitizeWordUnits_eq] at h
    exact trimUnits_getLast_not_whiteSpace _ c h

/-- Witness of `sanitizeWordUnits_clean`, with the case data of Unicode 14.0,
at the word ` İo! `: it is well formed and is sanitized to U+0069 U+0307
U+006F, whose first and last code units are neither punctuation nor white
space, and which is its own lower-casing. -/
theorem sanitizeWordUnits_clean_witness :
    unicode14.Stable ∧
    isWellFormed (toUnits " İo! ".toList) = true ∧
    sanitizeWordUnits unicode14 (toUnits " İo! ".toList) =
      [unit 0x69, unit 0x307, unit 0x6F] ∧
    isPunctuationUnit (unit 0x69) = false ∧
    isWhiteSpaceUnit (unit 0x69) = false ∧
    isWhiteSpaceUnit (unit 0x6F) = false ∧
    toLowerCaseUnits unicode14 (sanitizeWordUnits unicode14 (toUnits " İo! ".toList)) =
      sanitizeWordUnits unicode14 (toUnits " İo! ".toList) :=
  ⟨unicode14_stable, by decide, by decide,
    (sanitizeWordUnits_clean unicode14 (toUnits " İo! ".toList)).1 (unit 0x69) (by decide),
    (sanitizeWordUnits_clean unicode14 (toUnits " İo! ".toList)).2.1 (unit 0x69) (by decide),
    (sanitizeWordUnits_clean unicode14 (toUnits " İo! ".toList)).2.2.1 (unit 0x6F) (by decide),
    (sanitizeWordUnits_clean unicode14 (toUnits " İo! ".toList)).2.2.2.1 unicode14_stable
      (by decide)⟩

/-! ## Keyword index loading -/

theorem mem_entriesAdd (out : List Units) (x v : Units) :
    v ∈ entriesAdd out x ↔ v ∈ out ∨ v = x := by
  unfold entriesAdd
  by_cases h : x ∈ out
  · have hc : out.contains x = true := List.elem_iff.mpr h
    simp only [hc, if_true]
    constructor
    · exact Or.inl
    · rintro (h1 | h1)
      · exact h1
      · rw [h1]; exact h
  · have hc : ¬ out.contains x = true := fun hc => h (List.elem_iff.mp hc)
    simp only [hc, Bool.false_eq_true, if_false, List.mem_append, List.mem_singleton]

theorem mem_mapSet (m : List (Units × List Nat)) (k : Units) (ids : List Nat)
    (e : Units × List Nat) (he : e ∈ mapSet m k ids) : e ∈ m ∨ e = (k, ids) := by
  unfold mapSet at he
  split_ifs at he
  · obtain ⟨a, ha, hae⟩ := List.mem_map.mp he
    by_cases hk : (a.1 == k) = true
    · rw [if_pos hk] at hae
      exact Or.inr hae.symm
    · rw [if_neg hk] at hae
      rw [← hae]
      exact Or.inl ha
  · rcases List.mem_append.mp he with h | h
    · exact Or.inl h
    · exact Or.inr (List.mem_singleton.mp h)

theorem wellFormedIndex_step (d : CaseData) (hd : d.Stable) (cache : KeywordCache) (s : Units)
    (ids : List Nat) (hk : (trimUnits (toLowerCaseUnits d s)).isEmpty = false)
    (h : WellFormedIndex d cache) :
    WellFormedIndex d
      { cache with
        keywordEntries := entriesAdd cache.keywordEntries (trimUnits (toLowerCaseUnits d s))
        keywordIndex :=
          if ids.isEmpty then cache.keywordIndex
          else mapSet cache.keywordIndex (trimUnits (toLowerCaseUnits d s)) ids } := by
  intro e he
  have hold : e ∈ cache.keywordIndex →
      e.1 ≠ [] ∧ toLowerCaseUnits d e.1 = e.1 ∧ trimUnits e.1 = e.1 ∧
        e.1 ∈ entriesAdd cache.keywordEntries (trimUnits (toLowerCaseUnits d s)) ∧
        e.2 ≠ [] := by
    intro hmem
    obtain ⟨h1, h2, h3, h4, h5⟩ := h e hmem
    exact ⟨h1, h2, h3, (mem_entriesAdd _ _ _).mpr (Or.inl h4), h5⟩
  by_cases hids : ids.isEmpty = true
  · have he2 : e ∈ cache.keywordIndex := by
      simpa only [hids, if_true] using he
    exact hold he2
  · have he2 : e ∈ mapSet cache.keywordIndex (trimUnits (toLowerCaseUnits d s)) ids := by
      simpa only [hids, if_false] using he
    rcases mem_mapSet _ _ _ _ he2 with h1 | h1
    · exact hold h1
    · rw [h1]
      refine ⟨?_, toLowerCaseUnits_trimUnits d hd s, trimUnits_idem _,
        (mem_entriesAdd _ _ _).mpr (Or.inr rfl), ?_⟩
      · intro hnil
        have hnil2 : trimUnits (toLowerCaseUnits d s) = [] := hnil
        rw [hnil2] at hk
        exact absurd hk (by decide)
      · intro hnil
        have hnil2 : ids = [] := hnil
        rw [hnil2] at hids
        exact hids rfl

theorem wellFormedIndex_load (d : CaseData) (hd : d.Stable) (data : List Row)
    (cache : KeywordCache) (h : WellFormedIndex d cache) :
    WellFormedIndex d (loadKeywordIndexIT d cache data) := by
  induction data generalizing cache with
  | nil => exact h
  | cons row rest ih =>
    unfold loadKeywordIndexIT
    cases hv : keywordValue row with
    | falsy => exact h
    | other => exact h
    | text s =>
      simp only
      by_cases hk : (trimUnits (toLowerCaseUnits d s)).isEmpty = true
      · rw [if_pos hk]
        exact ih cache h
      · rw [if_neg hk]
        exact ih _ (wellFormedIndex_step d hd cache s (rowIds row) (by simpa using hk) h)

/-- Claim C28: loading preserves the well-formedness of the keyword index.
After `loadKeywordIndexIT` has processed an array response, from a well-formed
cache and so from the empty one, every key of `keywordIndex` is a non-empty,
lower-cased, trimmed keyword, is a member of `keywordEntries`, and maps to a
non-empty set of ids.  Lower-cased means that `toLowerCase` gives the key
back; this holds for all case data that are stable and for every response,
strings with unpaired surrogates included. -/
theorem loadKeywordIndexIT_well_formed (d : CaseData) (hd : d.Stable) (data : List Row) :
    (∀ cache, WellFormedIndex d cache → WellFormedIndex d (loadKeywordIndexIT d cache data)) ∧
    (∀ e ∈ (loadKeywordIndexIT d emptyCache data).keywordIndex,
      e.1 ≠ [] ∧ toLowerCaseUnits d e.1 = e.1 ∧ trimUnits e.1 = e.1 ∧
        e.1 ∈ (loadKeywordIndexIT d emptyCache data).keywordEntries ∧ e.2 ≠ []) := by
  refine ⟨fun cache h => wellFormedIndex_load d hd data cache h, ?_⟩
  have hempty : WellFormedIndex d emptyCache := by
    intro e he
    exact absurd he (List.not_mem_nil e)
  exact wellFormedIndex_load d hd data emptyCache hempty

/-- Witness of `loadKeywordIndexIT_well_formed`, with the case data of Unicode
14.0: a response with the rows ` ŒUF ` (pictograms 7 and 9) and `ΣΟΣ` (no
pictogram) gives the index entry `œuf`, which is its own lower-casing, is a
key of the entries and has the ids 7 and 9. -/
theorem loadKeywordIndexIT_well_formed_witness :
    unicode14.Stable ∧
    (toUnits "œuf".toList, [7, 9]) ∈
      (loadKeywordIndexIT unicode14 emptyCache
        [⟨RowField.text (toUnits " ŒUF ".toList), RowField.falsy,
            some [Pictogram.object (some 7) none, Pictogram.nullish,
              Pictogram.object none (some 9)]⟩,
          ⟨RowField.falsy, RowField.text (toUnits "ΣΟΣ".toList), none⟩]).keywordIndex ∧
    (toUnits "œuf".toList ≠ [] ∧
      toLowerCaseUnits unicode14 (toUnits "œuf".toList) = toUnits "œuf".toList ∧
      trimUnits (toUnits "œuf".toList) = toUnits "œuf".toList ∧
      toUnits "œuf".toList ∈
        (loadKeywordIndexIT unicode14 emptyCache
          [⟨RowField.text (toUnits " ŒUF ".toList), RowField.falsy,
              some [Pictogram.object (some 7) none, Pictogram.nullish,
                Pictogram.object none (some 9)]⟩,
            ⟨RowField.falsy, RowField.text (toUnits "ΣΟΣ".toList), none⟩]).keywordEntries ∧
      [7, 9] ≠ []) :=
  ⟨unicode14_stable, by decide!,
    (loadKeywordIndexIT_well_formed unicode14 unicode14_stable
      [⟨RowField.text (toUnits " ŒUF ".toList), RowField.falsy,
          some [Pictogram.object (some 7) none, Pictogram.nullish,
            Pictogram.object none (some 9)]⟩,
        ⟨RowField.falsy, RowField.text (toUnits "ΣΟΣ".toList), none⟩]).2
      (toUnits "œuf".toList, [7, 9]) (by decide!)⟩

end LimpidiSimboli
